import Mathlib

/-!
# Socket address codec and address parse job of `unit` (`src/nxt_sockaddr.c`)

A shallow embedding of the address text codec (`nxt_inet_addr`, `nxt_inet6_addr`,
`nxt_inet6_ntop`, `nxt_sockaddr_ntop`), of the socket address value and of the
address parse job (`nxt_job_sockaddr_parse` and its three grammars), followed by
theorems about them.

Conventions of the embedding:

* a byte (`u_char`) is a `Nat` below 256 and a text span (`u_char *` with a length)
  is a `List Nat`; a pointer into a span is the list of the bytes from the pointer
  to the end of the span;
* unsigned machine integers are `Nat` with an explicit `% 2 ^ w` wherever the C
  arithmetic can wrap;
* what the C headers fix per platform (byte order, integer width, address family
  numbers, structure sizes) is a field of `Platform`;
* the build is the one with `NXT_INET6` and `NXT_HAVE_UNIX_DOMAIN` enabled.
-/

namespace NxtUnit

/-! ## Platform parameters -/

/-- The platform facts that the sources take from system and configuration headers. -/
structure Platform where
  /-- Host byte order: true on a little-endian host. -/
  little_endian : Bool
  /-- The macro `NXT_LINUX`. -/
  linux : Bool
  /-- Width in bits of `nxt_uint_t`, `nxt_int_t` and `size_t`. -/
  uint_bits : Nat
  AF_UNIX : Nat
  AF_INET : Nat
  AF_INET6 : Nat
  /-- The value of `sizeof(struct sockaddr_in)`. -/
  sizeof_sockaddr_in : Nat
  /-- The value of `sizeof(struct sockaddr_in6)`. -/
  sizeof_sockaddr_in6 : Nat
  /-- The value of `offsetof(struct sockaddr_un, sun_path)`. -/
  sun_path_offset : Nat
  /-- The value of `sizeof(sun_path)`; `sun_path` is the last member of `struct sockaddr_un`
  and no padding follows it, so `sizeof(struct sockaddr_un)` is the offset plus this. -/
  sun_path_size : Nat
deriving DecidableEq

/-- Linux on x86-64. -/
def linux_x86_64 : Platform :=
  { little_endian := true, linux := true, uint_bits := 64,
    AF_UNIX := 1, AF_INET := 2, AF_INET6 := 10,
    sizeof_sockaddr_in := 16, sizeof_sockaddr_in6 := 28,
    sun_path_offset := 2, sun_path_size := 108 }

/-- A big-endian, non-Linux, 32-bit platform with BSD structure layouts. -/
def bsd_be32 : Platform :=
  { little_endian := false, linux := false, uint_bits := 32,
    AF_UNIX := 1, AF_INET := 2, AF_INET6 := 28,
    sizeof_sockaddr_in := 16, sizeof_sockaddr_in6 := 28,
    sun_path_offset := 2, sun_path_size := 104 }

/-- What every supported platform satisfies: machine words of at least 32 bits, three
distinct address family numbers and a `sun_path` member that is not empty. -/
def Platform.WF (pf : Platform) : Prop :=
  32 ≤ pf.uint_bits ∧ pf.AF_UNIX ≠ pf.AF_INET ∧ pf.AF_UNIX ≠ pf.AF_INET6 ∧
    pf.AF_INET ≠ pf.AF_INET6 ∧ 1 ≤ pf.sun_path_size

instance (pf : Platform) : Decidable pf.WF := by
  unfold Platform.WF; infer_instance

/-- The modulus of `nxt_uint_t` and `size_t` arithmetic. -/
def Platform.wrap (pf : Platform) : Nat := 2 ^ pf.uint_bits

/-- The value of `sizeof(struct sockaddr_un)`. -/
def Platform.sizeof_sockaddr_un (pf : Platform) : Nat := pf.sun_path_offset + pf.sun_path_size

/-- The largest `nxt_int_t`. -/
def Platform.NXT_INT_T_MAX (pf : Platform) : Nat := 2 ^ (pf.uint_bits - 1) - 1

/-! ## Status codes, constants, bytes -/

/-- Modelled from the spec: the status macros are declared in a header that is not among
the sources; success. -/
def NXT_OK : Int := 0

/-- Modelled from the spec: the status macros are declared in a header that is not among
the sources; a structural failure. -/
def NXT_ERROR : Int := -1

/-- Modelled from the spec: the status macros are declared in a header that is not among
the sources; the "pending" status. -/
def NXT_AGAIN : Int := -2

/-- The "no address" sentinel of `in_addr_t`. -/
def INADDR_NONE : Nat := 0xffffffff

/-- The wildcard IPv4 address. -/
def INADDR_ANY : Nat := 0

/-- Modelled from the spec: the macro is declared in a header that is not among the sources;
the length of the longest IPv6 text, "ffff:ffff:ffff:ffff:ffff:ffff:ffff:ffff". -/
def NXT_INET6_ADDR_STR_LEN : Nat := 39

/-- The bytes of an ASCII text. -/
def str (s : String) : List Nat := s.toList.map Char.toNat

/-- The subtraction `c - k` of a byte and a character constant assigned to an `nxt_uint_t`:
a negative difference becomes a large unsigned integer. -/
def usub (pf : Platform) (c k : Nat) : Nat := (c + pf.wrap - k) % pf.wrap

/-! ## Byte order -/

/-- Swap of the two bytes of a 16-bit value. -/
def bswap16 (x : Nat) : Nat := (x % 256) * 256 + (x / 256) % 256

/-- Reversal of the four bytes of a 32-bit value. -/
def bswap32 (x : Nat) : Nat :=
  (x % 256) * 16777216 + ((x / 256) % 256) * 65536 + ((x / 65536) % 256) * 256
    + (x / 16777216) % 256

def htons (pf : Platform) (x : Nat) : Nat := if pf.little_endian then bswap16 x else x % 65536

def ntohs (pf : Platform) (x : Nat) : Nat := if pf.little_endian then bswap16 x else x % 65536

def htonl (pf : Platform) (x : Nat) : Nat :=
  if pf.little_endian then bswap32 x else x % 4294967296

def ntohl (pf : Platform) (x : Nat) : Nat :=
  if pf.little_endian then bswap32 x else x % 4294967296

/-- The four bytes that a 32-bit value occupies in memory, lowest address first
(the view `(u_char *) &sin_addr`). -/
def mem_bytes32 (pf : Platform) (x : Nat) : List Nat :=
  if pf.little_endian then
    [x % 256, (x / 256) % 256, (x / 65536) % 256, (x / 16777216) % 256]
  else
    [(x / 16777216) % 256, (x / 65536) % 256, (x / 256) % 256, x % 256]

/-! ## Number formatting and parsing helpers that live outside the two source files -/

/-- The character of one digit value, lowercase for ten and above. -/
def digit_char (d : Nat) : Nat := if d < 10 then 48 + d else 87 + d

/-- The digits of `n` in the given base, most significant first, pushed in front of `acc`;
the first argument bounds the number of digits. -/
def nxt_digits (base : Nat) : Nat → Nat → List Nat → List Nat
  | 0, _, acc => acc
  | fuel + 1, n, acc =>
    if n / base = 0 then digit_char (n % base) :: acc
    else nxt_digits base fuel (n / base) (digit_char (n % base) :: acc)

/-- Modelled from the spec: nxt_sprintf is not among the sources; the conversion "%ud"
(and "%d" of a value that is not negative) writes the number in decimal without leading
zeros. -/
def nxt_sprintf_ud (n : Nat) : List Nat := nxt_digits 10 (n + 1) n []

/-- Modelled from the spec: nxt_sprintf is not among the sources; the conversion "%uxd"
writes the number in lowercase hexadecimal without leading zeros. -/
def nxt_sprintf_uxd (n : Nat) : List Nat := nxt_digits 16 (n + 1) n []

/-- Modelled from the spec: nxt_sprintf is not among the sources; `nxt_sprintf(p, end, ...)`
appends the formatted text at `p` and never writes at or past `end`. Here `out` is what the
buffer holds from its start up to `p` and `cap` is `end` minus the start of the buffer. -/
def nxt_sprintf (out : List Nat) (cap : Nat) (text : List Nat) : List Nat :=
  out ++ text.take (cap - out.length)

/-- The text "a.b.c.d" of the format "%ud.%ud.%ud.%ud". -/
def dotted_quad (a b c d : Nat) : List Nat :=
  nxt_sprintf_ud a ++ 46 :: (nxt_sprintf_ud b ++ 46 :: (nxt_sprintf_ud c ++ 46 ::
    nxt_sprintf_ud d))

/-- The scan of `nxt_int_parse`: `val` is the value of the digits read so far. -/
def nxt_int_parse_loop (pf : Platform) : List Nat → Nat → Int
  | [], val => (val : Int)
  | c :: p, val =>
    if c < 48 ∨ 57 < c then -1
    else if pf.NXT_INT_T_MAX < val * 10 + (c - 48) then -2
    else nxt_int_parse_loop pf p (val * 10 + (c - 48))

/-- Modelled from the spec: nxt_int_parse is not among the sources; the integer parser reads
a non-empty run of decimal digits as its value, and answers a negative number for the empty
text, for a text with any other character, and for a value that does not fit `nxt_int_t`. -/
def nxt_int_parse (pf : Platform) (p : List Nat) : Int :=
  match p with
  | [] => -1
  | _ :: _ => nxt_int_parse_loop pf p 0

/-- The position of the first byte equal to `c`, as `nxt_memchr` finds it. -/
def nxt_memchr : List Nat → Nat → Option Nat
  | [], _ => none
  | b :: rest, c => if b = c then some 0 else (nxt_memchr rest c).map (· + 1)

/-! ## `nxt_inet_addr` -/

/-- The `while (buf < end)` loop of `nxt_inet_addr`, on the bytes not yet read and the
variables `addr`, `octet` and `dots`; `none` is the `return INADDR_NONE` inside the loop.
`dots` counts bytes of the input, whose length fits `size_t`, so it does not wrap. -/
def nxt_inet_addr_loop (pf : Platform) : List Nat → Nat → Nat → Nat → Option (Nat × Nat × Nat)
  | [], addr, octet, dots => some (addr, octet, dots)
  | c :: buf, addr, octet, dots =>
    if usub pf c 48 < 10 then
      nxt_inet_addr_loop pf buf addr ((octet * 10 + usub pf c 48) % pf.wrap) dots
    else if c = 46 ∧ octet < 256 then
      nxt_inet_addr_loop pf buf ((addr * 256 + octet) % 4294967296) 0 (dots + 1)
    else none

/-- The function `nxt_inet_addr(buf, len)`: the address in network byte order, or
`INADDR_NONE`. -/
def nxt_inet_addr (pf : Platform) (buf : List Nat) : Nat :=
  match nxt_inet_addr_loop pf buf 0 0 0 with
  | none => INADDR_NONE
  | some (addr, octet, dots) =>
    if dots = 3 ∧ octet < 256 then htonl pf ((addr * 256 + octet) % 4294967296)
    else INADDR_NONE

/-! ## `nxt_inet6_addr` -/

/-- The local variables of `nxt_inet6_addr` together with the 16-byte destination. -/
structure In6Scan where
  /-- The destination `in6_addr->s6_addr`. -/
  s6 : List Nat
  /-- The write position `addr`, as an offset into `s6`. -/
  addr : Nat
  /-- The pointer `zero_start`, as an offset into `s6`; `none` is `NULL`. -/
  zero_start : Option Nat
  groups_left : Nat
  nibbles : Nat
  group : Nat
  /-- The pointer `ipv4`: the input from that position to its end; `none` is `NULL`. -/
  ipv4 : Option (List Nat)
deriving DecidableEq

/-- How the scanning loop of `nxt_inet6_addr` ends. -/
inductive In6Exit where
  /-- A `return NXT_ERROR` inside the loop, with the destination as written so far. -/
  | error (s6 : List Nat)
  /-- The loop ran out of input, or left through `break`. -/
  | finished (st : In6Scan)
deriving DecidableEq

/-- The two stores `*addr++ = (u_char) (group >> 8); *addr++ = (u_char) (group & 0xff);`. -/
def In6Scan.put_group (st : In6Scan) : In6Scan :=
  { st with
    s6 := (st.s6.set st.addr ((st.group / 256) % 256)).set (st.addr + 1) (st.group % 256),
    addr := st.addr + 2 }

/-- The `while (buf < end)` loop of `nxt_inet6_addr` on the bytes not yet read.
`groups_left` is at least 1 whenever it is decremented, so the decrement does not wrap. -/
def nxt_inet6_addr_loop (pf : Platform) : List Nat → In6Scan → In6Exit
  | [], st => .finished st
  | c :: buf, st =>
    if c = 58 then
      if st.nibbles ≠ 0 then
        let st1 := { st.put_group with ipv4 := some buf, groups_left := st.groups_left - 1 }
        if st1.groups_left ≠ 0 then
          nxt_inet6_addr_loop pf buf { st1 with nibbles := 0, group := 0 }
        else .error st1.s6
      else
        if st.zero_start = none then
          nxt_inet6_addr_loop pf buf { st with ipv4 := some buf, zero_start := some st.addr }
        else .error st.s6
    else if c = 46 ∧ st.nibbles ≠ 0 then
      match st.ipv4 with
      | none => .error st.s6
      | some ipv4 =>
        if st.groups_left < 2 then .error st.s6
        else
          let group := nxt_inet_addr pf ipv4
          if group = INADDR_NONE then .error st.s6
          else
            let group := ntohl pf group
            .finished
              { st with
                group := group,
                s6 := (st.s6.set st.addr ((group / 16777216) % 256)).set (st.addr + 1)
                  ((group / 65536) % 256),
                addr := st.addr + 2,
                groups_left := st.groups_left - 1 }
    else
      if st.nibbles + 1 > 4 then .error st.s6
      else if usub pf c 48 < 10 then
        nxt_inet6_addr_loop pf buf
          { st with nibbles := st.nibbles + 1, group := st.group * 16 + usub pf c 48 }
      else if usub pf (c ||| 32) 97 < 6 then
        nxt_inet6_addr_loop pf buf
          { st with nibbles := st.nibbles + 1,
                    group := st.group * 16 + (10 + usub pf (c ||| 32) 97) }
      else .error st.s6

/-- The loop `while (src >= zero_start) { *dst-- = *src--; }` with `dst = src + shift`;
the last argument is the number of bytes still to move, `src - zero_start + 1`. -/
def nxt_inet6_addr_move (s6 : List Nat) (zero_start shift : Nat) : Nat → List Nat
  | 0 => s6
  | k + 1 =>
    nxt_inet6_addr_move (s6.set (zero_start + k + shift) (s6.getD (zero_start + k) 0))
      zero_start shift k

/-- The call `nxt_memzero(start, n)` on the destination. -/
def nxt_memzero (s6 : List Nat) (start : Nat) : Nat → List Nat
  | 0 => s6
  | n + 1 => nxt_memzero (s6.set (start + n) 0) start n

/-- The code of `nxt_inet6_addr` after the scanning loop: the store of the last group, then
the move of the bytes written after the compression point to the tail and the zero fill. -/
def nxt_inet6_addr_end (st : In6Scan) : Int × List Nat :=
  if st.nibbles = 0 ∧ st.zero_start = none then (NXT_ERROR, st.s6)
  else
    let st1 := { st.put_group with groups_left := st.groups_left - 1 }
    if st1.groups_left ≠ 0 then
      match st1.zero_start with
      | some zero_start =>
        let shift := st1.groups_left * 2
        (NXT_OK,
          nxt_memzero (nxt_inet6_addr_move st1.s6 zero_start shift (st1.addr - zero_start))
            zero_start shift)
      | none => (NXT_ERROR, st1.s6)
    else
      if st1.zero_start = none then (NXT_OK, st1.s6) else (NXT_ERROR, st1.s6)

/-- The function `nxt_inet6_addr(in6_addr, buf, len)`: the status and the 16 bytes of the
destination after the call; `s6` is what the destination held before. -/
def nxt_inet6_addr (pf : Platform) (s6 : List Nat) (buf : List Nat) : Int × List Nat :=
  match buf with
  | [] => (NXT_ERROR, s6)
  | c :: rest =>
    match nxt_inet6_addr_loop pf (if c = 58 then rest else c :: rest)
        { s6 := s6, addr := 0, zero_start := none, groups_left := 8, nibbles := 0, group := 0,
          ipv4 := none } with
    | .error s6 => (NXT_ERROR, s6)
    | .finished st => nxt_inet6_addr_end st

/-! ## `nxt_inet6_ntop` -/

/-- The variables of the first loop of `nxt_inet6_ntop`. -/
structure ZeroRun where
  zero_start : Nat
  zero_groups : Nat
  last_zero_start : Nat
  last_zero_groups : Nat
deriving DecidableEq

/-- The loop `for (i = 0; i < 16; i += 2)` that looks for the longest run of zero groups;
the first argument is the number of iterations left. -/
def nxt_inet6_ntop_find (addr : List Nat) : Nat → Nat → ZeroRun → ZeroRun
  | 0, _, z => z
  | n + 1, i, z =>
    if addr.getD i 0 = 0 ∧ addr.getD (i + 1) 0 = 0 then
      let z1 := if z.last_zero_groups = 0 then { z with last_zero_start := i } else z
      nxt_inet6_ntop_find addr n (i + 2) { z1 with last_zero_groups := z1.last_zero_groups + 1 }
    else
      let z1 :=
        if z.zero_groups < z.last_zero_groups then
          { z with zero_groups := z.last_zero_groups, zero_start := z.last_zero_start }
        else z
      nxt_inet6_ntop_find addr n (i + 2) { z1 with last_zero_groups := 0 }

/-- The zero run chosen by `nxt_inet6_ntop`: the first loop and the test after it. -/
def nxt_inet6_ntop_zero (addr : List Nat) : ZeroRun :=
  let z := nxt_inet6_ntop_find addr 8 0
    { zero_start := 8, zero_groups := 0, last_zero_start := 8, last_zero_groups := 0 }
  if z.zero_groups < z.last_zero_groups then
    { z with zero_groups := z.last_zero_groups, zero_start := z.last_zero_start }
  else z

/-- What a call of `nxt_inet6_ntop` has done after a bounded number of iterations of its
output loop. -/
inductive Ntop where
  /-- The function has returned; `t` is the text between `buf` and the returned pointer. -/
  | text (t : List Nat)
  /-- The output loop has not ended yet; `written` is what it has stored at `buf` so far. -/
  | running (written : List Nat)
deriving DecidableEq

/-- The output loop `for (i = 0; i < ipv6_bytes; i += 2)` of `nxt_inet6_ntop`. The body
changes `i`, so the loop need not end: the first argument bounds the number of iterations.
`out` is the text written so far and `cap` is `end - buf`. -/
def nxt_inet6_ntop_out (pf : Platform) (addr : List Nat) (cap zero_start zero_groups
    ipv6_bytes : Nat) : Nat → Nat → List Nat → Ntop
  | 0, _, out => .running out
  | fuel + 1, i, out =>
    if ¬ i < ipv6_bytes then .text out
    else if i = zero_start then
      nxt_inet6_ntop_out pf addr cap zero_start zero_groups ipv6_bytes fuel
        ((((i + (usub pf zero_groups 1 * 2) % pf.wrap) % pf.wrap) + 2) % pf.wrap)
        (out ++ [58])
    else
      let out1 := nxt_sprintf out cap (nxt_sprintf_uxd (addr.getD i 0 * 256 + addr.getD (i + 1) 0))
      nxt_inet6_ntop_out pf addr cap zero_start zero_groups ipv6_bytes fuel ((i + 2) % pf.wrap)
        (if i < 14 then out1 ++ [58] else out1)

/-- The function `nxt_inet6_ntop(addr, buf, end)` with `cap = end - buf`, run for at most
`fuel` iterations of its output loop. -/
def nxt_inet6_ntop (pf : Platform) (fuel : Nat) (addr : List Nat) (cap : Nat) : Ntop :=
  if NXT_INET6_ADDR_STR_LEN > cap then .text []
  else
    let z := nxt_inet6_ntop_zero addr
    let v4 : Bool := z.zero_start = 0 ∧
      ((z.zero_groups = 5 ∧ addr.getD 10 0 = 255 ∧ addr.getD 11 0 = 255)
        ∨ z.zero_groups = 6
        ∨ (z.zero_groups = 7 ∧ addr.getD 14 0 ≠ 0 ∧ addr.getD 15 0 ≠ 1))
    let ipv6_bytes := if v4 then 12 else 16
    let out0 := if z.zero_start = 0 then [58] else []
    match nxt_inet6_ntop_out pf addr cap z.zero_start z.zero_groups ipv6_bytes fuel 0 out0 with
    | .running written => .running written
    | .text out =>
      if ipv6_bytes = 12 then
        .text (nxt_sprintf out cap
          (dotted_quad (addr.getD 12 0) (addr.getD 13 0) (addr.getD 14 0) (addr.getD 15 0)))
      else .text out

/-! ## The socket address value -/

/-- The allocator context `nxt_mem_pool_t`, reduced to what the callers can observe: for each
of the allocation requests still to come, whether it is served (`true`) or fails (`false`);
requests beyond the end of the plan are served. -/
structure nxt_mem_pool_t where
  plan : List Bool
deriving DecidableEq

/-- One allocation request to the pool (`nxt_mem_alloc` or `nxt_mem_zalloc`): whether memory
was returned, and the pool afterwards. -/
def nxt_mem_alloc (mp : nxt_mem_pool_t) : Bool × nxt_mem_pool_t :=
  match mp.plan with
  | [] => (true, mp)
  | served :: rest => (served, { plan := rest })

/-- A pool that serves every request. -/
def nxt_mem_pool_t.serves_all (mp : nxt_mem_pool_t) : Prop := ∀ b ∈ mp.plan, b = true

instance (mp : nxt_mem_pool_t) : Decidable mp.serves_all := by
  unfold nxt_mem_pool_t.serves_all; infer_instance

/-- The value `nxt_sockaddr_t`. The members of the union `u` that the sources read and write
are separate fields here, named as in the C structures; `sa_family`, `sin_family`,
`sin6_family` and `sun_family` are the one field `sa_family`. -/
structure nxt_sockaddr_t where
  /-- The recorded length, `nxt_socklen(sa)`. -/
  socklen : Nat
  /-- The socket type discriminator `type`. -/
  type : Nat
  /-- The cached text; `none` is a `NULL` pointer. -/
  text : Option (List Nat)
  text_len : Nat
  sa_family : Nat
  /-- The member `u.sockaddr_in.sin_port`, as stored (network byte order). -/
  sin_port : Nat
  /-- The member `u.sockaddr_in.sin_addr.s_addr`, as stored (network byte order). -/
  sin_addr : Nat
  /-- The member `u.sockaddr_in6.sin6_port`, as stored (network byte order). -/
  sin6_port : Nat
  /-- The 16 bytes `u.sockaddr_in6.sin6_addr.s6_addr`. -/
  sin6_addr : List Nat
  /-- The bytes of `u.sockaddr_un.sun_path` that the recorded length covers. -/
  sun_path : List Nat
deriving DecidableEq

/-- The function `nxt_sockaddr_alloc(mp, len)`: zeroed memory with the length recorded, or
`none` for `NULL`. -/
def nxt_sockaddr_alloc (pf : Platform) (mp : nxt_mem_pool_t) (len : Nat) :
    Option nxt_sockaddr_t × nxt_mem_pool_t :=
  let r := nxt_mem_alloc mp
  if r.1 then
    (some { socklen := len, type := 0, text := none, text_len := 0, sa_family := 0,
            sin_port := 0, sin_addr := 0, sin6_port := 0,
            sin6_addr := List.replicate 16 0,
            sun_path := List.replicate (len - pf.sun_path_offset) 0 }, r.2)
  else (none, r.2)

/-- The function `nxt_sockaddr_port(sa)`. -/
def nxt_sockaddr_port (pf : Platform) (sa : nxt_sockaddr_t) : Nat :=
  if sa.sa_family = pf.AF_INET6 then ntohs pf (sa.sin6_port % 65536)
  else if sa.sa_family = pf.AF_UNIX then 0
  else ntohs pf (sa.sin_port % 65536)

/-- The function `nxt_sockaddr_ntop(sa, buf, end, port)` with `cap = end - buf`: the text
written at `buf` (the returned length is the length of this text); for an AF_INET6 value
the call of `nxt_inet6_ntop` is run for at most `fuel` iterations of its output loop. -/
def nxt_sockaddr_ntop (pf : Platform) (fuel : Nat) (sa : nxt_sockaddr_t) (cap : Nat)
    (port : Bool) : Ntop :=
  if sa.sa_family = pf.AF_INET then
    let p := mem_bytes32 pf sa.sin_addr
    let quad := dotted_quad (p.getD 0 0) (p.getD 1 0) (p.getD 2 0) (p.getD 3 0)
    if port then .text (nxt_sprintf [] cap (quad ++ 58 :: nxt_sprintf_ud (ntohs pf sa.sin_port)))
    else .text (nxt_sprintf [] cap quad)
  else if sa.sa_family = pf.AF_INET6 then
    let out0 : List Nat := if port then [91] else []
    match nxt_inet6_ntop pf fuel sa.sin6_addr (cap - out0.length) with
    | .running written => .running (out0 ++ written)
    | .text t =>
      if port then
        .text (nxt_sprintf (out0 ++ t) cap (93 :: 58 :: nxt_sprintf_ud (ntohs pf sa.sin6_port)))
      else .text (out0 ++ t)
  else if sa.sa_family = pf.AF_UNIX then
    if pf.linux ∧ sa.sun_path.head? = some 0 then
      .text (nxt_sprintf [] cap ([117, 110, 105, 120, 58, 92, 48] ++
        (sa.sun_path.drop 1).take (sa.socklen - pf.sun_path_offset - 1)))
    else
      .text (nxt_sprintf [] cap ([117, 110, 105, 120, 58] ++ sa.sun_path.takeWhile (· ≠ 0)))
  else .text []

/-- The bytes compared by `nxt_memcmp(s1, s2, n)`, when both objects hold `n` bytes: the
difference of the first two bytes that differ, zero if there are none. -/
def nxt_memcmp_loop : List Nat → List Nat → Nat → Int
  | a :: r1, b :: r2, n + 1 => if a = b then nxt_memcmp_loop r1 r2 n else (a : Int) - (b : Int)
  | _, _, _ => 0

/-- Modelled from the spec: nxt_memcmp is not among the sources; it compares the first `n`
bytes of two objects and is zero exactly when they are equal. The lists hold the bytes that
belong to the objects; `none` stands for a comparison that runs beyond one of them. -/
def nxt_memcmp (s1 s2 : List Nat) (n : Nat) : Option Int :=
  if n ≤ s1.length ∧ n ≤ s2.length then some (nxt_memcmp_loop s1 s2 n) else none

/-- The function `nxt_sockaddr_cmp(sa1, sa2)`; `none` stands for a comparison that runs
beyond the values, as it does for an AF_UNIX value whose recorded length is below the offset
of `sun_path`: the length `nxt_socklen(sa1) - offsetof(struct sockaddr_un, sun_path)` is a
`size_t` and wraps around. -/
def nxt_sockaddr_cmp (pf : Platform) (sa1 sa2 : nxt_sockaddr_t) : Option Bool :=
  if sa1.socklen ≠ sa2.socklen then some false
  else if sa1.type ≠ sa2.type then some false
  else if sa1.sa_family ≠ sa2.sa_family then some false
  else if sa1.sa_family = pf.AF_INET6 then
    if sa1.sin6_port ≠ sa2.sin6_port then some false
    else
      match nxt_memcmp sa1.sin6_addr sa2.sin6_addr 16 with
      | none => none
      | some r => if r ≠ 0 then some false else some true
  else if sa1.sa_family = pf.AF_UNIX then
    let len := usub pf sa1.socklen pf.sun_path_offset
    match nxt_memcmp sa1.sun_path sa2.sun_path len with
    | none => none
    | some r => if r ≠ 0 then some false else some true
  else
    if sa1.sin_port ≠ sa2.sin_port then some false
    else if sa1.sin_addr ≠ sa2.sin_addr then some false
    else some true

/-- The function `nxt_sockaddr_text(mp, sa, port)`: the status, the value and the pool after
the call. `buf_len` is the size of the local buffer, `NXT_SOCKADDR_STR_LEN +
NXT_SOCKPORT_STR_LEN`, two constants of a header that is not among the sources. The result
is `none` when the formatter has not returned within `fuel` iterations of the output loop of
`nxt_inet6_ntop`. -/
def nxt_sockaddr_text (pf : Platform) (buf_len fuel : Nat) (mp : nxt_mem_pool_t)
    (sa : nxt_sockaddr_t) (port : Bool) : Option (Int × nxt_sockaddr_t × nxt_mem_pool_t) :=
  match nxt_sockaddr_ntop pf fuel sa buf_len port with
  | .running _ => none
  | .text t =>
    let len := t.length
    let r := nxt_mem_alloc mp
    if r.1 then some (NXT_OK, { sa with text := some t, text_len := len }, r.2)
    else some (NXT_ERROR, sa, r.2)

/-! ## The address parse job -/

/-- The two completion handlers of a resolve request. -/
inductive Handler where
  | ready_handler
  | error_handler
deriving DecidableEq

/-- The calls that the parse job makes to its collaborators, as they are recorded. -/
inductive Call where
  /-- A call `nxt_job_resolve(&jbs->resolve)` with the name and the port of the request at
  the time of the call. -/
  | nxt_job_resolve (name : List Nat) (port : Nat)
  /-- A call `nxt_job_return(task, job, handler)`. -/
  | nxt_job_return (handler : Handler)
  /-- A call `nxt_thread_log_error(level, ...)`. -/
  | nxt_thread_log_error (level : Nat)
deriving DecidableEq

/-- The request `nxt_job_sockaddr_parse_t` with the fields of its `resolve` member that the
parsers touch, and the record `calls` of the calls made so far. -/
structure nxt_job_sockaddr_parse_t where
  /-- The input text `jbs->addr`. -/
  addr : List Nat
  /-- The field `resolve.port`. -/
  port : Nat
  /-- The field `resolve.log_level`. -/
  log_level : Nat
  /-- The field `resolve.name`. -/
  name : List Nat
  /-- The array `resolve.sockaddrs`, with the slots that have been filled. -/
  sockaddrs : List nxt_sockaddr_t
  /-- The field `resolve.count`. -/
  count : Nat
  no_port : Bool
  wildcard : Bool
  /-- The pool `resolve.job.mem_pool`. -/
  mem_pool : nxt_mem_pool_t
  calls : List Call
deriving DecidableEq

/-- A request as it is before parsing: zeroed, then given its input, default port, log level
and pool. -/
def nxt_job_sockaddr_parse_t.fresh (addr : List Nat) (port log_level : Nat)
    (mp : nxt_mem_pool_t) : nxt_job_sockaddr_parse_t :=
  { addr := addr, port := port, log_level := log_level, name := [], sockaddrs := [],
    count := 0, no_port := false, wildcard := false, mem_pool := mp, calls := [] }

/-- A call of `nxt_thread_log_error` with the log level of the request. -/
def nxt_job_sockaddr_parse_t.log_error (jbs : nxt_job_sockaddr_parse_t) :
    nxt_job_sockaddr_parse_t :=
  { jbs with calls := jbs.calls ++ [Call.nxt_thread_log_error jbs.log_level] }

/-- The macro `IN6_IS_ADDR_UNSPECIFIED`: all 16 bytes are zero. -/
def IN6_IS_ADDR_UNSPECIFIED (a : List Nat) : Bool := a = List.replicate 16 0

/-- The function `nxt_job_sockaddr_unix_parse(jbs)`; it is called on an input of more than
6 bytes that starts with "unix:", and `sun_path` is not empty, so the subtractions are
exact. -/
def nxt_job_sockaddr_unix_parse (pf : Platform) (jbs : nxt_job_sockaddr_parse_t) :
    Int × nxt_job_sockaddr_parse_t :=
  let max_len := pf.sizeof_sockaddr_un - pf.sun_path_offset - 1
  let len := jbs.addr.length - 5
  let path := jbs.addr.drop 5
  if len > max_len then (NXT_ERROR, jbs.log_error)
  else
    let socklen := pf.sun_path_offset + len + 1
    let socklen := if pf.linux ∧ path.head? = some 0 then socklen - 1 else socklen
    let r := nxt_mem_alloc jbs.mem_pool
    if r.1 then
      match nxt_sockaddr_alloc pf r.2 socklen with
      | (some sa, mp) =>
        (NXT_OK,
          { jbs with
            mem_pool := mp, count := 1,
            sockaddrs :=
              [{ sa with sa_family := pf.AF_UNIX, sun_path := path ++ sa.sun_path.drop len }] })
      | (none, mp) => (NXT_ERROR, { jbs with mem_pool := mp })
    else (NXT_ERROR, { jbs with mem_pool := r.2 })

/-- The label `found:` of `nxt_job_sockaddr_inet6_parse`. -/
def nxt_job_sockaddr_inet6_found (pf : Platform) (jbs : nxt_job_sockaddr_parse_t)
    (sa : nxt_sockaddr_t) (port : Nat) : Int × nxt_job_sockaddr_parse_t :=
  (NXT_OK,
    { jbs with
      sockaddrs := [{ sa with sa_family := pf.AF_INET6, sin6_port := port % 65536 }],
      wildcard := if IN6_IS_ADDR_UNSPECIFIED sa.sin6_addr then true else jbs.wildcard })

/-- The function `nxt_job_sockaddr_inet6_parse(jbs)`; it is called on an input that starts
with a bracket. -/
def nxt_job_sockaddr_inet6_parse (pf : Platform) (jbs : nxt_job_sockaddr_parse_t) :
    Int × nxt_job_sockaddr_parse_t :=
  let addr := jbs.addr.drop 1
  match nxt_memchr addr 93 with
  | none => (NXT_ERROR, jbs.log_error)
  | some addr_end =>
    let r := nxt_mem_alloc jbs.mem_pool
    if r.1 then
      match nxt_sockaddr_alloc pf r.2 pf.sizeof_sockaddr_in6 with
      | (none, mp) => (NXT_ERROR, { jbs with mem_pool := mp })
      | (some sa0, mp) =>
        let parsed := nxt_inet6_addr pf sa0.sin6_addr (addr.take addr_end)
        let sa := { sa0 with sin6_addr := parsed.2 }
        let jbs1 := { jbs with mem_pool := mp, count := 1, sockaddrs := [sa] }
        if parsed.1 ≠ NXT_OK then (NXT_ERROR, jbs1.log_error)
        else
          let p := addr.drop (addr_end + 1)
          if p.length = 0 then
            nxt_job_sockaddr_inet6_found pf { jbs1 with no_port := true } sa jbs1.port
          else
            let port := nxt_int_parse pf (p.drop 1)
            if p.head? = some 58 ∧ 1 ≤ port ∧ port ≤ 65535 then
              nxt_job_sockaddr_inet6_found pf jbs1 sa (htons pf (port.toNat % 65536))
            else (NXT_ERROR, jbs1.log_error)
    else (NXT_ERROR, { jbs with mem_pool := r.2 })

/-- The tail of `nxt_job_sockaddr_inet_parse` from `mp = jbs->resolve.job.mem_pool;` on:
the allocation of the one AF_INET address with the address and port found. -/
def nxt_job_sockaddr_inet_found (pf : Platform) (jbs : nxt_job_sockaddr_parse_t)
    (addr port : Nat) : Int × nxt_job_sockaddr_parse_t :=
  let r := nxt_mem_alloc jbs.mem_pool
  if r.1 then
    match nxt_sockaddr_alloc pf r.2 pf.sizeof_sockaddr_in with
    | (some sa, mp) =>
      (NXT_OK,
        { jbs with
          mem_pool := mp, count := 1,
          sockaddrs :=
            [{ sa with sa_family := pf.AF_INET, sin_port := port % 65536, sin_addr := addr }],
          wildcard := addr = INADDR_ANY })
    | (none, mp) => (NXT_ERROR, { jbs with mem_pool := mp })
  else (NXT_ERROR, { jbs with mem_pool := r.2 })

/-- The hand-over of a host name to the resolver: the name is recorded, `nxt_job_resolve` is
called and the status is `NXT_AGAIN`. -/
def nxt_job_sockaddr_inet_resolve (jbs : nxt_job_sockaddr_parse_t) (host : List Nat) :
    Int × nxt_job_sockaddr_parse_t :=
  (NXT_AGAIN,
    { jbs with name := host, calls := jbs.calls ++ [Call.nxt_job_resolve host jbs.port] })

/-- The function `nxt_job_sockaddr_inet_parse(jbs)`. -/
def nxt_job_sockaddr_inet_parse (pf : Platform) (jbs : nxt_job_sockaddr_parse_t) :
    Int × nxt_job_sockaddr_parse_t :=
  let host := jbs.addr
  match nxt_memchr host 58 with
  | none =>
    let port := nxt_int_parse pf host
    if port > 0 then
      if port < 1 ∨ port > 65535 then (NXT_ERROR, jbs.log_error)
      else
        let port := htons pf (port.toNat % 65536)
        nxt_job_sockaddr_inet_found pf { jbs with port := port % 65536 } INADDR_ANY port
    else
      let jbs1 := { jbs with no_port := true }
      let addr := nxt_inet_addr pf host
      if addr = INADDR_NONE then nxt_job_sockaddr_inet_resolve jbs1 host
      else nxt_job_sockaddr_inet_found pf jbs1 addr jbs1.port
  | some colon =>
    let p := host.drop (colon + 1)
    let port := nxt_int_parse pf p
    if port < 1 ∨ port > 65535 then (NXT_ERROR, jbs.log_error)
    else
      let port := htons pf (port.toNat % 65536)
      let host1 := host.take colon
      if host1.length ≠ 1 ∨ host.head? ≠ some 42 then
        let addr := nxt_inet_addr pf host1
        if addr = INADDR_NONE then
          nxt_job_sockaddr_inet_resolve { jbs with port := port % 65536 } host1
        else nxt_job_sockaddr_inet_found pf jbs addr port
      else nxt_job_sockaddr_inet_found pf jbs INADDR_ANY port

/-- The function `nxt_job_sockaddr_parse(jbs)`: the request after the call, with the calls
it made recorded. The debug name set by `nxt_job_set_name` is not part of the model. -/
def nxt_job_sockaddr_parse (pf : Platform) (jbs : nxt_job_sockaddr_parse_t) :
    nxt_job_sockaddr_parse_t :=
  let r :=
    if jbs.addr.length > 6 ∧ jbs.addr.take 5 = [117, 110, 105, 120, 58] then
      nxt_job_sockaddr_unix_parse pf jbs
    else if jbs.addr.length ≠ 0 ∧ jbs.addr.head? = some 91 then
      nxt_job_sockaddr_inet6_parse pf jbs
    else nxt_job_sockaddr_inet_parse pf jbs
  if r.1 = NXT_OK then
    { r.2 with calls := r.2.calls ++ [Call.nxt_job_return Handler.ready_handler] }
  else if r.1 = NXT_ERROR then
    { r.2 with calls := r.2.calls ++ [Call.nxt_job_return Handler.error_handler] }
  else r.2

/-! ## Jobs -/

/-- A work handler `nxt_work_handler_t`: the address of the function. -/
abbrev nxt_work_handler_t := Nat

/-- Modelled from the spec: the structure `nxt_job_t` is declared in a header that is not
among the sources; these are the members that nxt_job.c reads and writes. Pointers are
addresses, `none` for `NULL`; `link_self` says that the membership node `link` points to
itself. The debug name is not part of the model. -/
structure nxt_job_t where
  /-- The member `cache_size`, a `uint16_t`. -/
  cache_size : Nat
  mem_pool : Option Nat
  link_self : Bool
  /-- The member `task.ident`. -/
  task_ident : Nat
  /-- The member `task.log`. -/
  task_log : Option Nat
  /-- The member `task.thread`. -/
  task_thread : Option Nat
  log : Option Nat
  thread_pool : Option Nat
  engine : Option Nat
  abort_handler : nxt_work_handler_t
  data : Nat
  cancel : Bool
deriving DecidableEq

/-- The task `nxt_task_t` that a function is called with: its thread `task->thread` and the
engine of that thread, `task->thread->engine`. -/
structure nxt_task_t where
  thread : Nat
  engine : Option Nat
deriving DecidableEq

/-- The calls that the job functions make, as they are recorded. -/
inductive JobCall where
  /-- A call `handler(&job->task, job, job->data)` of a work handler. -/
  | handler (handler : nxt_work_handler_t) (task_ident : Nat) (data : Nat)
  /-- A call `nxt_thread_pool_post(tp, nxt_job_thread_trampoline, &job->task, job, handler)`
  and the status that it returned. -/
  | nxt_thread_pool_post (tp : Nat) (handler : nxt_work_handler_t) (ret : Int)
  /-- A call `nxt_event_engine_post(engine, nxt_job_thread_return_handler, &job->task, job,
  handler, log)`. -/
  | nxt_event_engine_post (engine : Nat) (handler : nxt_work_handler_t) (log : Option Nat)
  /-- A call `nxt_thread_work_queue_push(thread, &thread->work_queue.main, handler,
  &job->task, job, job->data)`. -/
  | nxt_thread_work_queue_push (thread : Nat) (handler : nxt_work_handler_t) (data : Nat)
  | nxt_mem_pool_create (size : Nat)
  | nxt_mem_zalloc (mp : Nat) (size : Nat)
  | nxt_mem_cache_zalloc0 (mp : Nat) (size : Nat)
  | nxt_mem_pool_destroy (mp : Nat)
  | nxt_mem_cache_free0 (mp : Option Nat) (size : Nat)
  | nxt_queue_remove
  | nxt_task_next_ident
deriving DecidableEq

/-- What the collaborators of `nxt_job_create` answer: the pool that `nxt_mem_pool_create`
returns, whether the allocation of the job returns memory, and the identifier that
`nxt_task_next_ident` returns. -/
structure JobEnv where
  pool : Option Nat
  mem : Bool
  ident : Nat
deriving DecidableEq

/-- How a call of `nxt_job_create` ends. -/
inductive JobCreated where
  /-- The function returned `job`, `none` for `NULL`, after the calls recorded. -/
  | returned (job : Option nxt_job_t) (calls : List JobCall)
  /-- The function reached `nxt_queue_self(&job->link)` with `job == NULL`: it stores
  through the null pointer, in the link and then in `job->task.ident`. -/
  | null_store (calls : List JobCall)
deriving DecidableEq

/-- The memory that `nxt_mem_zalloc` and `nxt_mem_cache_zalloc0` return, read as a job. -/
def nxt_job_t.zeroed : nxt_job_t :=
  { cache_size := 0, mem_pool := none, link_self := false, task_ident := 0, task_log := none,
    task_thread := none, log := none, thread_pool := none, engine := none,
    abort_handler := 0, data := 0, cancel := false }

/-- The code of `nxt_job_create` after the allocation of the job: `mem` says whether `job`
is not `NULL`. -/
def nxt_job_create_end (env : JobEnv) (mp : Nat) (cache_size : Nat) (calls : List JobCall) :
    JobCreated :=
  if env.mem then
    .returned
      (some { nxt_job_t.zeroed with
              cache_size := cache_size % 65536, mem_pool := some mp, link_self := true,
              task_ident := env.ident })
      (calls ++ [JobCall.nxt_task_next_ident])
  else .null_store calls

/-- The function `nxt_job_create(mp, size)`. -/
def nxt_job_create (env : JobEnv) (mp : Option Nat) (size : Nat) : JobCreated :=
  match mp with
  | none =>
    match env.pool with
    | none => .returned none [JobCall.nxt_mem_pool_create 256]
    | some p =>
      nxt_job_create_end env p 0 [JobCall.nxt_mem_pool_create 256, JobCall.nxt_mem_zalloc p size]
  | some p => nxt_job_create_end env p size [JobCall.nxt_mem_cache_zalloc0 p size]

/-- The function `nxt_job_destroy(data)`: the calls it makes. -/
def nxt_job_destroy (job : nxt_job_t) : List JobCall :=
  JobCall.nxt_queue_remove ::
    (if job.cache_size = 0 then
      match job.mem_pool with
      | some mp => [JobCall.nxt_mem_pool_destroy mp]
      | none => []
    else [JobCall.nxt_mem_cache_free0 job.mem_pool job.cache_size])

/-- The function `nxt_job_start(task, job, handler)`: the job afterwards and the calls made.
`threads` is the macro `NXT_THREADS` and `post` is the status that `nxt_thread_pool_post`
returns if it is called. -/
def nxt_job_start (threads : Bool) (post : Int) (task : nxt_task_t) (job : nxt_job_t)
    (handler : nxt_work_handler_t) : nxt_job_t × List JobCall :=
  match (if threads then job.thread_pool else none) with
  | some tp =>
    let job1 := { job with engine := task.engine }
    if post = NXT_OK then (job1, [JobCall.nxt_thread_pool_post tp handler post])
    else
      (job1, [JobCall.nxt_thread_pool_post tp handler post,
              JobCall.handler job1.abort_handler job1.task_ident job1.data])
  | none => (job, [JobCall.handler handler job.task_ident job.data])

/-- The function `nxt_job_return(task, job, handler)`. -/
def nxt_job_return (threads : Bool) (task : nxt_task_t) (job : nxt_job_t)
    (handler : nxt_work_handler_t) : nxt_job_t × List JobCall :=
  match (if threads then job.engine else none) with
  | some engine => (job, [JobCall.nxt_event_engine_post engine handler job.log])
  | none =>
    let handler := if job.cancel then job.abort_handler else handler
    (job, [JobCall.nxt_thread_work_queue_push task.thread handler job.data])

/-- The function `nxt_job_thread_trampoline(task, obj, data)` with `obj` the job and `data`
the handler. -/
def nxt_job_thread_trampoline (threads : Bool) (task : nxt_task_t) (job : nxt_job_t)
    (handler : nxt_work_handler_t) : nxt_job_t × List JobCall :=
  let job1 := { job with task_log := job.log }
  if job1.cancel then nxt_job_return threads task job1 job1.abort_handler
  else (job1, [JobCall.handler handler job1.task_ident job1.data])

/-- The function `nxt_job_thread_return_handler(task, obj, data)` with `obj` the job and
`data` the handler. -/
def nxt_job_thread_return_handler (task : nxt_task_t) (job : nxt_job_t)
    (handler : nxt_work_handler_t) : nxt_job_t × List JobCall :=
  let job1 := { job with task_thread := some task.thread }
  let handler := if job1.cancel then job1.abort_handler else handler
  (job1, [JobCall.handler handler job1.task_ident job1.data])

/-- Modelled from the spec: the worker pool, the event engine and the work queue are
collaborators outside the sources. A task that was posted is run later with what it was
posted with: the worker pool runs the trampoline on a worker thread (task `worker`) if the
submission succeeded, the engine runs the return handler on the thread of the engine (task
`origin`), and the work queue calls the handler pushed. The result is the list of the work
handlers called in the end, for a job whose members no one else changes meanwhile; the first
argument bounds the number of hand-offs followed. -/
def JobCall.handlers_run (threads : Bool) (worker origin : nxt_task_t) :
    Nat → nxt_job_t → JobCall → List nxt_work_handler_t
  | _, _, .handler h _ _ => [h]
  | fuel + 1, job, .nxt_thread_pool_post _ h ret =>
    if ret = NXT_OK then
      let r := nxt_job_thread_trampoline threads worker job h
      r.2.flatMap (JobCall.handlers_run threads worker origin fuel r.1)
    else []
  | fuel + 1, job, .nxt_event_engine_post _ h _ =>
    let r := nxt_job_thread_return_handler origin job h
    r.2.flatMap (JobCall.handlers_run threads worker origin fuel r.1)
  | _ + 1, _, .nxt_thread_work_queue_push _ h _ => [h]
  | _, _, _ => []

/-- The work handlers called after `nxt_job_start(task, job, handler)` once every task posted
has been run, following at most `fuel` hand-offs. -/
def nxt_job_handlers_run (threads : Bool) (post : Int) (task worker origin : nxt_task_t)
    (fuel : Nat) (job : nxt_job_t) (handler : nxt_work_handler_t) :
    List nxt_work_handler_t :=
  let r := nxt_job_start threads post task job handler
  r.2.flatMap (JobCall.handlers_run threads worker origin fuel r.1)

/-! ## Vocabulary of the statements -/

/-- The number of positions at which a text holds two colons in a row. -/
def dc_count : List Nat → Nat
  | [] => 0
  | c :: r => (if c = 58 ∧ r.head? = some 58 then 1 else 0) + dc_count r

/-- The number of compression points that the scan of `nxt_inet6_addr` still has to record
on the input `buf` when the current group holds `nibbles` digits. -/
def dc_due (nibbles : Nat) (buf : List Nat) : Nat :=
  if nibbles = 0 then dc_count (58 :: buf) else dc_count buf

/-- The scanning loop left through a `return NXT_ERROR`. -/
def In6Exit.is_error : In6Exit → Prop
  | .error _ => True
  | .finished _ => False

/-- Every byte of the text is a decimal digit. -/
def is_digits (f : List Nat) : Prop := ∀ c ∈ f, 48 ≤ c ∧ c ≤ 57

instance (f : List Nat) : Decidable (is_digits f) := by
  unfold is_digits; infer_instance

/-- The number that a run of decimal digits adds to the value `v` read before it. -/
def dec_value_from (v : Nat) (f : List Nat) : Nat := f.foldl (fun v c => v * 10 + (c - 48)) v

/-- The number written by a run of decimal digits; the empty run counts as 0. -/
def dec_value (f : List Nat) : Nat := dec_value_from 0 f

/-- Some 16-bit group of the 16 bytes is zero. -/
def has_zero_group (addr : List Nat) : Prop :=
  ∃ g, g < 8 ∧ addr.getD (2 * g) 0 = 0 ∧ addr.getD (2 * g + 1) 0 = 0

instance (addr : List Nat) : Decidable (has_zero_group addr) := by
  unfold has_zero_group; infer_instance

/-- What the output loop of `nxt_inet6_ntop` has written after printing the first four
groups, each followed by a colon. -/
def ntop_first_four (addr : List Nat) (cap : Nat) : List Nat :=
  nxt_sprintf
    (nxt_sprintf
      (nxt_sprintf
        (nxt_sprintf [] cap (nxt_sprintf_uxd (addr.getD 0 0 * 256 + addr.getD 1 0)) ++ [58])
        cap (nxt_sprintf_uxd (addr.getD 2 0 * 256 + addr.getD 3 0)) ++ [58])
      cap (nxt_sprintf_uxd (addr.getD 4 0 * 256 + addr.getD 5 0)) ++ [58])
    cap (nxt_sprintf_uxd (addr.getD 6 0 * 256 + addr.getD 7 0)) ++ [58]

/-- The 16-bit group number `j` of the 16 bytes is zero. -/
def zero_group (addr : List Nat) (j : Nat) : Prop :=
  addr.getD (2 * j) 0 = 0 ∧ addr.getD (2 * j + 1) 0 = 0

instance (addr : List Nat) (j : Nat) : Decidable (zero_group addr j) := by
  unfold zero_group; infer_instance

/-- An address with the given pattern of zero groups. -/
def pattern_addr : List Bool → List Nat
  | [] => []
  | b :: bs => (if b then [0, 0] else [1, 1]) ++ pattern_addr bs

/-- What the search for the zero run guarantees on an address with the given pattern of zero
groups: if some group is zero, the run is not empty, starts at a group boundary, lies within
the eight groups and covers zero groups only; and if one of the first seven groups is zero,
the run does not start at the last group. -/
def zero_run_sound (bs : List Bool) : Prop :=
  (bs.any id = true →
    1 ≤ (nxt_inet6_ntop_zero (pattern_addr bs)).zero_groups ∧
    (nxt_inet6_ntop_zero (pattern_addr bs)).zero_start % 2 = 0 ∧
    (nxt_inet6_ntop_zero (pattern_addr bs)).zero_start / 2
      + (nxt_inet6_ntop_zero (pattern_addr bs)).zero_groups ≤ 8 ∧
    ∀ j, j < 8 → (nxt_inet6_ntop_zero (pattern_addr bs)).zero_start ≤ 2 * j →
      2 * j < (nxt_inet6_ntop_zero (pattern_addr bs)).zero_start
        + 2 * (nxt_inet6_ntop_zero (pattern_addr bs)).zero_groups →
      bs.getD j false = true) ∧
  ((bs.take 7).any id = true → (nxt_inet6_ntop_zero (pattern_addr bs)).zero_start ≠ 14)

instance (bs : List Bool) : Decidable (zero_run_sound bs) := by
  unfold zero_run_sound; infer_instance

/-- The zero pattern of an address. -/
def zero_pattern (A : List Nat) : List Bool :=
  [decide (zero_group A 0), decide (zero_group A 1), decide (zero_group A 2),
   decide (zero_group A 3), decide (zero_group A 4), decide (zero_group A 5),
   decide (zero_group A 6), decide (zero_group A 7)]

/-- A hexadecimal digit in either case. -/
def is_hex_digit (c : Nat) : Prop :=
  (48 ≤ c ∧ c ≤ 57) ∨ (97 ≤ c ∧ c ≤ 102) ∨ (65 ≤ c ∧ c ≤ 70)

instance (c : Nat) : Decidable (is_hex_digit c) := by
  unfold is_hex_digit; infer_instance

/-- The value of one hexadecimal digit. -/
def hex_digit_value (c : Nat) : Nat :=
  if c ≤ 57 then c - 48 else if 97 ≤ c then c - 87 else c - 55

/-- The number that a run of hexadecimal digits adds to the value `v` read before it. -/
def hex_value_from (v : Nat) (t : List Nat) : Nat :=
  t.foldl (fun v c => v * 16 + hex_digit_value c) v

/-- The number written by a run of hexadecimal digits. -/
def hex_value (t : List Nat) : Nat := hex_value_from 0 t

/-- The text of one group: one to four hexadecimal digits. -/
def is_hex_group (t : List Nat) : Prop :=
  1 ≤ t.length ∧ t.length ≤ 4 ∧ ∀ c ∈ t, is_hex_digit c

instance (t : List Nat) : Decidable (is_hex_group t) := by
  unfold is_hex_group; infer_instance

/-- The two bytes of each group, high byte first. -/
def groups_bytes : List Nat → List Nat
  | [] => []
  | g :: gs => (g / 256) % 256 :: g % 256 :: groups_bytes gs

/-- Texts, each followed by a colon. -/
def colon_each : List (List Nat) → List Nat
  | [] => []
  | t :: ts => t ++ 58 :: colon_each ts

/-- Texts joined by single colons. -/
def colon_join : List (List Nat) → List Nat
  | [] => []
  | [t] => t
  | t :: u :: ts => t ++ 58 :: colon_join (u :: ts)

/-- The state of the scan of `nxt_inet6_addr` when the destination holds the written bytes
`W` followed by the bytes `R` not yet written. -/
def In6Scan.at (W R : List Nat) (zero_start : Option Nat) (groups_left nibbles group : Nat)
    (ipv4 : Option (List Nat)) : In6Scan :=
  { s6 := W ++ R, addr := W.length, zero_start := zero_start, groups_left := groups_left,
    nibbles := nibbles, group := group, ipv4 := ipv4 }

/-- The result of `nxt_inet6_addr` for a given exit of its scanning loop. -/
def In6Exit.result : In6Exit → Int × List Nat
  | .error s => (NXT_ERROR, s)
  | .finished st => nxt_inet6_addr_end st

/-- The 16-bit group number `j` of the 16 bytes, as the output loop computes it. -/
def group_at (addr : List Nat) (j : Nat) : Nat :=
  addr.getD (2 * j) 0 * 256 + addr.getD (2 * j + 1) 0

/-- The hexadecimal texts of the `n` groups from group number `j` on. -/
def group_texts (addr : List Nat) : Nat → Nat → List (List Nat)
  | _, 0 => []
  | j, n + 1 => nxt_sprintf_uxd (group_at addr j) :: group_texts addr (j + 1) n



/-- A value laid out as `nxt_sockaddr_alloc` does: the recorded length fits `socklen_t`, the
IPv6 address has its 16 bytes, and `sun_path` holds the bytes that the recorded length
covers, none if the length is below the offset of `sun_path`. -/
def nxt_sockaddr_t.laid_out (pf : Platform) (sa : nxt_sockaddr_t) : Prop :=
  sa.socklen < 4294967296 ∧ sa.sin6_addr.length = 16 ∧
    sa.sun_path.length = sa.socklen - pf.sun_path_offset

instance (pf : Platform) (sa : nxt_sockaddr_t) : Decidable (sa.laid_out pf) := by
  unfold nxt_sockaddr_t.laid_out; infer_instance





/-! ## Theorems -/

/-! ### Machine arithmetic -/

theorem wrap_ge (pf : Platform) (h : 32 ≤ pf.uint_bits) : 4294967296 ≤ pf.wrap := by
  unfold Platform.wrap
  calc 4294967296 = 2 ^ 32 := by norm_num
    _ ≤ 2 ^ pf.uint_bits := Nat.pow_le_pow_right (by norm_num) h

theorem usub_of_le (pf : Platform) (c k : Nat) (hk : k ≤ c) (hc : c - k < pf.wrap) :
    usub pf c k = c - k := by
  unfold usub
  have : c + pf.wrap - k = (c - k) + pf.wrap := by omega
  rw [this, Nat.add_mod_right, Nat.mod_eq_of_lt hc]

theorem usub_of_lt (pf : Platform) (c k : Nat) (hk : c < k) (hkw : k ≤ pf.wrap) :
    usub pf c k = pf.wrap - (k - c) := by
  unfold usub
  have : c + pf.wrap - k = pf.wrap - (k - c) := by omega
  rw [this]
  exact Nat.mod_eq_of_lt (by omega)

/-! ### `nxt_inet_addr` stops at a colon -/

theorem inet_addr_loop_colon (pf : Platform) (h : 32 ≤ pf.uint_bits) :
    ∀ (buf : List Nat) (addr octet dots : Nat), 58 ∈ buf →
      nxt_inet_addr_loop pf buf addr octet dots = none := by
  have hw := wrap_ge pf h
  intro buf
  induction buf with
  | nil => intro _ _ _ hm; simp at hm
  | cons c r ih =>
    intro addr octet dots hm
    by_cases hc : c = 58
    · subst hc
      have : usub pf 58 48 = 10 := by rw [usub_of_le pf 58 48 (by norm_num) (by omega)]
      simp [nxt_inet_addr_loop, this]
    · have hr : 58 ∈ r := by
        rcases List.mem_cons.mp hm with h1 | h1
        · exact absurd h1.symm hc
        · exact h1
      unfold nxt_inet_addr_loop
      split
      · exact ih _ _ _ hr
      · split
        · exact ih _ _ _ hr
        · rfl

theorem inet_addr_colon (pf : Platform) (h : 32 ≤ pf.uint_bits) (buf : List Nat)
    (hm : 58 ∈ buf) : nxt_inet_addr pf buf = INADDR_NONE := by
  unfold nxt_inet_addr
  rw [inet_addr_loop_colon pf h buf 0 0 0 hm]

/-! ### A second compression point stops the scan of `nxt_inet6_addr` -/

theorem dc_count_pos_mem : ∀ (buf : List Nat), 1 ≤ dc_count buf → 58 ∈ buf := by
  intro buf
  induction buf with
  | nil => intro h; simp [dc_count] at h
  | cons c r ih =>
    intro h
    by_cases hc : c = 58
    · simp [hc]
    · have : dc_count (c :: r) = dc_count r := by simp [dc_count, hc]
      rw [this] at h
      exact List.mem_cons_of_mem _ (ih h)

theorem dc_count_of_pos : ∀ (buf : List Nat) (i : Nat), buf[i]? = some 58 →
    buf[i + 1]? = some 58 → 1 ≤ dc_count buf := by
  intro buf
  induction buf with
  | nil => intro i h; simp at h
  | cons c r ih =>
    intro i h0 h1
    cases i with
    | zero =>
      simp at h0 h1
      have hh : r.head? = some 58 := by
        cases r with
        | nil => simp at h1
        | cons d r2 => simpa using h1
      simp [dc_count, h0, hh]
    | succ k =>
      simp at h0 h1
      have := ih k h0 h1
      simp only [dc_count]
      omega

theorem dc_count_of_two_pos : ∀ (buf : List Nat) (i j : Nat), i < j → buf[i]? = some 58 →
    buf[i + 1]? = some 58 → buf[j]? = some 58 → buf[j + 1]? = some 58 →
    2 ≤ dc_count buf := by
  intro buf
  induction buf with
  | nil => intro i j _ h; simp at h
  | cons c r ih =>
    intro i j hij hi0 hi1 hj0 hj1
    cases j with
    | zero => omega
    | succ j2 =>
      simp at hj0 hj1
      cases i with
      | zero =>
        simp at hi0 hi1
        have hh : r.head? = some 58 := by
          cases r with
          | nil => simp at hi1
          | cons d r2 => simpa using hi1
        have := dc_count_of_pos r j2 hj0 hj1
        simp only [dc_count, hi0, hh, and_self, if_true]
        omega
      | succ i2 =>
        simp at hi0 hi1
        have := ih i2 j2 (by omega) hi0 hi1 hj0 hj1
        simp only [dc_count]
        omega

theorem in6_loop_dc (pf : Platform) (h : 32 ≤ pf.uint_bits) :
    ∀ (buf : List Nat) (st : In6Scan), (∀ t, st.ipv4 = some t → buf <:+ t) →
      ((st.zero_start ≠ none ∧ 1 ≤ dc_due st.nibbles buf) ∨ 2 ≤ dc_due st.nibbles buf) →
      (nxt_inet6_addr_loop pf buf st).is_error := by
  intro buf
  induction buf with
  | nil =>
    intro st _ hd
    simp [dc_due, dc_count] at hd
  | cons c r ih =>
    intro st hinv hd
    unfold nxt_inet6_addr_loop
    by_cases hc : c = 58
    · subst hc
      simp only [if_true]
      by_cases hn : st.nibbles = 0
      · simp only [hn, ne_eq, not_true_eq_false, if_false]
        by_cases hz : st.zero_start = none
        · simp only [hz, if_true]
          apply ih
          · intro t ht; simp at ht; subst ht; exact List.suffix_refl _
          · left
            refine ⟨by simp, ?_⟩
            simp only [dc_due, hn, if_true] at hd ⊢
            have e1 : dc_count (58 :: 58 :: r) = 1 + dc_count (58 :: r) := by
              simp [dc_count]
            rw [e1] at hd
            rcases hd with ⟨hz', _⟩ | hd
            · exact absurd hz hz'
            · omega
        · simp [hz, In6Exit.is_error]
      · simp only [ne_eq, hn, not_false_eq_true, if_true]
        split
        · apply ih
          · intro t ht; simp at ht; subst ht; exact List.suffix_refl _
          · have e1 : dc_due st.nibbles (58 :: r) = dc_due 0 r := by
              simp [dc_due, hn]
            rw [e1] at hd
            simpa [In6Scan.put_group] using hd
        · simp [In6Exit.is_error]
    · simp only [hc, if_false]
      have e1 : dc_due st.nibbles (c :: r) = dc_count r := by
        simp [dc_due, dc_count, hc]
      have hpos : 1 ≤ dc_count r := by
        rw [e1] at hd; rcases hd with ⟨_, h1⟩ | h1 <;> omega
      have hmem : 58 ∈ r := dc_count_pos_mem r hpos
      by_cases hdot : c = 46 ∧ st.nibbles ≠ 0
      · simp only [hdot, ne_eq, not_false_eq_true, and_self, if_true]
        cases hv : st.ipv4 with
        | none => simp [In6Exit.is_error]
        | some t =>
          simp only
          have hsuf := hinv t hv
          have hmt : 58 ∈ t := by
            obtain ⟨pre, hpre⟩ := hsuf
            rw [← hpre]
            exact List.mem_append_right _ (List.mem_cons_of_mem _ hmem)
          rw [inet_addr_colon pf h t hmt]
          split <;> simp [In6Exit.is_error]
      · simp only [hdot, if_false]
        have hinv2 : ∀ t, st.ipv4 = some t → r <:+ t := fun t ht =>
          List.IsSuffix.trans (List.suffix_cons c r) (hinv t ht)
        have hd2 : ∀ n, n ≠ 0 →
            (st.zero_start ≠ none ∧ 1 ≤ dc_due n r) ∨ 2 ≤ dc_due n r := by
          intro n hn
          have : dc_due n r = dc_count r := by simp [dc_due, hn]
          rw [this]; rw [e1] at hd; exact hd
        split
        · simp [In6Exit.is_error]
        · split
          · apply ih
            · exact hinv2
            · exact hd2 _ (by simp)
          · split
            · apply ih
              · exact hinv2
              · exact hd2 _ (by simp)
            · simp [In6Exit.is_error]

/-- C3: a text that holds the sequence "::" at two distinct positions (the two may overlap,
as in ":::") is rejected by `nxt_inet6_addr` with `NXT_ERROR`, whatever the destination
held. -/
theorem C3_inet6_addr_rejects_two_double_colons (pf : Platform) (hw : 32 ≤ pf.uint_bits)
    (s6 buf : List Nat) (i j : Nat) (hij : i < j)
    (hi : buf[i]? = some 58 ∧ buf[i + 1]? = some 58)
    (hj : buf[j]? = some 58 ∧ buf[j + 1]? = some 58) :
    (nxt_inet6_addr pf s6 buf).1 = NXT_ERROR := by
  have h2 := dc_count_of_two_pos buf i j hij hi.1 hi.2 hj.1 hj.2
  cases buf with
  | nil => simp [dc_count] at h2
  | cons c rest =>
    have key : (nxt_inet6_addr_loop pf (if c = 58 then rest else c :: rest)
        { s6 := s6, addr := 0, zero_start := none, groups_left := 8, nibbles := 0, group := 0,
          ipv4 := none }).is_error := by
      apply in6_loop_dc pf hw
      · intro t ht; simp at ht
      · right
        by_cases hc : c = 58
        · subst hc; simpa [dc_due] using h2
        · simp only [hc, if_false, dc_due, if_true]
          have : dc_count (58 :: c :: rest) = dc_count (c :: rest) := by
            cases rest <;> simp [dc_count, hc]
          omega
    unfold nxt_inet6_addr
    simp only
    cases hl : nxt_inet6_addr_loop pf (if c = 58 then rest else c :: rest)
        { s6 := s6, addr := 0, zero_start := none, groups_left := 8, nibbles := 0, group := 0,
          ipv4 := none } with
    | error s => rfl
    | finished st => rw [hl] at key; exact absurd key (by simp [In6Exit.is_error])

/-- C3 (witness): "1::2::3" and ":::". -/
theorem C3_inet6_addr_rejects_two_double_colons_witness :
    (nxt_inet6_addr linux_x86_64 (List.replicate 16 0) (str "1::2::3")).1 = NXT_ERROR ∧
      (nxt_inet6_addr linux_x86_64 (List.replicate 16 0) (str ":::")).1 = NXT_ERROR :=
  ⟨C3_inet6_addr_rejects_two_double_colons linux_x86_64 (by decide) _ (str "1::2::3") 1 4
      (by decide) (by decide) (by decide),
    C3_inet6_addr_rejects_two_double_colons linux_x86_64 (by decide) _ (str ":::") 0 1
      (by decide) (by decide) (by decide)⟩

/-! ### Decimal digits -/

theorem nxt_digits_acc (b : Nat) : ∀ (fuel n : Nat) (acc : List Nat),
    nxt_digits b fuel n acc = nxt_digits b fuel n [] ++ acc := by
  intro fuel
  induction fuel with
  | zero => intro n acc; simp [nxt_digits]
  | succ f ih =>
    intro n acc
    unfold nxt_digits
    by_cases h : n / b = 0
    · simp [h]
    · simp only [h, if_false]
      rw [ih (n / b) (digit_char (n % b) :: acc), ih (n / b) [digit_char (n % b)]]
      simp

theorem nxt_digits_fuel (b : Nat) (hb : 2 ≤ b) : ∀ (f1 f2 n : Nat) (acc : List Nat),
    n < f1 → n < f2 → nxt_digits b f1 n acc = nxt_digits b f2 n acc := by
  intro f1
  induction f1 with
  | zero => intro f2 n acc h; omega
  | succ f ih =>
    intro f2 n acc h1 h2
    cases f2 with
    | zero => omega
    | succ g =>
      unfold nxt_digits
      by_cases h : n / b = 0
      · simp [h]
      · simp only [h, if_false]
        have hlt : n / b < n := by
          apply Nat.div_lt_self
          · rcases Nat.eq_zero_or_pos n with h0 | h0
            · subst h0; simp at h
            · exact h0
          · omega
        exact ih g (n / b) _ (by omega) (by omega)

theorem nxt_digits_small (b n : Nat) (hn : n < b) :
    nxt_digits b (n + 1) n [] = [digit_char n] := by
  unfold nxt_digits
  simp [Nat.div_eq_of_lt hn, Nat.mod_eq_of_lt hn]

theorem nxt_digits_step (b n : Nat) (hb : 2 ≤ b) (hn : b ≤ n) :
    nxt_digits b (n + 1) n [] = nxt_digits b (n / b + 1) (n / b) [] ++ [digit_char (n % b)] := by
  have hpos : 0 < n / b := Nat.div_pos hn (by omega)
  have hlt : n / b < n := Nat.div_lt_self (by omega) (by omega)
  conv => lhs; unfold nxt_digits
  simp only [Nat.pos_iff_ne_zero.mp hpos, if_false]
  rw [nxt_digits_acc, nxt_digits_fuel b hb n (n / b + 1) (n / b) [] hlt (by omega)]

theorem sprintf_ud_small (n : Nat) (hn : n < 10) : nxt_sprintf_ud n = [48 + n] := by
  unfold nxt_sprintf_ud
  rw [nxt_digits_small 10 n hn]
  simp [digit_char, hn]

theorem sprintf_ud_step (n : Nat) (hn : 10 ≤ n) :
    nxt_sprintf_ud n = nxt_sprintf_ud (n / 10) ++ [48 + n % 10] := by
  unfold nxt_sprintf_ud
  rw [nxt_digits_step 10 n (by norm_num) hn]
  have : n % 10 < 10 := Nat.mod_lt _ (by norm_num)
  simp [digit_char, this]

theorem sprintf_ud_ne_nil (n : Nat) : nxt_sprintf_ud n ≠ [] := by
  rcases Nat.lt_or_ge n 10 with h | h
  · rw [sprintf_ud_small n h]; simp
  · rw [sprintf_ud_step n h]; simp

theorem sprintf_ud_digits : ∀ n : Nat, is_digits (nxt_sprintf_ud n) := by
  intro n
  induction n using Nat.strong_induction_on with
  | _ n ih =>
    rcases Nat.lt_or_ge n 10 with h | h
    · rw [sprintf_ud_small n h]
      intro c hc
      simp at hc
      omega
    · rw [sprintf_ud_step n h]
      intro c hc
      rcases List.mem_append.mp hc with h1 | h1
      · exact ih (n / 10) (by omega) c h1
      · simp at h1
        omega

theorem dec_value_from_append (v : Nat) (f g : List Nat) :
    dec_value_from v (f ++ g) = dec_value_from (dec_value_from v f) g := by
  simp [dec_value_from, List.foldl_append]

theorem dec_value_sprintf_ud : ∀ n : Nat, dec_value (nxt_sprintf_ud n) = n := by
  intro n
  induction n using Nat.strong_induction_on with
  | _ n ih =>
    rcases Nat.lt_or_ge n 10 with h | h
    · rw [sprintf_ud_small n h]
      simp [dec_value, dec_value_from]
    · rw [sprintf_ud_step n h]
      unfold dec_value
      rw [dec_value_from_append]
      have := ih (n / 10) (by omega)
      unfold dec_value at this
      rw [this]
      simp [dec_value_from]
      omega

theorem sprintf_ud_length (n : Nat) (hn : n < 1000) : (nxt_sprintf_ud n).length ≤ 3 := by
  rcases Nat.lt_or_ge n 10 with h | h
  · rw [sprintf_ud_small n h]; simp
  · rw [sprintf_ud_step n h]
    rcases Nat.lt_or_ge (n / 10) 10 with h2 | h2
    · rw [sprintf_ud_small _ h2]; simp
    · rw [sprintf_ud_step _ h2, sprintf_ud_small (n / 10 / 10) (by omega)]; simp

theorem dec_value_from_mono (f : List Nat) : ∀ v : Nat, v ≤ dec_value_from v f := by
  induction f with
  | nil => intro v; simp [dec_value_from]
  | cons c r ih =>
    intro v
    have := ih (v * 10 + (c - 48))
    simp only [dec_value_from, List.foldl_cons] at this ⊢
    omega

theorem dec_value_from_mod (W : Nat) (f : List Nat) : ∀ v : Nat,
    dec_value_from (v % W) f % W = dec_value_from v f % W := by
  induction f with
  | nil => intro v; simp [dec_value_from]
  | cons c r ih =>
    intro v
    simp only [dec_value_from, List.foldl_cons]
    have h1 := ih (v % W * 10 + (c - 48))
    have h2 := ih (v * 10 + (c - 48))
    simp only [dec_value_from] at h1 h2
    rw [← h1, ← h2]
    congr 2
    simp [Nat.add_mod, Nat.mul_mod]

/-! ### `nxt_inet_addr` on digits and dots -/


theorem usub_digit (pf : Platform) (h : 32 ≤ pf.uint_bits) (c : Nat) (h1 : 48 ≤ c)
    (h2 : c ≤ 57) : usub pf c 48 = c - 48 := by
  have hw := wrap_ge pf h
  exact usub_of_le pf c 48 h1 (by omega)

theorem inet_addr_loop_cons (pf : Platform) (c : Nat) (buf : List Nat) (addr octet dots : Nat) :
    nxt_inet_addr_loop pf (c :: buf) addr octet dots =
      if usub pf c 48 < 10 then
        nxt_inet_addr_loop pf buf addr ((octet * 10 + usub pf c 48) % pf.wrap) dots
      else if c = 46 ∧ octet < 256 then
        nxt_inet_addr_loop pf buf ((addr * 256 + octet) % 4294967296) 0 (dots + 1)
      else none := by
  rw [nxt_inet_addr_loop]

/-- The loop of `nxt_inet_addr` reads a run of digits into `octet`. -/
theorem inet_addr_loop_digits (pf : Platform) (h : 32 ≤ pf.uint_bits) :
    ∀ (ds rest : List Nat) (addr octet dots : Nat), is_digits ds → octet < pf.wrap →
      nxt_inet_addr_loop pf (ds ++ rest) addr octet dots
        = nxt_inet_addr_loop pf rest addr (dec_value_from octet ds % pf.wrap) dots := by
  intro ds
  induction ds with
  | nil =>
    intro rest addr octet dots _ ho
    simp [dec_value_from, Nat.mod_eq_of_lt ho]
  | cons c r ih =>
    intro rest addr octet dots hd ho
    have hc := hd c (List.mem_cons_self _ _)
    have hr : is_digits r := fun x hx => hd x (List.mem_cons_of_mem _ hx)
    have hu := usub_digit pf h c hc.1 hc.2
    have hlt : usub pf c 48 < 10 := by rw [hu]; omega
    rw [List.cons_append, inet_addr_loop_cons]
    simp only [hlt, if_true]
    rw [ih rest addr _ dots hr (Nat.mod_lt _ (by have := wrap_ge pf h; omega))]
    rw [dec_value_from_mod, hu]
    simp [dec_value_from]

/-- The loop of `nxt_inet_addr` at a dot that ends an octet below 256. -/
theorem inet_addr_loop_dot (pf : Platform) (h : 32 ≤ pf.uint_bits) (rest : List Nat)
    (addr octet dots : Nat) (ho : octet < 256) :
    nxt_inet_addr_loop pf (46 :: rest) addr octet dots
      = nxt_inet_addr_loop pf rest ((addr * 256 + octet) % 4294967296) 0 (dots + 1) := by
  have hw := wrap_ge pf h
  have hu : usub pf 46 48 = pf.wrap - 2 := usub_of_lt pf 46 48 (by norm_num) (by omega)
  have hlt : ¬ usub pf 46 48 < 10 := by rw [hu]; omega
  rw [inet_addr_loop_cons]
  simp [hlt, ho]

theorem inet_addr_dotted_quad (pf : Platform) (h : 32 ≤ pf.uint_bits) (a b c d : Nat)
    (ha : a < 256) (hb : b < 256) (hc : c < 256) (hd : d < 256) :
    nxt_inet_addr pf (dotted_quad a b c d)
      = htonl pf (a * 16777216 + b * 65536 + c * 256 + d) := by
  have hw := wrap_ge pf h
  have hval : ∀ n, n < 256 → dec_value_from 0 (nxt_sprintf_ud n) % pf.wrap = n := by
    intro n hn
    have := dec_value_sprintf_ud n
    unfold dec_value at this
    rw [this]
    exact Nat.mod_eq_of_lt (by omega)
  unfold nxt_inet_addr dotted_quad
  rw [inet_addr_loop_digits pf h _ _ _ _ _ (sprintf_ud_digits a) (by omega), hval a ha,
    inet_addr_loop_dot pf h _ _ _ _ ha,
    inet_addr_loop_digits pf h _ _ _ _ _ (sprintf_ud_digits b) (by omega), hval b hb,
    inet_addr_loop_dot pf h _ _ _ _ hb,
    inet_addr_loop_digits pf h _ _ _ _ _ (sprintf_ud_digits c) (by omega), hval c hc,
    inet_addr_loop_dot pf h _ _ _ _ hc]
  have e : nxt_sprintf_ud d = nxt_sprintf_ud d ++ [] := by simp
  rw [e, inet_addr_loop_digits pf h _ _ _ _ _ (sprintf_ud_digits d) (by omega), hval d hd]
  simp only [nxt_inet_addr_loop]
  simp only [hd, and_self, if_true]
  congr 1
  omega

theorem quad_bytes (a b c d : Nat)
    (ha : a < 256) (hb : b < 256) (hc : c < 256) (hd : d < 256) :
    (a * 16777216 + b * 65536 + c * 256 + d) % 256 = d ∧
    (a * 16777216 + b * 65536 + c * 256 + d) / 256 % 256 = c ∧
    (a * 16777216 + b * 65536 + c * 256 + d) / 65536 % 256 = b ∧
    (a * 16777216 + b * 65536 + c * 256 + d) / 16777216 % 256 = a ∧
    (a * 16777216 + b * 65536 + c * 256 + d) % 4294967296
      = a * 16777216 + b * 65536 + c * 256 + d := by
  refine ⟨?_, ?_, ?_, ?_, ?_⟩ <;> omega

theorem htonl_quad (pf : Platform) (a b c d : Nat)
    (ha : a < 256) (hb : b < 256) (hc : c < 256) (hd : d < 256) :
    htonl pf (a * 16777216 + b * 65536 + c * 256 + d)
      = if pf.little_endian then d * 16777216 + c * 65536 + b * 256 + a
        else a * 16777216 + b * 65536 + c * 256 + d := by
  obtain ⟨h1, h2, h3, h4, h5⟩ := quad_bytes a b c d ha hb hc hd
  unfold htonl bswap32
  rw [h1, h2, h3, h4, h5]

theorem htonl_quad_ne_none (pf : Platform) (a b c d : Nat)
    (ha : a < 256) (hb : b < 256) (hc : c < 256) (hd : d < 256)
    (hne : ¬ (a = 255 ∧ b = 255 ∧ c = 255 ∧ d = 255)) :
    htonl pf (a * 16777216 + b * 65536 + c * 256 + d) ≠ INADDR_NONE := by
  rw [htonl_quad pf a b c d ha hb hc hd]
  unfold INADDR_NONE
  split <;> omega

theorem mem_bytes32_htonl_quad (pf : Platform) (a b c d : Nat)
    (ha : a < 256) (hb : b < 256) (hc : c < 256) (hd : d < 256) :
    mem_bytes32 pf (htonl pf (a * 16777216 + b * 65536 + c * 256 + d)) = [a, b, c, d] := by
  rw [htonl_quad pf a b c d ha hb hc hd]
  unfold mem_bytes32
  cases pf.little_endian
  · obtain ⟨h1, h2, h3, h4, _⟩ := quad_bytes a b c d ha hb hc hd
    simp only [Bool.false_eq_true, if_false]
    rw [h1, h2, h3, h4]
  · obtain ⟨h1, h2, h3, h4, _⟩ := quad_bytes d c b a hd hc hb ha
    simp only [if_true]
    rw [h1, h2, h3, h4]

theorem dotted_quad_length (a b c d : Nat)
    (ha : a < 256) (hb : b < 256) (hc : c < 256) (hd : d < 256) :
    (dotted_quad a b c d).length ≤ 15 := by
  have h1 := sprintf_ud_length a (by omega)
  have h2 := sprintf_ud_length b (by omega)
  have h3 := sprintf_ud_length c (by omega)
  have h4 := sprintf_ud_length d (by omega)
  simp only [dotted_quad, List.length_append, List.length_cons]
  omega

/-- C2 (counterexample): the canonical text of 255.255.255.255 is read as `INADDR_NONE`. -/
theorem C2_counterexample_broadcast :
    dotted_quad 255 255 255 255 = str "255.255.255.255" ∧
      nxt_inet_addr linux_x86_64 (dotted_quad 255 255 255 255) = INADDR_NONE := by
  decide

/-- C2 (amended): for octets a, b, c, d that are not all 255, `nxt_inet_addr` on the
canonical text "a.b.c.d" is an address (not `INADDR_NONE`), and `nxt_sockaddr_ntop` without
port on an AF_INET value that holds this address writes the same text back, given room for
the 15 bytes of the longest dotted quad. -/
theorem C2_inet_addr_ntop_roundtrip (pf : Platform) (hw : 32 ≤ pf.uint_bits) (a b c d : Nat)
    (ha : a < 256) (hb : b < 256) (hc : c < 256) (hd : d < 256)
    (hne : ¬ (a = 255 ∧ b = 255 ∧ c = 255 ∧ d = 255)) :
    nxt_inet_addr pf (dotted_quad a b c d) ≠ INADDR_NONE ∧
      ∀ (sa : nxt_sockaddr_t) (fuel cap : Nat), sa.sa_family = pf.AF_INET →
        sa.sin_addr = nxt_inet_addr pf (dotted_quad a b c d) → 15 ≤ cap →
        nxt_sockaddr_ntop pf fuel sa cap false = Ntop.text (dotted_quad a b c d) := by
  rw [inet_addr_dotted_quad pf hw a b c d ha hb hc hd]
  refine ⟨htonl_quad_ne_none pf a b c d ha hb hc hd hne, ?_⟩
  intro sa fuel cap hfam haddr hcap
  have hlen := dotted_quad_length a b c d ha hb hc hd
  unfold nxt_sockaddr_ntop
  simp only [hfam, if_true, haddr, mem_bytes32_htonl_quad pf a b c d ha hb hc hd]
  simp only [Bool.false_eq_true, if_false, nxt_sprintf, List.getD_cons_zero,
    List.getD_cons_succ, List.nil_append, List.length_nil, Nat.sub_zero]
  rw [List.take_of_length_le (by omega)]

/-- C2 (witness): 192.0.2.1. -/
theorem C2_inet_addr_ntop_roundtrip_witness :
    nxt_inet_addr linux_x86_64 (dotted_quad 192 0 2 1) ≠ INADDR_NONE ∧
      nxt_sockaddr_ntop linux_x86_64 0
        { socklen := 16, type := 0, text := none, text_len := 0, sa_family := 2, sin_port := 0,
          sin_addr := nxt_inet_addr linux_x86_64 (dotted_quad 192 0 2 1), sin6_port := 0,
          sin6_addr := [], sun_path := [] } 15 false = Ntop.text (dotted_quad 192 0 2 1) :=
  have h := C2_inet_addr_ntop_roundtrip linux_x86_64 (by decide) 192 0 2 1 (by decide)
    (by decide) (by decide) (by decide) (by decide)
  ⟨h.1, h.2 _ 0 15 rfl rfl (by decide)⟩

theorem int_max_ge (pf : Platform) (h : 32 ≤ pf.uint_bits) : 2147483647 ≤ pf.NXT_INT_T_MAX := by
  unfold Platform.NXT_INT_T_MAX
  have : 2 ^ 31 ≤ 2 ^ (pf.uint_bits - 1) := Nat.pow_le_pow_right (by norm_num) (by omega)
  have e : (2 : Nat) ^ 31 = 2147483648 := by norm_num
  omega

theorem int_parse_loop_cons (pf : Platform) (c : Nat) (p : List Nat) (val : Nat) :
    nxt_int_parse_loop pf (c :: p) val =
      if c < 48 ∨ 57 < c then -1
      else if pf.NXT_INT_T_MAX < val * 10 + (c - 48) then -2
      else nxt_int_parse_loop pf p (val * 10 + (c - 48)) := by
  rw [nxt_int_parse_loop]

theorem int_parse_loop_nonneg (pf : Platform) : ∀ (ds : List Nat) (v : Nat),
    0 ≤ nxt_int_parse_loop pf ds v →
      is_digits ds ∧ nxt_int_parse_loop pf ds v = (dec_value_from v ds : Nat) := by
  intro ds
  induction ds with
  | nil => intro v _; simp [is_digits, nxt_int_parse_loop, dec_value_from]
  | cons c r ih =>
    intro v h
    rw [int_parse_loop_cons] at h ⊢
    by_cases h1 : c < 48 ∨ 57 < c
    · simp [h1] at h
    · simp only [h1, if_false] at h ⊢
      by_cases h2 : pf.NXT_INT_T_MAX < v * 10 + (c - 48)
      · simp [h2] at h
      · simp only [h2, if_false] at h ⊢
        obtain ⟨hd, he⟩ := ih _ h
        refine ⟨?_, ?_⟩
        · intro x hx
          rcases List.mem_cons.mp hx with e | e
          · subst e; omega
          · exact hd x e
        · rw [he]; simp [dec_value_from]

theorem int_parse_loop_digits (pf : Platform) : ∀ (ds : List Nat) (v : Nat),
    is_digits ds → dec_value_from v ds ≤ pf.NXT_INT_T_MAX →
      nxt_int_parse_loop pf ds v = (dec_value_from v ds : Nat) := by
  intro ds
  induction ds with
  | nil => intro v _ _; simp [nxt_int_parse_loop, dec_value_from]
  | cons c r ih =>
    intro v hd hle
    have hc := hd c (List.mem_cons_self _ _)
    have hr : is_digits r := fun x hx => hd x (List.mem_cons_of_mem _ hx)
    have e : dec_value_from v (c :: r) = dec_value_from (v * 10 + (c - 48)) r := by
      simp [dec_value_from]
    rw [e] at hle ⊢
    have hm := dec_value_from_mono r (v * 10 + (c - 48))
    rw [int_parse_loop_cons]
    have h1 : ¬ (c < 48 ∨ 57 < c) := by omega
    have h2 : ¬ pf.NXT_INT_T_MAX < v * 10 + (c - 48) := by omega
    simp only [h1, h2, if_false]
    exact ih _ hr hle

/-- The integer parser reads a number from 1 to 65535 exactly on a non-empty run of digits
with that value. -/
theorem int_parse_port_iff (pf : Platform) (h : 32 ≤ pf.uint_bits) (ds : List Nat) :
    (1 ≤ nxt_int_parse pf ds ∧ nxt_int_parse pf ds ≤ 65535) ↔
      (ds ≠ [] ∧ is_digits ds ∧ 1 ≤ dec_value ds ∧ dec_value ds ≤ 65535) := by
  have hmax := int_max_ge pf h
  cases ds with
  | nil => simp [nxt_int_parse]
  | cons c r =>
    simp only [nxt_int_parse, ne_eq, reduceCtorEq, not_false_eq_true, true_and]
    constructor
    · rintro ⟨h1, h2⟩
      obtain ⟨hd, he⟩ := int_parse_loop_nonneg pf (c :: r) 0 (by omega)
      rw [he] at h1 h2
      unfold dec_value
      exact ⟨hd, by exact_mod_cast h1, by exact_mod_cast h2⟩
    · rintro ⟨hd, h1, h2⟩
      unfold dec_value at h1 h2
      rw [int_parse_loop_digits pf (c :: r) 0 hd (by omega)]
      exact ⟨by exact_mod_cast h1, by exact_mod_cast h2⟩

theorem int_parse_of_digits (pf : Platform) (ds : List Nat) (hne : ds ≠ [])
    (hd : is_digits ds) (hle : dec_value ds ≤ pf.NXT_INT_T_MAX) :
    nxt_int_parse pf ds = (dec_value ds : Nat) := by
  cases ds with
  | nil => exact absurd rfl hne
  | cons c r =>
    simp only [nxt_int_parse]
    exact int_parse_loop_digits pf (c :: r) 0 hd hle

theorem int_parse_sprintf_ud (pf : Platform) (h : 32 ≤ pf.uint_bits) (p : Nat)
    (hp : p ≤ 65535) : nxt_int_parse pf (nxt_sprintf_ud p) = (p : Nat) := by
  have hmax := int_max_ge pf h
  have hv := dec_value_sprintf_ud p
  rw [int_parse_of_digits pf _ (sprintf_ud_ne_nil p) (sprintf_ud_digits p) (by omega), hv]

theorem memchr_none (c : Nat) : ∀ l : List Nat, c ∉ l → nxt_memchr l c = none := by
  intro l
  induction l with
  | nil => intro _; rfl
  | cons b r ih =>
    intro h
    have hb : b ≠ c := fun e => h (by simp [e])
    have hr : c ∉ r := fun e => h (List.mem_cons_of_mem _ e)
    simp [nxt_memchr, hb, ih hr]

theorem memchr_first (c : Nat) : ∀ (l post : List Nat), c ∉ l →
    nxt_memchr (l ++ c :: post) c = some l.length := by
  intro l
  induction l with
  | nil => intro post _; simp [nxt_memchr]
  | cons b r ih =>
    intro post h
    have hb : b ≠ c := fun e => h (by simp [e])
    have hr : c ∉ r := fun e => h (List.mem_cons_of_mem _ e)
    simp [nxt_memchr, hb, ih post hr]

theorem sprintf_ud_no_colon (p : Nat) : 58 ∉ nxt_sprintf_ud p := by
  intro h
  have := sprintf_ud_digits p 58 h
  omega

/-! ### Byte order of a port -/

theorem htons_lt (pf : Platform) (x : Nat) : htons pf x < 65536 := by
  unfold htons bswap16
  split <;> omega

theorem bswap16_bswap16 (x : Nat) (hx : x < 65536) : bswap16 (bswap16 x) = x := by
  unfold bswap16
  have h2 : x / 256 % 256 = x / 256 := Nat.mod_eq_of_lt (by omega)
  rw [h2]
  have h3 : (x % 256 * 256 + x / 256) % 256 = x / 256 := by omega
  have h4 : (x % 256 * 256 + x / 256) / 256 = x % 256 := by omega
  rw [h3, h4]
  omega

theorem ntohs_htons (pf : Platform) (x : Nat) (hx : x < 65536) : ntohs pf (htons pf x) = x := by
  unfold ntohs htons
  split
  · exact bswap16_bswap16 x hx
  · omega

/-! ### The pool -/

theorem mem_alloc_serves (mp : nxt_mem_pool_t) (h : mp.serves_all) :
    (nxt_mem_alloc mp).1 = true ∧ (nxt_mem_alloc mp).2.serves_all := by
  unfold nxt_mem_alloc
  cases hp : mp.plan with
  | nil => exact ⟨rfl, h⟩
  | cons b r =>
    unfold nxt_mem_pool_t.serves_all at h ⊢
    rw [hp] at h
    exact ⟨h b (List.mem_cons_self _ _), fun x hx => h x (List.mem_cons_of_mem _ hx)⟩

theorem sockaddr_alloc_serves (pf : Platform) (mp : nxt_mem_pool_t) (len : Nat)
    (h : mp.serves_all) :
    nxt_sockaddr_alloc pf mp len =
      (some { socklen := len, type := 0, text := none, text_len := 0, sa_family := 0,
              sin_port := 0, sin_addr := 0, sin6_port := 0,
              sin6_addr := List.replicate 16 0,
              sun_path := List.replicate (len - pf.sun_path_offset) 0 },
        (nxt_mem_alloc mp).2) := by
  unfold nxt_sockaddr_alloc
  simp [(mem_alloc_serves mp h).1]

/-! ### The parse job -/

/-- C6: a token without a colon that does not start with a bracket, that the integer parser
does not read as a positive number and that `nxt_inet_addr` does not accept is handed to the
resolver: `nxt_job_sockaddr_inet_parse` answers `NXT_AGAIN`, and `nxt_job_sockaddr_parse`
records the whole token as the name, sets `no_port`, and its only call is one
`nxt_job_resolve` (with the name and the default port); it makes no `nxt_job_return` call. -/
theorem C6_hostname_token_is_resolved (pf : Platform) (jbs : nxt_job_sockaddr_parse_t)
    (hcolon : 58 ∉ jbs.addr) (hbracket : jbs.addr.head? ≠ some 91)
    (hnum : ¬ 0 < nxt_int_parse pf jbs.addr)
    (hv4 : nxt_inet_addr pf jbs.addr = INADDR_NONE) :
    (nxt_job_sockaddr_inet_parse pf jbs).1 = NXT_AGAIN ∧
      (nxt_job_sockaddr_parse pf jbs).name = jbs.addr ∧
      (nxt_job_sockaddr_parse pf jbs).no_port = true ∧
      (nxt_job_sockaddr_parse pf jbs).calls
        = jbs.calls ++ [Call.nxt_job_resolve jbs.addr jbs.port] := by
  have hinet : nxt_job_sockaddr_inet_parse pf jbs
      = nxt_job_sockaddr_inet_resolve { jbs with no_port := true } jbs.addr := by
    unfold nxt_job_sockaddr_inet_parse
    simp only [memchr_none 58 jbs.addr hcolon]
    simp [hnum, hv4]
  have hunix : ¬ (jbs.addr.length > 6 ∧ jbs.addr.take 5 = [117, 110, 105, 120, 58]) := by
    rintro ⟨_, h5⟩
    apply hcolon
    have : 58 ∈ jbs.addr.take 5 := by rw [h5]; simp
    exact List.mem_of_mem_take this
  have htop : nxt_job_sockaddr_parse pf jbs
      = (nxt_job_sockaddr_inet_resolve { jbs with no_port := true } jbs.addr).2 := by
    unfold nxt_job_sockaddr_parse
    simp only [hunix, if_false, hbracket, and_false, hinet]
    simp [nxt_job_sockaddr_inet_resolve, NXT_AGAIN, NXT_OK, NXT_ERROR]
  rw [hinet, htop]
  simp [nxt_job_sockaddr_inet_resolve]

/-- C6 (witness): "256.1.1.1" with default port 80. -/
theorem C6_hostname_token_is_resolved_witness :
    (nxt_job_sockaddr_inet_parse linux_x86_64
        (nxt_job_sockaddr_parse_t.fresh (str "256.1.1.1") 80 0 ⟨[]⟩)).1 = NXT_AGAIN ∧
      (nxt_job_sockaddr_parse linux_x86_64
        (nxt_job_sockaddr_parse_t.fresh (str "256.1.1.1") 80 0 ⟨[]⟩)).calls
        = [Call.nxt_job_resolve (str "256.1.1.1") 80] :=
  have h := C6_hostname_token_is_resolved linux_x86_64
    (nxt_job_sockaddr_parse_t.fresh (str "256.1.1.1") 80 0 ⟨[]⟩)
    (by decide) (by decide) (by decide) (by decide)
  ⟨h.1, h.2.2.2⟩

/-- What `nxt_job_sockaddr_inet6_parse` does on "[" t "]" s when the pool serves its two
requests: the status and the request afterwards, in terms of the decoded interior. -/
theorem inet6_parse_bracketed (pf : Platform) (jbs : nxt_job_sockaddr_parse_t)
    (t s : List Nat) (haddr : jbs.addr = 91 :: (t ++ 93 :: s)) (ht : 93 ∉ t)
    (hpool : jbs.mem_pool.serves_all) :
    nxt_job_sockaddr_inet6_parse pf jbs =
      (let parsed := nxt_inet6_addr pf (List.replicate 16 0) t
       let sa : nxt_sockaddr_t :=
        { socklen := pf.sizeof_sockaddr_in6, type := 0, text := none, text_len := 0,
          sa_family := 0, sin_port := 0, sin_addr := 0, sin6_port := 0, sin6_addr := parsed.2,
          sun_path := List.replicate (pf.sizeof_sockaddr_in6 - pf.sun_path_offset) 0 }
       let jbs1 := { jbs with mem_pool := (nxt_mem_alloc (nxt_mem_alloc jbs.mem_pool).2).2,
                              count := 1, sockaddrs := [sa] }
       if parsed.1 ≠ NXT_OK then (NXT_ERROR, jbs1.log_error)
       else if s.length = 0 then
         nxt_job_sockaddr_inet6_found pf { jbs1 with no_port := true } sa jbs1.port
       else if s.head? = some 58 ∧ 1 ≤ nxt_int_parse pf (s.drop 1) ∧
           nxt_int_parse pf (s.drop 1) ≤ 65535 then
         nxt_job_sockaddr_inet6_found pf jbs1 sa
           (htons pf ((nxt_int_parse pf (s.drop 1)).toNat % 65536))
       else (NXT_ERROR, jbs1.log_error)) := by
  have h1 := mem_alloc_serves jbs.mem_pool hpool
  have h2 := sockaddr_alloc_serves pf (nxt_mem_alloc jbs.mem_pool).2 pf.sizeof_sockaddr_in6 h1.2
  unfold nxt_job_sockaddr_inet6_parse
  simp only [haddr, List.drop_succ_cons, List.drop_zero, memchr_first 93 t s ht, h1.1, if_true,
    h2, List.take_left', List.drop_left', List.drop_append_of_le_length, List.take_append_of_le_length]
  simp

/-- C7: on an input without a closing bracket, and on "[" t "]" s with an interior t that
`nxt_inet6_addr` rejects, `nxt_job_sockaddr_inet6_parse` returns `NXT_ERROR`. On
"[" t "]" s with t free of "]" and accepted by `nxt_inet6_addr`, and with a pool that serves
the two allocations, it returns `NXT_OK` exactly when s is empty or s is ":" followed by a
non-empty run of decimal digits of value p with 1 ≤ p ≤ 65535, and `NXT_ERROR` otherwise;
with the ":p" suffix the result is one AF_INET6 address of recorded length
`sizeof(struct sockaddr_in6)` whose 16 bytes are those decoded from t and whose port read
back by `nxt_sockaddr_port` is p, and on a request whose wildcard flag was clear the flag is
set afterwards iff the 16 bytes are all zero. -/
theorem C7_bracketed_inet6_parse (pf : Platform) (hw : 32 ≤ pf.uint_bits) :
    (∀ jbs : nxt_job_sockaddr_parse_t, 93 ∉ jbs.addr.drop 1 →
      (nxt_job_sockaddr_inet6_parse pf jbs).1 = NXT_ERROR) ∧
    (∀ (jbs : nxt_job_sockaddr_parse_t) (t s : List Nat),
      jbs.addr = 91 :: (t ++ 93 :: s) → 93 ∉ t →
      ((nxt_inet6_addr pf (List.replicate 16 0) t).1 ≠ NXT_OK →
        (nxt_job_sockaddr_inet6_parse pf jbs).1 = NXT_ERROR) ∧
      ((nxt_inet6_addr pf (List.replicate 16 0) t).1 = NXT_OK → jbs.mem_pool.serves_all →
        ((nxt_job_sockaddr_inet6_parse pf jbs).1 = NXT_OK ↔
          (s = [] ∨ ∃ ds, s = 58 :: ds ∧ ds ≠ [] ∧ is_digits ds ∧ 1 ≤ dec_value ds ∧
            dec_value ds ≤ 65535)) ∧
        ((nxt_job_sockaddr_inet6_parse pf jbs).1 ≠ NXT_OK →
          (nxt_job_sockaddr_inet6_parse pf jbs).1 = NXT_ERROR) ∧
        (∀ ds, s = 58 :: ds → ds ≠ [] → is_digits ds → 1 ≤ dec_value ds →
          dec_value ds ≤ 65535 →
          (nxt_job_sockaddr_inet6_parse pf jbs).2.count = 1 ∧
          ∃ sa, (nxt_job_sockaddr_inet6_parse pf jbs).2.sockaddrs = [sa] ∧
            sa.sa_family = pf.AF_INET6 ∧ sa.socklen = pf.sizeof_sockaddr_in6 ∧
            sa.sin6_addr = (nxt_inet6_addr pf (List.replicate 16 0) t).2 ∧
            nxt_sockaddr_port pf sa = dec_value ds ∧
            (jbs.wildcard = false →
              ((nxt_job_sockaddr_inet6_parse pf jbs).2.wildcard = true ↔
                sa.sin6_addr = List.replicate 16 0))))) := by
  refine ⟨?_, ?_⟩
  · intro jbs h
    have h2 : nxt_memchr (jbs.addr.drop 1) 93 = none := memchr_none 93 _ h
    unfold nxt_job_sockaddr_inet6_parse
    simp only [h2]
  · intro jbs t s haddr ht
    refine ⟨?_, ?_⟩
    · -- the interior is rejected: whatever the pool does, the status is NXT_ERROR
      intro hrej
      unfold nxt_job_sockaddr_inet6_parse nxt_sockaddr_alloc
      simp only [haddr, List.drop_succ_cons, List.drop_zero, memchr_first 93 t s ht]
      have hrej2 : (nxt_inet6_addr pf [0, 0, 0, 0, 0, 0, 0, 0, 0, 0, 0, 0, 0, 0, 0, 0] t).1
          ≠ NXT_OK := hrej
      cases h1 : (nxt_mem_alloc jbs.mem_pool).1 <;>
        cases h2 : (nxt_mem_alloc (nxt_mem_alloc jbs.mem_pool).2).1 <;>
        simp [h1, h2, hrej2]
    · intro hacc hpool
      have hshape := inet6_parse_bracketed pf jbs t s haddr ht hpool
      simp only [hacc, ne_eq, not_true_eq_false, if_false] at hshape
      refine ⟨?_, ?_, ?_⟩
      · rw [hshape]
        cases s with
        | nil => simp [nxt_job_sockaddr_inet6_found]
        | cons c ds =>
          simp only [List.length_cons, Nat.add_one_ne_zero, if_false, List.head?_cons,
            Option.some.injEq, List.drop_succ_cons, List.drop_zero, reduceCtorEq, false_or,
            List.cons.injEq]
          constructor
          · intro hok
            by_cases hc : c = 58 ∧ 1 ≤ nxt_int_parse pf ds ∧ nxt_int_parse pf ds ≤ 65535
            · exact ⟨ds, ⟨hc.1, rfl⟩, (int_parse_port_iff pf hw ds).mp hc.2⟩
            · simp [hc, NXT_OK, NXT_ERROR] at hok
          · rintro ⟨ds2, ⟨hc, hds⟩, hrest⟩
            subst hds
            have hp := (int_parse_port_iff pf hw ds).mpr hrest
            simp [hc, hp, nxt_job_sockaddr_inet6_found]
      · rw [hshape]
        intro hne
        by_cases h0 : s.length = 0
        · rw [if_pos h0] at hne
          exact absurd rfl hne
        · by_cases hc : s.head? = some 58 ∧ 1 ≤ nxt_int_parse pf (s.drop 1) ∧
              nxt_int_parse pf (s.drop 1) ≤ 65535
          · rw [if_neg h0, if_pos hc] at hne
            exact absurd rfl hne
          · rw [if_neg h0, if_neg hc]
      · intro ds hs hne hd h1 h2
        have hp := (int_parse_port_iff pf hw ds).mpr ⟨hne, hd, h1, h2⟩
        have hmax := int_max_ge pf hw
        have hval : nxt_int_parse pf ds = (dec_value ds : Nat) :=
          int_parse_of_digits pf ds hne hd (by omega)
        rw [hshape]
        subst hs
        simp only [List.length_cons, Nat.add_one_ne_zero, if_false, List.head?_cons,
          List.drop_succ_cons, List.drop_zero, hp, and_self, if_true,
          nxt_job_sockaddr_inet6_found]
        refine ⟨trivial, _, rfl, rfl, rfl, rfl, ?_, ?_⟩
        · simp only [nxt_sockaddr_port, if_true, hval, Int.toNat_ofNat]
          rw [Nat.mod_eq_of_lt (show dec_value ds < 65536 by omega),
            Nat.mod_eq_of_lt (htons_lt pf _), Nat.mod_eq_of_lt (htons_lt pf _),
            ntohs_htons pf _ (by omega)]
        · intro hwild
          simp [hwild, IN6_IS_ADDR_UNSPECIFIED]

/-- C7 (witness): "[::1]:8080" gives the loopback address, port 8080, wildcard clear. -/
theorem C7_bracketed_inet6_parse_witness :
    (nxt_job_sockaddr_inet6_parse linux_x86_64
        (nxt_job_sockaddr_parse_t.fresh (str "[::1]:8080") 0 0 ⟨[]⟩)).1 = NXT_OK ∧
      ∃ sa, (nxt_job_sockaddr_inet6_parse linux_x86_64
          (nxt_job_sockaddr_parse_t.fresh (str "[::1]:8080") 0 0 ⟨[]⟩)).2.sockaddrs = [sa] ∧
        sa.sin6_addr = [0, 0, 0, 0, 0, 0, 0, 0, 0, 0, 0, 0, 0, 0, 0, 1] ∧
        nxt_sockaddr_port linux_x86_64 sa = 8080 ∧
        (nxt_job_sockaddr_inet6_parse linux_x86_64
          (nxt_job_sockaddr_parse_t.fresh (str "[::1]:8080") 0 0 ⟨[]⟩)).2.wildcard = false := by
  have h := ((C7_bracketed_inet6_parse linux_x86_64 (by decide)).2
    (nxt_job_sockaddr_parse_t.fresh (str "[::1]:8080") 0 0 ⟨[]⟩) (str "::1") (str ":8080")
    (by decide) (by decide)).2 (by decide) (by decide)
  refine ⟨h.1.mpr (Or.inr ⟨str "8080", by decide, by decide, by decide, by decide,
    by decide⟩), ?_⟩
  obtain ⟨_, sa, hsa, _, _, haddr, hport, hwild⟩ :=
    h.2.2 (str "8080") (by decide) (by decide) (by decide) (by decide) (by decide)
  refine ⟨sa, hsa, ?_, ?_, ?_⟩
  · rw [haddr]; decide
  · rw [hport]; decide
  · have hw2 := hwild rfl
    rw [haddr] at hw2
    cases hb : (nxt_job_sockaddr_inet6_parse linux_x86_64
          (nxt_job_sockaddr_parse_t.fresh (str "[::1]:8080") 0 0 ⟨[]⟩)).2.wildcard with
    | false => rfl
    | true => exact absurd (hw2.mp hb) (by decide)

/-- The tail of `nxt_job_sockaddr_inet_parse` when the pool serves its two requests. -/
theorem inet_found_serves (pf : Platform) (jbs : nxt_job_sockaddr_parse_t) (addr port : Nat)
    (hpool : jbs.mem_pool.serves_all) :
    nxt_job_sockaddr_inet_found pf jbs addr port =
      (NXT_OK,
        { jbs with
          mem_pool := (nxt_mem_alloc (nxt_mem_alloc jbs.mem_pool).2).2, count := 1,
          sockaddrs :=
            [{ socklen := pf.sizeof_sockaddr_in, type := 0, text := none, text_len := 0,
               sa_family := pf.AF_INET, sin_port := port % 65536, sin_addr := addr,
               sin6_port := 0, sin6_addr := List.replicate 16 0,
               sun_path := List.replicate (pf.sizeof_sockaddr_in - pf.sun_path_offset) 0 }],
          wildcard := addr = INADDR_ANY }) := by
  have h1 := mem_alloc_serves jbs.mem_pool hpool
  have h2 := sockaddr_alloc_serves pf (nxt_mem_alloc jbs.mem_pool).2 pf.sizeof_sockaddr_in h1.2
  unfold nxt_job_sockaddr_inet_found
  simp only [h1.1, if_true, h2]

/-- The branch of `nxt_job_sockaddr_inet_parse` for an input with a colon: the text is cut
at the first colon. -/
theorem inet_parse_colon (pf : Platform) (jbs : nxt_job_sockaddr_parse_t) (host p : List Nat)
    (haddr : jbs.addr = host ++ 58 :: p) (hhost : 58 ∉ host) :
    nxt_job_sockaddr_inet_parse pf jbs =
      if nxt_int_parse pf p < 1 ∨ nxt_int_parse pf p > 65535 then (NXT_ERROR, jbs.log_error)
      else if host ≠ [42] then
        if nxt_inet_addr pf host = INADDR_NONE then
          nxt_job_sockaddr_inet_resolve
            { jbs with port := htons pf ((nxt_int_parse pf p).toNat % 65536) % 65536 } host
        else
          nxt_job_sockaddr_inet_found pf jbs (nxt_inet_addr pf host)
            (htons pf ((nxt_int_parse pf p).toNat % 65536))
      else
        nxt_job_sockaddr_inet_found pf jbs INADDR_ANY
          (htons pf ((nxt_int_parse pf p).toNat % 65536)) := by
  have hmc : nxt_memchr jbs.addr 58 = some host.length := by
    rw [haddr]; exact memchr_first 58 host p hhost
  have hdrop : List.drop (host.length + 1) jbs.addr = p := by
    rw [haddr]; simp
  have htake : List.take host.length jbs.addr = host := by
    rw [haddr]; simp
  have hstar : (host.length ≠ 1 ∨ jbs.addr.head? ≠ some 42) ↔ host ≠ [42] := by
    rw [haddr]
    cases host with
    | nil => simp
    | cons c r =>
      cases r with
      | nil => simp
      | cons d r2 => simp
  unfold nxt_job_sockaddr_inet_parse
  simp only [hmc, hdrop, htake]
  by_cases hs : host = [42]
  · have h2 : ¬ (host.length ≠ 1 ∨ jbs.addr.head? ≠ some 42) := fun h => (hstar.mp h) hs
    rw [if_neg h2, if_neg (not_not.mpr hs)]
  · have h2 := hstar.mpr hs
    rw [if_pos h2, if_pos hs]

/-- C8 (counterexample): on "a:b:80" the port text is "b:80", not "80": the integer parser
rejects it, the status is `NXT_ERROR` and no host is handed to the resolver. -/
theorem C8_counterexample_last_colon :
    (nxt_job_sockaddr_inet_parse linux_x86_64
        (nxt_job_sockaddr_parse_t.fresh (str "a:b:80") 0 0 ⟨[]⟩)).1 = NXT_ERROR ∧
      (nxt_job_sockaddr_inet_parse linux_x86_64
        (nxt_job_sockaddr_parse_t.fresh (str "a:b:80") 0 0 ⟨[]⟩)).2.calls
        = [Call.nxt_thread_log_error 0] ∧
      nxt_int_parse linux_x86_64 (str "b:80") = -1 := by
  decide

/-- C8 (amended): on an input with at least one colon `nxt_job_sockaddr_inet_parse` takes the
text after the first colon as the port and the text before the first colon as the host.
If the integer parser does not read the port text as a number from 1 to 65535 the result is
`NXT_ERROR` and the resolver is not called. Otherwise, with p the port read: a host other
than "*" that `nxt_inet_addr` does not accept is handed to the resolver (status `NXT_AGAIN`,
the host recorded as the name, the port recorded in network byte order, one
`nxt_job_resolve` call); a host that `nxt_inet_addr` accepts, or the host "*", gives one
AF_INET address with that address (the wildcard address for "*") and port p. -/
theorem C8_inet_parse_splits_at_first_colon (pf : Platform)
    (jbs : nxt_job_sockaddr_parse_t) (host p : List Nat)
    (haddr : jbs.addr = host ++ 58 :: p) (hhost : 58 ∉ host) :
    (¬ (1 ≤ nxt_int_parse pf p ∧ nxt_int_parse pf p ≤ 65535) →
      (nxt_job_sockaddr_inet_parse pf jbs).1 = NXT_ERROR ∧
      (nxt_job_sockaddr_inet_parse pf jbs).2.calls
        = jbs.calls ++ [Call.nxt_thread_log_error jbs.log_level]) ∧
    (1 ≤ nxt_int_parse pf p ∧ nxt_int_parse pf p ≤ 65535 →
      (host ≠ [42] → nxt_inet_addr pf host = INADDR_NONE →
        (nxt_job_sockaddr_inet_parse pf jbs).1 = NXT_AGAIN ∧
        (nxt_job_sockaddr_inet_parse pf jbs).2.name = host ∧
        ntohs pf (nxt_job_sockaddr_inet_parse pf jbs).2.port = (nxt_int_parse pf p).toNat ∧
        (nxt_job_sockaddr_inet_parse pf jbs).2.calls
          = jbs.calls ++ [Call.nxt_job_resolve host (htons pf (nxt_int_parse pf p).toNat)]) ∧
      (host = [42] ∨ nxt_inet_addr pf host ≠ INADDR_NONE → jbs.mem_pool.serves_all →
        (nxt_job_sockaddr_inet_parse pf jbs).1 = NXT_OK ∧
        ∃ sa, (nxt_job_sockaddr_inet_parse pf jbs).2.sockaddrs = [sa] ∧
          sa.sa_family = pf.AF_INET ∧
          sa.sin_addr = (if host = [42] then INADDR_ANY else nxt_inet_addr pf host) ∧
          ntohs pf sa.sin_port = (nxt_int_parse pf p).toNat)) := by
  have hshape := inet_parse_colon pf jbs host p haddr hhost
  refine ⟨?_, ?_⟩
  · intro hbad
    have hbad2 : nxt_int_parse pf p < 1 ∨ nxt_int_parse pf p > 65535 := by omega
    rw [hshape, if_pos hbad2]
    exact ⟨rfl, rfl⟩
  · intro hok
    have hok2 : ¬ (nxt_int_parse pf p < 1 ∨ nxt_int_parse pf p > 65535) := by omega
    have hlt : (nxt_int_parse pf p).toNat < 65536 := by omega
    have hport : ntohs pf (htons pf ((nxt_int_parse pf p).toNat % 65536) % 65536)
        = (nxt_int_parse pf p).toNat := by
      rw [Nat.mod_eq_of_lt hlt, Nat.mod_eq_of_lt (htons_lt pf _), ntohs_htons pf _ hlt]
    rw [hshape, if_neg hok2]
    refine ⟨?_, ?_⟩
    · intro hns hnone
      rw [if_pos hns, if_pos hnone]
      refine ⟨rfl, rfl, hport, ?_⟩
      simp only [nxt_job_sockaddr_inet_resolve, Nat.mod_eq_of_lt hlt,
        Nat.mod_eq_of_lt (htons_lt pf _)]
    · intro hcase hpool
      by_cases hs : host = [42]
      · rw [if_neg (not_not.mpr hs), inet_found_serves pf jbs _ _ hpool, if_pos hs]
        exact ⟨rfl, _, rfl, rfl, rfl, hport⟩
      · have hacc : nxt_inet_addr pf host ≠ INADDR_NONE := by
          rcases hcase with h | h
          · exact absurd h hs
          · exact h
        rw [if_pos hs, if_neg hacc, inet_found_serves pf jbs _ _ hpool, if_neg hs]
        exact ⟨rfl, _, rfl, rfl, rfl, hport⟩

/-- C8 (witness): "a.b:80" hands the host "a.b" with port 80 to the resolver. -/
theorem C8_inet_parse_splits_at_first_colon_witness :
    (nxt_job_sockaddr_inet_parse linux_x86_64
        (nxt_job_sockaddr_parse_t.fresh (str "a.b:80") 0 0 ⟨[]⟩)).1 = NXT_AGAIN ∧
      (nxt_job_sockaddr_inet_parse linux_x86_64
        (nxt_job_sockaddr_parse_t.fresh (str "a.b:80") 0 0 ⟨[]⟩)).2.name = str "a.b" ∧
      ntohs linux_x86_64 (nxt_job_sockaddr_inet_parse linux_x86_64
        (nxt_job_sockaddr_parse_t.fresh (str "a.b:80") 0 0 ⟨[]⟩)).2.port = 80 :=
  have h := ((C8_inet_parse_splits_at_first_colon linux_x86_64
    (nxt_job_sockaddr_parse_t.fresh (str "a.b:80") 0 0 ⟨[]⟩) (str "a.b") (str "80")
    (by decide) (by decide)).2 (by decide)).1 (by decide) (by decide)
  ⟨h.1, h.2.1, h.2.2.1⟩

/-! ### A run of digits that does not fit `nxt_int_t` -/

theorem int_parse_loop_le_max (pf : Platform) : ∀ (ds : List Nat) (v : Nat),
    v ≤ pf.NXT_INT_T_MAX → 0 ≤ nxt_int_parse_loop pf ds v →
      nxt_int_parse_loop pf ds v ≤ (pf.NXT_INT_T_MAX : Int) := by
  intro ds
  induction ds with
  | nil =>
    intro v hv _
    simp only [nxt_int_parse_loop]
    exact_mod_cast hv
  | cons c r ih =>
    intro v hv h
    rw [int_parse_loop_cons] at h ⊢
    by_cases h1 : c < 48 ∨ 57 < c
    · rw [if_pos h1] at h; omega
    · rw [if_neg h1] at h ⊢
      by_cases h2 : pf.NXT_INT_T_MAX < v * 10 + (c - 48)
      · rw [if_pos h2] at h; omega
      · rw [if_neg h2] at h ⊢
        exact ih _ (by omega) h

/-- The integer parser answers a negative number for a run of digits whose value does not
fit `nxt_int_t`. -/
theorem int_parse_overflow (pf : Platform) (ds : List Nat) (hd : is_digits ds)
    (hbig : pf.NXT_INT_T_MAX < dec_value ds) : nxt_int_parse pf ds < 0 := by
  cases ds with
  | nil => simp [nxt_int_parse]
  | cons c r =>
    simp only [nxt_int_parse]
    by_contra hn
    have h0 : 0 ≤ nxt_int_parse_loop pf (c :: r) 0 := by omega
    have hv := (int_parse_loop_nonneg pf (c :: r) 0 h0).2
    have hle := int_parse_loop_le_max pf (c :: r) 0 (by omega) h0
    rw [hv] at hle
    unfold dec_value at hbig
    omega

/-- A run of digits without a dot is not an address for `nxt_inet_addr`. -/
theorem inet_addr_digits (pf : Platform) (hw : 32 ≤ pf.uint_bits) (ds : List Nat)
    (hd : is_digits ds) : nxt_inet_addr pf ds = INADDR_NONE := by
  have hwr := wrap_ge pf hw
  have h := inet_addr_loop_digits pf hw ds [] 0 0 0 hd (by omega)
  rw [List.append_nil] at h
  unfold nxt_inet_addr
  rw [h]
  simp [nxt_inet_addr_loop]

theorem digits_no_colon (ds : List Nat) (hd : is_digits ds) : 58 ∉ ds := by
  intro h
  have := hd 58 h
  omega

/-- C9 (counterexample): the bare numeric token "99999999999999999999", a number above
65535 that does not fit `nxt_int_t`, does not make `nxt_job_sockaddr_inet_parse` return
`NXT_ERROR`: the token is handed to the resolver as a host name and the status is
`NXT_AGAIN`. -/
theorem C9_counterexample_long_number :
    (nxt_job_sockaddr_inet_parse linux_x86_64
        (nxt_job_sockaddr_parse_t.fresh (str "99999999999999999999") 0 0 ⟨[]⟩)).1
      = NXT_AGAIN ∧
    (nxt_job_sockaddr_inet_parse linux_x86_64
        (nxt_job_sockaddr_parse_t.fresh (str "99999999999999999999") 0 0 ⟨[]⟩)).2.calls
      = [Call.nxt_job_resolve (str "99999999999999999999") 0] ∧
    (nxt_job_sockaddr_inet_parse linux_x86_64
        (nxt_job_sockaddr_parse_t.fresh (str "99999999999999999999") 0 0 ⟨[]⟩)).1
      ≠ NXT_ERROR := by
  decide

/-- What `nxt_job_sockaddr_inet_parse` does with a run of digits whose value is above 65535:
`NXT_ERROR` if the value fits `nxt_int_t`, the hand-over to the resolver otherwise. -/
theorem inet_parse_big_number (pf : Platform) (hw : 32 ≤ pf.uint_bits)
    (jbs : nxt_job_sockaddr_parse_t) (hne : jbs.addr ≠ []) (hd : is_digits jbs.addr)
    (hbig : 65535 < dec_value jbs.addr) :
    (dec_value jbs.addr ≤ pf.NXT_INT_T_MAX →
      nxt_job_sockaddr_inet_parse pf jbs = (NXT_ERROR, jbs.log_error)) ∧
    (pf.NXT_INT_T_MAX < dec_value jbs.addr →
      nxt_job_sockaddr_inet_parse pf jbs =
        (NXT_AGAIN,
          { jbs with
            no_port := true, name := jbs.addr,
            calls := jbs.calls ++ [Call.nxt_job_resolve jbs.addr jbs.port] })) := by
  have hmc : nxt_memchr jbs.addr 58 = none := memchr_none 58 _ (digits_no_colon _ hd)
  refine ⟨?_, ?_⟩
  · intro hfit
    have hp := int_parse_of_digits pf jbs.addr hne hd hfit
    have hpos : nxt_int_parse pf jbs.addr > 0 := by rw [hp]; omega
    have hbad : nxt_int_parse pf jbs.addr < 1 ∨ nxt_int_parse pf jbs.addr > 65535 := by
      rw [hp]; right; omega
    unfold nxt_job_sockaddr_inet_parse
    simp only [hmc, hpos, if_true, hbad]
  · intro hover
    have hneg := int_parse_overflow pf jbs.addr hd hover
    have hnp : ¬ nxt_int_parse pf jbs.addr > 0 := by omega
    have hnone := inet_addr_digits pf hw jbs.addr hd
    unfold nxt_job_sockaddr_inet_parse
    simp only [hmc, hnp, if_false, hnone, if_true, nxt_job_sockaddr_inet_resolve]

/-- C9 (amended): for a port p from 1 to 65535 written in decimal, the inputs "*:p" and "p"
make `nxt_job_sockaddr_inet_parse` return `NXT_OK` (the pool serving the two allocations)
with exactly one AF_INET address of recorded length `sizeof(struct sockaddr_in)`, address
0.0.0.0 and port p as read back by `nxt_sockaddr_port`, with the wildcard flag set and the
`no_port` flag left as it was; a token without a colon that the integer parser reads as a
number above 65535 makes it return `NXT_ERROR`; and a bare run of digits whose value is
above 65535 makes it return `NXT_ERROR` if the value fits `nxt_int_t`, while a value that
does not fit is handed to the resolver as a host name, with the `no_port` flag set and the
status `NXT_AGAIN`. -/
theorem C9_port_only_forms (pf : Platform) (hpf : pf.WF) :
    (∀ (jbs : nxt_job_sockaddr_parse_t) (p : Nat), 1 ≤ p → p ≤ 65535 →
      jbs.mem_pool.serves_all →
      (jbs.addr = 42 :: 58 :: nxt_sprintf_ud p ∨ jbs.addr = nxt_sprintf_ud p) →
      (nxt_job_sockaddr_inet_parse pf jbs).1 = NXT_OK ∧
      (nxt_job_sockaddr_inet_parse pf jbs).2.count = 1 ∧
      (nxt_job_sockaddr_inet_parse pf jbs).2.wildcard = true ∧
      (nxt_job_sockaddr_inet_parse pf jbs).2.no_port = jbs.no_port ∧
      ∃ sa, (nxt_job_sockaddr_inet_parse pf jbs).2.sockaddrs = [sa] ∧
        sa.sa_family = pf.AF_INET ∧ sa.socklen = pf.sizeof_sockaddr_in ∧
        sa.sin_addr = INADDR_ANY ∧ mem_bytes32 pf sa.sin_addr = [0, 0, 0, 0] ∧
        nxt_sockaddr_port pf sa = p) ∧
    (∀ jbs : nxt_job_sockaddr_parse_t, 58 ∉ jbs.addr → 65535 < nxt_int_parse pf jbs.addr →
      (nxt_job_sockaddr_inet_parse pf jbs).1 = NXT_ERROR) ∧
    (∀ jbs : nxt_job_sockaddr_parse_t, jbs.addr ≠ [] → is_digits jbs.addr →
      65535 < dec_value jbs.addr →
      (dec_value jbs.addr ≤ pf.NXT_INT_T_MAX →
        (nxt_job_sockaddr_inet_parse pf jbs).1 = NXT_ERROR) ∧
      (pf.NXT_INT_T_MAX < dec_value jbs.addr →
        nxt_job_sockaddr_inet_parse pf jbs =
          (NXT_AGAIN,
            { jbs with
              no_port := true, name := jbs.addr,
              calls := jbs.calls ++ [Call.nxt_job_resolve jbs.addr jbs.port] }))) := by
  obtain ⟨hw, hui, hu6, hi6, _⟩ := hpf
  have hany : mem_bytes32 pf INADDR_ANY = [0, 0, 0, 0] := by
    unfold mem_bytes32 INADDR_ANY; split <;> rfl
  have hportback : ∀ p, p ≤ 65535 → ∀ sa : nxt_sockaddr_t, sa.sa_family = pf.AF_INET →
      sa.sin_port = htons pf (p % 65536) % 65536 → nxt_sockaddr_port pf sa = p := by
    intro p hp sa hfam hsp
    unfold nxt_sockaddr_port
    rw [hfam, if_neg hi6, if_neg (Ne.symm hui), hsp, Nat.mod_eq_of_lt (show p < 65536 by omega),
      Nat.mod_eq_of_lt (htons_lt pf _), Nat.mod_eq_of_lt (htons_lt pf _),
      ntohs_htons pf _ (by omega)]
  refine ⟨?_, ?_, ?_⟩
  · intro jbs p h1 h2 hpool hform
    have hparse := int_parse_sprintf_ud pf hw p h2
    rcases hform with hstar | hbare
    · have hshape := inet_parse_colon pf jbs [42] (nxt_sprintf_ud p) (by rw [hstar]; rfl)
        (by decide)
      have hok : ¬ (nxt_int_parse pf (nxt_sprintf_ud p) < 1 ∨
          nxt_int_parse pf (nxt_sprintf_ud p) > 65535) := by rw [hparse]; omega
      rw [hshape, if_neg hok, if_neg (by simp), inet_found_serves pf jbs _ _ hpool, hparse]
      refine ⟨rfl, rfl, by simp, rfl, _, rfl, rfl, rfl, rfl, hany, ?_⟩
      exact hportback p h2 _ rfl rfl
    · have hmc : nxt_memchr jbs.addr 58 = none := by
        rw [hbare]; exact memchr_none 58 _ (sprintf_ud_no_colon p)
      have hpos : nxt_int_parse pf jbs.addr > 0 := by rw [hbare, hparse]; omega
      have hok : ¬ (nxt_int_parse pf jbs.addr < 1 ∨ nxt_int_parse pf jbs.addr > 65535) := by
        rw [hbare, hparse]; omega
      unfold nxt_job_sockaddr_inet_parse
      simp only [hmc, hpos, if_true, hok, if_false]
      have hfound := inet_found_serves pf
        { jbs with port := htons pf ((nxt_int_parse pf jbs.addr).toNat % 65536) % 65536 }
        INADDR_ANY (htons pf ((nxt_int_parse pf jbs.addr).toNat % 65536)) hpool
      rw [hfound, hbare, hparse]
      refine ⟨rfl, rfl, by simp, rfl, _, rfl, rfl, rfl, rfl, hany, ?_⟩
      exact hportback p h2 _ rfl rfl
  · intro jbs hcolon hbig
    have hmc : nxt_memchr jbs.addr 58 = none := memchr_none 58 _ hcolon
    have hpos : nxt_int_parse pf jbs.addr > 0 := by omega
    have hbad : nxt_int_parse pf jbs.addr < 1 ∨ nxt_int_parse pf jbs.addr > 65535 :=
      Or.inr hbig
    unfold nxt_job_sockaddr_inet_parse
    simp only [hmc, hpos, if_true, hbad]
  · intro jbs hne hd hbig
    have h := inet_parse_big_number pf hw jbs hne hd hbig
    exact ⟨fun hfit => by rw [h.1 hfit], h.2⟩

/-- C9 (witness): "*:80", "80", "65536" and "70000". -/
theorem C9_port_only_forms_witness :
    (nxt_job_sockaddr_inet_parse linux_x86_64
        (nxt_job_sockaddr_parse_t.fresh (str "*:80") 0 0 ⟨[]⟩)).1 = NXT_OK ∧
      (nxt_job_sockaddr_inet_parse linux_x86_64
        (nxt_job_sockaddr_parse_t.fresh (str "*:80") 0 0 ⟨[]⟩)).2.wildcard = true ∧
      (nxt_job_sockaddr_inet_parse linux_x86_64
        (nxt_job_sockaddr_parse_t.fresh (str "80") 0 0 ⟨[]⟩)).1 = NXT_OK ∧
      (nxt_job_sockaddr_inet_parse linux_x86_64
        (nxt_job_sockaddr_parse_t.fresh (str "65536") 0 0 ⟨[]⟩)).1 = NXT_ERROR ∧
      (nxt_job_sockaddr_inet_parse linux_x86_64
        (nxt_job_sockaddr_parse_t.fresh (str "70000") 0 0 ⟨[]⟩)).1 = NXT_ERROR :=
  have h := C9_port_only_forms linux_x86_64 (by decide)
  have h1 := h.1 (nxt_job_sockaddr_parse_t.fresh (str "*:80") 0 0 ⟨[]⟩) 80 (by decide)
    (by decide) (by decide) (Or.inl (by decide))
  have h2 := h.1 (nxt_job_sockaddr_parse_t.fresh (str "80") 0 0 ⟨[]⟩) 80 (by decide)
    (by decide) (by decide) (Or.inr (by decide))
  ⟨h1.1, h1.2.2.1, h2.1,
    h.2.1 (nxt_job_sockaddr_parse_t.fresh (str "65536") 0 0 ⟨[]⟩) (by decide) (by decide),
    (h.2.2 (nxt_job_sockaddr_parse_t.fresh (str "70000") 0 0 ⟨[]⟩) (by decide) (by decide)
      (by decide)).1 (by decide)⟩

/-- C10 (counterexample): "unix:a", a path of length 1, is not handled by the Unix-domain
grammar: the host[:port] grammar rejects the port "a" and the error handler is handed over
with no address; "unix:8" is handed to the resolver as host "unix" with port 8. -/
theorem C10_counterexample_one_byte_path :
    (nxt_job_sockaddr_parse linux_x86_64
        (nxt_job_sockaddr_parse_t.fresh (str "unix:a") 0 0 ⟨[]⟩)).calls
        = [Call.nxt_thread_log_error 0, Call.nxt_job_return Handler.error_handler] ∧
      (nxt_job_sockaddr_parse linux_x86_64
        (nxt_job_sockaddr_parse_t.fresh (str "unix:a") 0 0 ⟨[]⟩)).sockaddrs = [] ∧
      (nxt_job_sockaddr_parse linux_x86_64
        (nxt_job_sockaddr_parse_t.fresh (str "unix:8") 0 0 ⟨[]⟩)).calls
        = [Call.nxt_job_resolve (str "unix") (htons linux_x86_64 8)] := by
  decide

/-- C10 (amended): for a path of length L ≥ 2, `nxt_job_sockaddr_parse` on "unix:" followed
by the path goes through the Unix-domain grammar. If L ≤ sizeof(sun_path) - 1 and the pool
serves the two allocations, its one `nxt_job_return` call hands over the ready handler, and
the result is exactly one AF_UNIX address whose `sun_path` holds the L path bytes followed by
a zero byte, with recorded length header + L + 1 (for a path whose first byte is NUL on
Linux: the L path bytes without terminator, recorded length header + L); `nxt_sockaddr_port`
of it is 0. If L > sizeof(sun_path) - 1, the one `nxt_job_return` call hands over the error
handler. -/
theorem C10_unix_parse (pf : Platform) (hpf : pf.WF) (jbs : nxt_job_sockaddr_parse_t)
    (path : List Nat) (haddr : jbs.addr = [117, 110, 105, 120, 58] ++ path)
    (hlen : 2 ≤ path.length) :
    (path.length ≤ pf.sun_path_size - 1 → jbs.mem_pool.serves_all →
      (nxt_job_sockaddr_parse pf jbs).calls
        = jbs.calls ++ [Call.nxt_job_return Handler.ready_handler] ∧
      (nxt_job_sockaddr_parse pf jbs).count = 1 ∧
      ∃ sa, (nxt_job_sockaddr_parse pf jbs).sockaddrs = [sa] ∧
        sa.sa_family = pf.AF_UNIX ∧ nxt_sockaddr_port pf sa = 0 ∧
        (if pf.linux = true ∧ path.head? = some 0 then
          sa.sun_path = path ∧ sa.socklen = pf.sun_path_offset + path.length
        else
          sa.sun_path = path ++ [0] ∧ sa.socklen = pf.sun_path_offset + path.length + 1)) ∧
    (pf.sun_path_size - 1 < path.length →
      (nxt_job_sockaddr_parse pf jbs).calls
        = jbs.calls ++ [Call.nxt_thread_log_error jbs.log_level,
            Call.nxt_job_return Handler.error_handler] ∧
      (nxt_job_sockaddr_parse pf jbs).sockaddrs = jbs.sockaddrs) := by
  obtain ⟨hw, hui, hu6, hi6, _⟩ := hpf
  have hdisp : jbs.addr.length > 6 ∧ jbs.addr.take 5 = [117, 110, 105, 120, 58] := by
    rw [haddr]
    refine ⟨?_, ?_⟩
    · simp only [List.length_append, List.length_cons, List.length_nil]; omega
    · simp
  have hl : jbs.addr.length - 5 = path.length := by
    rw [haddr]; simp
  have hd : jbs.addr.drop 5 = path := by
    rw [haddr]; simp
  have hmax : pf.sizeof_sockaddr_un - pf.sun_path_offset - 1 = pf.sun_path_size - 1 := by
    unfold Platform.sizeof_sockaddr_un; omega
  refine ⟨?_, ?_⟩
  · intro hfit hpool
    have hnot : ¬ path.length > pf.sun_path_size - 1 := by omega
    have h1 := mem_alloc_serves jbs.mem_pool hpool
    unfold nxt_job_sockaddr_parse nxt_job_sockaddr_unix_parse
    simp only [hdisp, and_self, if_true, hl, hd, hmax, hnot, if_false, h1.1,
      sockaddr_alloc_serves pf _ _ h1.2]
    by_cases habs : pf.linux = true ∧ path.head? = some 0
    · simp only [habs, and_self, if_true]
      refine ⟨by simp [NXT_OK], by simp [NXT_OK], ?_⟩
      refine ⟨_, rfl, rfl, ?_, ?_, ?_⟩
      · simp [nxt_sockaddr_port, hu6]
      · have : pf.sun_path_offset + path.length + 1 - 1 - pf.sun_path_offset = path.length := by
          omega
        simp [this]
      · simp
    · simp only [habs, if_false]
      refine ⟨by simp [NXT_OK], by simp [NXT_OK], ?_⟩
      refine ⟨_, rfl, rfl, ?_, ?_, ?_⟩
      · simp [nxt_sockaddr_port, hu6]
      · have : pf.sun_path_offset + path.length + 1 - pf.sun_path_offset = path.length + 1 := by
          omega
        simp only [this, List.replicate_succ']
        rw [List.drop_left' (by simp)]
      · simp
  · intro hbig
    unfold nxt_job_sockaddr_parse nxt_job_sockaddr_unix_parse
    simp only [hdisp, and_self, if_true, hl, hd, hmax, hbig, gt_iff_lt]
    simp [NXT_OK, NXT_ERROR, nxt_job_sockaddr_parse_t.log_error]

/-- C10 (witness): "unix:/tmp/sock". -/
theorem C10_unix_parse_witness :
    (nxt_job_sockaddr_parse linux_x86_64
        (nxt_job_sockaddr_parse_t.fresh (str "unix:/tmp/sock") 0 0 ⟨[]⟩)).calls
        = [Call.nxt_job_return Handler.ready_handler] ∧
      ∃ sa, (nxt_job_sockaddr_parse linux_x86_64
          (nxt_job_sockaddr_parse_t.fresh (str "unix:/tmp/sock") 0 0 ⟨[]⟩)).sockaddrs = [sa] ∧
        sa.sun_path = str "/tmp/sock" ++ [0] ∧ sa.socklen = 12 ∧
        nxt_sockaddr_port linux_x86_64 sa = 0 := by
  have h := (C10_unix_parse linux_x86_64 (by decide)
    (nxt_job_sockaddr_parse_t.fresh (str "unix:/tmp/sock") 0 0 ⟨[]⟩) (str "/tmp/sock")
    (by decide) (by decide)).1 (by decide) (by decide)
  obtain ⟨hcalls, _, sa, hsa, _, hport, hrest⟩ := h
  rw [if_neg (by decide)] at hrest
  exact ⟨hcalls, sa, hsa, hrest.1, hrest.2, hport⟩

/-! ### The output loop of `nxt_inet6_ntop` on an address without a zero group -/

theorem ntop_out_succ (pf : Platform) (addr : List Nat) (cap zs zg n fuel i : Nat)
    (out : List Nat) :
    nxt_inet6_ntop_out pf addr cap zs zg n (fuel + 1) i out =
      if ¬ i < n then Ntop.text out
      else if i = zs then
        nxt_inet6_ntop_out pf addr cap zs zg n fuel
          ((((i + (usub pf zg 1 * 2) % pf.wrap) % pf.wrap) + 2) % pf.wrap) (out ++ [58])
      else
        nxt_inet6_ntop_out pf addr cap zs zg n fuel ((i + 2) % pf.wrap)
          (if i < 14 then
            nxt_sprintf out cap (nxt_sprintf_uxd (addr.getD i 0 * 256 + addr.getD (i + 1) 0))
              ++ [58]
          else
            nxt_sprintf out cap
              (nxt_sprintf_uxd (addr.getD i 0 * 256 + addr.getD (i + 1) 0))) := by
  rw [nxt_inet6_ntop_out]

/-- With no zero run recorded (`zero_groups = 0`), the step taken at `i = zero_start` leaves
`i` where it was. -/
theorem ntop_index_stays (pf : Platform) (hw : 32 ≤ pf.uint_bits) (i : Nat) (hi : i < 16)
    (h2 : 2 ≤ i) :
    (((i + (usub pf 0 1 * 2) % pf.wrap) % pf.wrap) + 2) % pf.wrap = i := by
  have hwr := wrap_ge pf hw
  have h1 : usub pf 0 1 = pf.wrap - 1 := by
    rw [usub_of_lt pf 0 1 (by norm_num) (by omega)]
  have h3 : (pf.wrap - 1) * 2 = (pf.wrap - 2) + pf.wrap := by omega
  have h4 : ((pf.wrap - 1) * 2) % pf.wrap = pf.wrap - 2 := by
    rw [h3, Nat.add_mod_right, Nat.mod_eq_of_lt (by omega)]
  have h5 : i + (pf.wrap - 2) = (i - 2) + pf.wrap := by omega
  have h6 : (i + (pf.wrap - 2)) % pf.wrap = i - 2 := by
    rw [h5, Nat.add_mod_right, Nat.mod_eq_of_lt (by omega)]
  rw [h1, h4, h6, Nat.mod_eq_of_lt (by omega)]
  omega

/-- Once the output loop reaches `i = zero_start` with `zero_groups = 0` it stays there:
every further iteration stores one more colon. -/
theorem ntop_out_stuck (pf : Platform) (hw : 32 ≤ pf.uint_bits) (addr : List Nat)
    (cap : Nat) : ∀ (k : Nat) (out : List Nat),
    nxt_inet6_ntop_out pf addr cap 8 0 16 k 8 out = Ntop.running (out ++ List.replicate k 58) := by
  intro k
  induction k with
  | zero => intro out; simp [nxt_inet6_ntop_out]
  | succ k ih =>
    intro out
    rw [ntop_out_succ, if_neg (by omega), if_pos rfl, ntop_index_stays pf hw 8 (by omega)
      (by omega), ih]
    simp [List.replicate_succ]

theorem ntop_find_without_zero_group (addr : List Nat) : ∀ (n i : Nat) (z : ZeroRun),
    z.zero_groups = 0 → z.last_zero_groups = 0 →
    (∀ j, j < n → ¬ (addr.getD (i + 2 * j) 0 = 0 ∧ addr.getD (i + 2 * j + 1) 0 = 0)) →
    nxt_inet6_ntop_find addr n i z = z := by
  intro n
  induction n with
  | zero => intro i z _ _ _; rfl
  | succ n ih =>
    intro i z hzg hlz hnz
    have h0 := hnz 0 (by omega)
    simp only [Nat.mul_zero, Nat.add_zero] at h0
    rw [nxt_inet6_ntop_find]
    simp only [h0, if_false, hzg, hlz, lt_self_iff_false]
    have hz : (⟨z.zero_start, 0, z.last_zero_start, 0⟩ : ZeroRun) = z := by
      cases z; simp_all
    rw [hz]
    apply ih (i + 2) z hzg hlz
    intro j hj
    have := hnz (j + 1) (by omega)
    have e : i + 2 * (j + 1) = i + 2 + 2 * j := by ring
    rw [e] at this
    exact this

theorem ntop_zero_without_zero_group (addr : List Nat) (h : ¬ has_zero_group addr) :
    nxt_inet6_ntop_zero addr
      = { zero_start := 8, zero_groups := 0, last_zero_start := 8, last_zero_groups := 0 } := by
  unfold nxt_inet6_ntop_zero
  rw [ntop_find_without_zero_group addr 8 0 _ rfl rfl]
  · simp
  · intro j hj hz
    apply h
    refine ⟨j, hj, ?_⟩
    simpa using hz

theorem ntop_out_without_zero_run (pf : Platform) (hw : 32 ≤ pf.uint_bits) (addr : List Nat)
    (cap k : Nat) :
    nxt_inet6_ntop_out pf addr cap 8 0 16 (k + 4) 0 []
      = Ntop.running (ntop_first_four addr cap ++ List.replicate k 58) := by
  have hwr := wrap_ge pf hw
  have m2 : (0 + 2) % pf.wrap = 2 := Nat.mod_eq_of_lt (by omega)
  have m4 : (2 + 2) % pf.wrap = 4 := Nat.mod_eq_of_lt (by omega)
  have m6 : (4 + 2) % pf.wrap = 6 := Nat.mod_eq_of_lt (by omega)
  have m8 : (6 + 2) % pf.wrap = 8 := Nat.mod_eq_of_lt (by omega)
  rw [ntop_out_succ, if_neg (by omega), if_neg (by omega), m2,
    ntop_out_succ, if_neg (by omega), if_neg (by omega), m4,
    ntop_out_succ, if_neg (by omega), if_neg (by omega), m6,
    ntop_out_succ, if_neg (by omega), if_neg (by omega), m8, ntop_out_stuck pf hw]
  rfl

/-- C4 (the code on the failing inputs): on an address without a zero group, such as
1:2:3:4:5:6:7:8, `nxt_inet6_ntop` (given room for 39 bytes) never returns a text: after k + 4
iterations of its output loop it is still running and has stored the first four groups,
each with its colon, followed by k more colons. -/
theorem C4_ntop_without_zero_group_repeats_colons (pf : Platform) (hw : 32 ≤ pf.uint_bits)
    (addr : List Nat) (cap k : Nat) (hz : ¬ has_zero_group addr)
    (hcap : NXT_INET6_ADDR_STR_LEN ≤ cap) :
    nxt_inet6_ntop pf (k + 4) addr cap
      = Ntop.running (ntop_first_four addr cap ++ List.replicate k 58) := by
  unfold nxt_inet6_ntop
  rw [ntop_zero_without_zero_group addr hz, if_neg (by omega)]
  simp only [show ¬ ((8 : Nat) = 0) by omega, false_and, decide_False, Bool.false_eq_true,
    if_false]
  rw [ntop_out_without_zero_run pf hw]

/-- C4 (witness): on 1:2:3:4:5:6:7:8 the bytes stored after seven iterations are
"1:2:3:4::::". -/
theorem C4_ntop_without_zero_group_repeats_colons_witness :
    nxt_inet6_ntop linux_x86_64 7 [0, 1, 0, 2, 0, 3, 0, 4, 0, 5, 0, 6, 0, 7, 0, 8] 39
      = Ntop.running (str "1:2:3:4::::") :=
  C4_ntop_without_zero_group_repeats_colons linux_x86_64 (by decide)
    [0, 1, 0, 2, 0, 3, 0, 4, 0, 5, 0, 6, 0, 7, 0, 8] 39 3 (by decide) (by decide)

/-- C1 (counterexample): the round trip fails at three addresses. The text that
`nxt_inet6_ntop` writes for 1:2:3:4:5:6:7:0 is "1:2:3:4:5:6:7::" and `nxt_inet6_addr` rejects
it; the text written for the address with twelve zero bytes and four bytes 255 is
"::255.255.255.255" and `nxt_inet6_addr` rejects it; and for 1:2:3:4:5:6:7:8
`nxt_inet6_ntop` returns no text however long it is run. -/
theorem C1_counterexample_roundtrip :
    (nxt_inet6_ntop linux_x86_64 9 [0, 1, 0, 2, 0, 3, 0, 4, 0, 5, 0, 6, 0, 7, 0, 0] 39
        = Ntop.text (str "1:2:3:4:5:6:7::") ∧
      (nxt_inet6_addr linux_x86_64 (List.replicate 16 0) (str "1:2:3:4:5:6:7::")).1
        = NXT_ERROR) ∧
    (nxt_inet6_ntop linux_x86_64 9 [0, 0, 0, 0, 0, 0, 0, 0, 0, 0, 0, 0, 255, 255, 255, 255] 39
        = Ntop.text (str "::255.255.255.255") ∧
      (nxt_inet6_addr linux_x86_64 (List.replicate 16 0) (str "::255.255.255.255")).1
        = NXT_ERROR) ∧
    (∀ fuel, ∃ written,
      nxt_inet6_ntop linux_x86_64 fuel [0, 1, 0, 2, 0, 3, 0, 4, 0, 5, 0, 6, 0, 7, 0, 8] 39
        = Ntop.running written) := by
  refine ⟨by decide, by decide, ?_⟩
  intro fuel
  rcases Nat.lt_or_ge fuel 4 with h | h
  · interval_cases fuel
    · exact ⟨[], by decide⟩
    · exact ⟨str "1:", by decide⟩
    · exact ⟨str "1:2:", by decide⟩
    · exact ⟨str "1:2:3:", by decide⟩
  · obtain ⟨k, rfl⟩ : ∃ k, fuel = k + 4 := ⟨fuel - 4, by omega⟩
    refine ⟨ntop_first_four [0, 1, 0, 2, 0, 3, 0, 4, 0, 5, 0, 6, 0, 7, 0, 8] 39
      ++ List.replicate k 58, ?_⟩
    unfold nxt_inet6_ntop
    rw [ntop_zero_without_zero_group _ (by decide), if_neg (by decide)]
    simp only [show ¬ ((8 : Nat) = 0) by omega, false_and, decide_False, Bool.false_eq_true,
      if_false]
    rw [ntop_out_without_zero_run linux_x86_64 (by decide)]

set_option maxRecDepth 100000 in
theorem zero_run_sound_all : ∀ b0 b1 b2 b3 b4 b5 b6 b7 : Bool,
    zero_run_sound [b0, b1, b2, b3, b4, b5, b6, b7] := by
  decide

theorem ntop_find_congr (A B : List Nat) : ∀ (n i : Nat) (z : ZeroRun),
    (∀ j, j < n → ((A.getD (i + 2 * j) 0 = 0 ∧ A.getD (i + 2 * j + 1) 0 = 0) ↔
      (B.getD (i + 2 * j) 0 = 0 ∧ B.getD (i + 2 * j + 1) 0 = 0))) →
    nxt_inet6_ntop_find A n i z = nxt_inet6_ntop_find B n i z := by
  intro n
  induction n with
  | zero => intro i z _; rfl
  | succ n ih =>
    intro i z h
    have h0 := h 0 (by omega)
    simp only [Nat.mul_zero, Nat.add_zero] at h0
    have hrest : ∀ j, j < n → ((A.getD (i + 2 + 2 * j) 0 = 0 ∧ A.getD (i + 2 + 2 * j + 1) 0 = 0) ↔
        (B.getD (i + 2 + 2 * j) 0 = 0 ∧ B.getD (i + 2 + 2 * j + 1) 0 = 0)) := by
      intro j hj
      have := h (j + 1) (by omega)
      have e : i + 2 * (j + 1) = i + 2 + 2 * j := by ring
      rw [e] at this
      exact this
    rw [nxt_inet6_ntop_find, nxt_inet6_ntop_find]
    by_cases hA : A.getD i 0 = 0 ∧ A.getD (i + 1) 0 = 0
    · rw [if_pos hA, if_pos (h0.mp hA)]
      exact ih _ _ hrest
    · rw [if_neg hA, if_neg (fun hB => hA (h0.mpr hB))]
      exact ih _ _ hrest

theorem pattern_addr_zero_group : ∀ (bs : List Bool) (j : Nat), j < bs.length →
    (zero_group (pattern_addr bs) j ↔ bs.getD j false = true) := by
  intro bs
  induction bs with
  | nil => intro j hj; simp at hj
  | cons b r ih =>
    intro j hj
    cases j with
    | zero => cases b <;> simp [zero_group, pattern_addr]
    | succ k =>
      have hk : k < r.length := by simpa using hj
      have e1 : 2 * (k + 1) = 2 * k + 1 + 1 := by ring
      have e2 : 2 * (k + 1) + 1 = 2 * k + 1 + 1 + 1 := by ring
      have := ih k hk
      unfold zero_group at this ⊢
      rw [e2, e1]
      cases b <;> simpa [pattern_addr] using this

theorem zero_pattern_getD (A : List Nat) (j : Nat) (hj : j < 8) :
    (zero_pattern A).getD j false = true ↔ zero_group A j := by
  unfold zero_pattern
  interval_cases j <;> simp

theorem ntop_zero_pattern (A : List Nat) :
    nxt_inet6_ntop_zero A = nxt_inet6_ntop_zero (pattern_addr (zero_pattern A)) := by
  unfold nxt_inet6_ntop_zero
  rw [ntop_find_congr A (pattern_addr (zero_pattern A)) 8 0]
  intro j hj
  have h1 := pattern_addr_zero_group (zero_pattern A) j (by simpa [zero_pattern] using hj)
  have h2 := zero_pattern_getD A j hj
  unfold zero_group at h1 h2
  simp only [Nat.zero_add]
  exact h2.symm.trans h1.symm

theorem getD_true_mem (l : List Bool) (j : Nat) (h : l.getD j false = true) : true ∈ l := by
  have hj : j < l.length := by
    by_contra hn
    rw [List.getD_eq_default _ _ (by omega)] at h
    exact absurd h (by decide)
  rw [List.getD_eq_getElem _ _ hj] at h
  rw [← h]
  exact List.getElem_mem _

theorem zero_pattern_any (A : List Nat) (j n : Nat) (hj : j < n) (hn : n ≤ 8)
    (hz : zero_group A j) : ((zero_pattern A).take n).any id = true := by
  rw [List.any_eq_true]
  refine ⟨true, getD_true_mem _ j ?_, rfl⟩
  have h1 := (zero_pattern_getD A j (by omega)).mpr hz
  rw [List.getD_eq_getElem?_getD] at h1 ⊢
  rw [List.getElem?_take_of_lt hj]
  exact h1

/-- The zero run that `nxt_inet6_ntop` chooses on an address with a zero group: it starts at
a group boundary `2 * s`, is not empty, lies within the eight groups, covers zero groups
only, and does not start at the last group if one of the first seven groups is zero. -/
theorem ntop_zero_sound (A : List Nat) (h : has_zero_group A) :
    ∃ s, (nxt_inet6_ntop_zero A).zero_start = 2 * s ∧ 1 ≤ (nxt_inet6_ntop_zero A).zero_groups ∧
      s + (nxt_inet6_ntop_zero A).zero_groups ≤ 8 ∧
      (∀ j, s ≤ j → j < s + (nxt_inet6_ntop_zero A).zero_groups → zero_group A j) ∧
      ((∃ j, j < 7 ∧ zero_group A j) → s ≠ 7) := by
  have hany : (zero_pattern A).any id = true := by
    obtain ⟨g, hg, hz⟩ := h
    have := zero_pattern_any A g 8 hg (by omega) hz
    rwa [List.take_of_length_le (by simp [zero_pattern])] at this
  have hs := zero_run_sound_all (decide (zero_group A 0)) (decide (zero_group A 1))
    (decide (zero_group A 2)) (decide (zero_group A 3)) (decide (zero_group A 4))
    (decide (zero_group A 5)) (decide (zero_group A 6)) (decide (zero_group A 7))
  have hp : [decide (zero_group A 0), decide (zero_group A 1), decide (zero_group A 2),
      decide (zero_group A 3), decide (zero_group A 4), decide (zero_group A 5),
      decide (zero_group A 6), decide (zero_group A 7)] = zero_pattern A := rfl
  rw [hp] at hs
  unfold zero_run_sound at hs
  rw [← ntop_zero_pattern A] at hs
  obtain ⟨hs1, hs2⟩ := hs
  obtain ⟨h1, h2, h3, h4⟩ := hs1 hany
  refine ⟨(nxt_inet6_ntop_zero A).zero_start / 2, by omega, h1, h3, ?_, ?_⟩
  · intro j hj1 hj2
    have hj8 : j < 8 := by omega
    exact (zero_pattern_getD A j hj8).mp (h4 j hj8 (by omega) (by omega))
  · rintro ⟨j, hj, hz⟩
    have := hs2 (zero_pattern_any A j 7 hj (by omega) hz)
    omega

/-! ### Hexadecimal digits -/

theorem lor_32_lower (c : Nat) (h1 : 97 ≤ c) (h2 : c ≤ 102) : c ||| 32 = c := by
  interval_cases c <;> rfl

theorem lor_32_upper (c : Nat) (h1 : 65 ≤ c) (h2 : c ≤ 70) : c ||| 32 = c + 32 := by
  interval_cases c <;> rfl

theorem in6_loop_cons (pf : Platform) (c : Nat) (buf : List Nat) (st : In6Scan) :
    nxt_inet6_addr_loop pf (c :: buf) st =
      if c = 58 then
        if st.nibbles ≠ 0 then
          if ({ st.put_group with ipv4 := some buf, groups_left := st.groups_left - 1 }
              : In6Scan).groups_left ≠ 0 then
            nxt_inet6_addr_loop pf buf
              { ({ st.put_group with ipv4 := some buf, groups_left := st.groups_left - 1 }
                  : In6Scan) with nibbles := 0, group := 0 }
          else .error ({ st.put_group with ipv4 := some buf,
                                           groups_left := st.groups_left - 1 } : In6Scan).s6
        else
          if st.zero_start = none then
            nxt_inet6_addr_loop pf buf { st with ipv4 := some buf, zero_start := some st.addr }
          else .error st.s6
      else if c = 46 ∧ st.nibbles ≠ 0 then
        match st.ipv4 with
        | none => .error st.s6
        | some ipv4 =>
          if st.groups_left < 2 then .error st.s6
          else
            if nxt_inet_addr pf ipv4 = INADDR_NONE then .error st.s6
            else
              .finished
                { st with
                  group := ntohl pf (nxt_inet_addr pf ipv4),
                  s6 := (st.s6.set st.addr ((ntohl pf (nxt_inet_addr pf ipv4) / 16777216) % 256)).set
                    (st.addr + 1) ((ntohl pf (nxt_inet_addr pf ipv4) / 65536) % 256),
                  addr := st.addr + 2,
                  groups_left := st.groups_left - 1 }
      else
        if st.nibbles + 1 > 4 then .error st.s6
        else if usub pf c 48 < 10 then
          nxt_inet6_addr_loop pf buf
            { st with nibbles := st.nibbles + 1, group := st.group * 16 + usub pf c 48 }
        else if usub pf (c ||| 32) 97 < 6 then
          nxt_inet6_addr_loop pf buf
            { st with nibbles := st.nibbles + 1,
                      group := st.group * 16 + (10 + usub pf (c ||| 32) 97) }
        else .error st.s6 := by
  rw [nxt_inet6_addr_loop]

/-- One hexadecimal digit of a group that has room for it. -/
theorem in6_loop_hex_digit (pf : Platform) (hw : 32 ≤ pf.uint_bits) (c : Nat)
    (buf : List Nat) (st : In6Scan) (hc : is_hex_digit c) (hn : st.nibbles + 1 ≤ 4) :
    nxt_inet6_addr_loop pf (c :: buf) st =
      nxt_inet6_addr_loop pf buf
        { st with nibbles := st.nibbles + 1, group := st.group * 16 + hex_digit_value c } := by
  have hwr := wrap_ge pf hw
  have h58 : c ≠ 58 := by unfold is_hex_digit at hc; omega
  have h46 : ¬ (c = 46 ∧ st.nibbles ≠ 0) := by unfold is_hex_digit at hc; omega
  have hn4 : ¬ st.nibbles + 1 > 4 := by omega
  rw [in6_loop_cons, if_neg h58, if_neg h46, if_neg hn4]
  rcases hc with ⟨h1, h2⟩ | ⟨h1, h2⟩ | ⟨h1, h2⟩
  · have hu : usub pf c 48 = c - 48 := usub_of_le pf c 48 h1 (by omega)
    rw [if_pos (by rw [hu]; omega), hu]
    simp [hex_digit_value, h2]
  · have hu : usub pf c 48 = c - 48 := usub_of_le pf c 48 (by omega) (by omega)
    have hu2 : usub pf (c ||| 32) 97 = c - 97 := by
      rw [lor_32_lower c h1 h2]; exact usub_of_le pf c 97 h1 (by omega)
    rw [if_neg (by rw [hu]; omega), if_pos (by rw [hu2]; omega), hu2]
    have : hex_digit_value c = 10 + (c - 97) := by
      unfold hex_digit_value; rw [if_neg (by omega), if_pos h1]; omega
    rw [this]
  · have hu : usub pf c 48 = c - 48 := usub_of_le pf c 48 (by omega) (by omega)
    have hu2 : usub pf (c ||| 32) 97 = c - 65 := by
      rw [lor_32_upper c h1 h2, usub_of_le pf (c + 32) 97 (by omega) (by omega)]; omega
    rw [if_neg (by rw [hu]; omega), if_pos (by rw [hu2]; omega), hu2]
    have : hex_digit_value c = 10 + (c - 65) := by
      unfold hex_digit_value; rw [if_neg (by omega), if_neg (by omega)]; omega
    rw [this]

/-- A run of hexadecimal digits that fits the current group. -/
theorem in6_loop_hex_run (pf : Platform) (hw : 32 ≤ pf.uint_bits) :
    ∀ (t buf : List Nat) (st : In6Scan), (∀ c ∈ t, is_hex_digit c) →
      st.nibbles + t.length ≤ 4 →
      nxt_inet6_addr_loop pf (t ++ buf) st =
        nxt_inet6_addr_loop pf buf
          { st with nibbles := st.nibbles + t.length, group := hex_value_from st.group t } := by
  intro t
  induction t with
  | nil => intro buf st _ _; simp [hex_value_from]
  | cons c r ih =>
    intro buf st hd hn
    have hc := hd c (List.mem_cons_self _ _)
    have hr : ∀ x ∈ r, is_hex_digit x := fun x hx => hd x (List.mem_cons_of_mem _ hx)
    simp only [List.length_cons] at hn
    rw [List.cons_append, in6_loop_hex_digit pf hw c _ st hc (by omega), ih _ _ hr (by simp; omega)]
    congr 1
    simp only [List.length_cons, hex_value_from, List.foldl_cons]
    congr 1
    omega

/-! ### The text of `%uxd` -/

theorem digit_char_hex (d : Nat) (hd : d < 16) :
    is_hex_digit (digit_char d) ∧ hex_digit_value (digit_char d) = d := by
  unfold digit_char is_hex_digit hex_digit_value
  by_cases h : d < 10
  · simp only [h, if_true]
    refine ⟨Or.inl ⟨by omega, by omega⟩, ?_⟩
    rw [if_pos (by omega)]; omega
  · simp only [h, if_false]
    refine ⟨Or.inr (Or.inl ⟨by omega, by omega⟩), ?_⟩
    rw [if_neg (by omega), if_pos (by omega)]; omega

theorem sprintf_uxd_small (n : Nat) (hn : n < 16) : nxt_sprintf_uxd n = [digit_char n] := by
  unfold nxt_sprintf_uxd
  exact nxt_digits_small 16 n hn

theorem sprintf_uxd_step (n : Nat) (hn : 16 ≤ n) :
    nxt_sprintf_uxd n = nxt_sprintf_uxd (n / 16) ++ [digit_char (n % 16)] := by
  unfold nxt_sprintf_uxd
  exact nxt_digits_step 16 n (by norm_num) hn

theorem hex_value_from_append (v : Nat) (f g : List Nat) :
    hex_value_from v (f ++ g) = hex_value_from (hex_value_from v f) g := by
  simp [hex_value_from, List.foldl_append]

theorem sprintf_uxd_spec : ∀ n : Nat,
    (∀ c ∈ nxt_sprintf_uxd n, is_hex_digit c) ∧ hex_value (nxt_sprintf_uxd n) = n := by
  intro n
  induction n using Nat.strong_induction_on with
  | _ n ih =>
    rcases Nat.lt_or_ge n 16 with h | h
    · rw [sprintf_uxd_small n h]
      have := digit_char_hex n h
      refine ⟨?_, ?_⟩
      · intro c hc
        simp at hc
        rw [hc]; exact this.1
      · simp [hex_value, hex_value_from, this.2]
    · rw [sprintf_uxd_step n h]
      obtain ⟨i1, i2⟩ := ih (n / 16) (by omega)
      have hd := digit_char_hex (n % 16) (Nat.mod_lt _ (by norm_num))
      refine ⟨?_, ?_⟩
      · intro c hc
        rcases List.mem_append.mp hc with h1 | h1
        · exact i1 c h1
        · simp at h1
          rw [h1]; exact hd.1
      · unfold hex_value at i2 ⊢
        rw [hex_value_from_append, i2]
        simp only [hex_value_from, List.foldl_cons, List.foldl_nil, hd.2]
        omega

theorem sprintf_uxd_length (n : Nat) (hn : n < 65536) :
    1 ≤ (nxt_sprintf_uxd n).length ∧ (nxt_sprintf_uxd n).length ≤ 4 := by
  rcases Nat.lt_or_ge n 16 with h | h
  · rw [sprintf_uxd_small n h]; simp
  · rw [sprintf_uxd_step n h]
    rcases Nat.lt_or_ge (n / 16) 16 with h2 | h2
    · rw [sprintf_uxd_small _ h2]; simp
    · rw [sprintf_uxd_step _ h2]
      rcases Nat.lt_or_ge (n / 16 / 16) 16 with h3 | h3
      · rw [sprintf_uxd_small _ h3]; simp
      · rw [sprintf_uxd_step _ h3, sprintf_uxd_small (n / 16 / 16 / 16) (by omega)]; simp

theorem sprintf_uxd_group (n : Nat) (hn : n < 65536) :
    is_hex_group (nxt_sprintf_uxd n) :=
  ⟨(sprintf_uxd_length n hn).1, (sprintf_uxd_length n hn).2, (sprintf_uxd_spec n).1⟩

/-! ### The move of the written bytes to the tail and the zero fill -/

theorem in6_move_length (z sh : Nat) : ∀ (k : Nat) (s : List Nat),
    (nxt_inet6_addr_move s z sh k).length = s.length := by
  intro k
  induction k with
  | zero => intro s; rfl
  | succ k ih => intro s; rw [nxt_inet6_addr_move, ih]; simp

theorem memzero_length (start : Nat) : ∀ (n : Nat) (s : List Nat),
    (nxt_memzero s start n).length = s.length := by
  intro n
  induction n with
  | zero => intro s; rfl
  | succ n ih => intro s; rw [nxt_memzero, ih]; simp

theorem in6_move_get (z sh : Nat) : ∀ (k : Nat) (s : List Nat) (i : Nat),
    z + sh + k ≤ s.length →
    (nxt_inet6_addr_move s z sh k)[i]? =
      if z + sh ≤ i ∧ i < z + sh + k then s[i - sh]? else s[i]? := by
  intro k
  induction k with
  | zero =>
    intro s i _
    simp only [nxt_inet6_addr_move]
    rw [if_neg (by omega)]
  | succ k ih =>
    intro s i hlen
    rw [nxt_inet6_addr_move, ih _ i (by simp; omega)]
    have hlt : z + k < s.length := by omega
    have hget : s.getD (z + k) 0 = s[z + k] := List.getD_eq_getElem _ _ hlt
    by_cases h1 : z + sh ≤ i ∧ i < z + sh + k
    · rw [if_pos h1, if_pos (by omega), List.getElem?_set_ne (by omega)]
    · rw [if_neg h1]
      by_cases h2 : i = z + k + sh
      · subst h2
        rw [if_pos (by omega), List.getElem?_set_self (by omega), hget]
        have : z + k + sh - sh = z + k := by omega
        rw [this, List.getElem?_eq_getElem (by omega)]
      · rw [if_neg (by omega), List.getElem?_set_ne (by omega)]

theorem memzero_get (start : Nat) : ∀ (n : Nat) (s : List Nat) (i : Nat),
    start + n ≤ s.length →
    (nxt_memzero s start n)[i]? =
      if start ≤ i ∧ i < start + n then some 0 else s[i]? := by
  intro n
  induction n with
  | zero =>
    intro s i _
    simp only [nxt_memzero]
    rw [if_neg (by omega)]
  | succ n ih =>
    intro s i hlen
    rw [nxt_memzero, ih _ i (by simp; omega)]
    by_cases h1 : start ≤ i ∧ i < start + n
    · rw [if_pos h1, if_pos (by omega)]
    · rw [if_neg h1]
      by_cases h2 : i = start + n
      · subst h2
        rw [if_pos (by omega), List.getElem?_set_self (by omega)]
      · rw [if_neg (by omega), List.getElem?_set_ne (by omega)]

/-- The end of `nxt_inet6_addr` on a destination that holds the bytes X written before the
compression point, the bytes Y written after it, and room J: Y goes to the tail and the room
in between is zeroed. -/
theorem in6_move_zero (X Y J : List Nat) :
    nxt_memzero (nxt_inet6_addr_move (X ++ Y ++ J) X.length J.length Y.length) X.length J.length
      = X ++ List.replicate J.length 0 ++ Y := by
  apply List.ext_getElem?
  intro i
  rw [memzero_get _ _ _ _ (by rw [in6_move_length]; simp),
    in6_move_get _ _ _ _ _ (by simp; omega)]
  by_cases h1 : i < X.length
  · rw [if_neg (by omega), if_neg (by omega)]
    simp only [List.append_assoc]
    rw [List.getElem?_append_left h1, List.getElem?_append_left h1]
  · by_cases h2 : i < X.length + J.length
    · rw [if_pos (by omega)]
      simp only [List.append_assoc]
      rw [List.getElem?_append_right (by omega), List.getElem?_append_left (by simp; omega)]
      rw [List.getElem?_replicate]
      simp
      omega
    · rw [if_neg (by omega)]
      by_cases h3 : i < X.length + J.length + Y.length
      · rw [if_pos (by omega)]
        simp only [List.append_assoc]
        rw [List.getElem?_append_right (by omega), List.getElem?_append_left (by omega),
          List.getElem?_append_right (by omega),
          List.getElem?_append_right (by simp; omega)]
        congr 1
        simp
        omega
      · rw [if_neg (by omega)]
        rw [List.getElem?_eq_none (by simp; omega), List.getElem?_eq_none (by simp; omega)]

/-! ### The scan of `nxt_inet6_addr` group by group -/

theorem groups_bytes_length : ∀ gs : List Nat, (groups_bytes gs).length = 2 * gs.length := by
  intro gs
  induction gs with
  | nil => rfl
  | cons g r ih => simp only [groups_bytes, List.length_cons, ih]; omega

theorem groups_bytes_append : ∀ gs hs : List Nat,
    groups_bytes (gs ++ hs) = groups_bytes gs ++ groups_bytes hs := by
  intro gs hs
  induction gs with
  | nil => rfl
  | cons g r ih => simp [groups_bytes, ih]

theorem set_two_at_boundary (W R : List Nat) (x y : Nat) (hR : 2 ≤ R.length) :
    ((W ++ R).set W.length x).set (W.length + 1) y = (W ++ [x, y]) ++ R.drop 2 := by
  match R, hR with
  | a :: b :: R2, _ =>
    simp [List.set_append]

theorem put_group_at (W R : List Nat) (zs : Option Nat) (gl nib grp : Nat)
    (ipv4 : Option (List Nat)) (hR : 2 ≤ R.length) :
    (In6Scan.at W R zs gl nib grp ipv4).put_group
      = In6Scan.at (W ++ [(grp / 256) % 256, grp % 256]) (R.drop 2) zs gl nib grp ipv4 := by
  unfold In6Scan.put_group In6Scan.at
  simp only [set_two_at_boundary W R _ _ hR]
  simp

/-- A colon that ends a group, with at least two groups left. -/
theorem in6_loop_flush (pf : Platform) (rest W R : List Nat) (zs : Option Nat)
    (gl nib grp : Nat) (ipv4 : Option (List Nat)) (hnib : nib ≠ 0) (hgl : 2 ≤ gl)
    (hR : 2 ≤ R.length) :
    nxt_inet6_addr_loop pf (58 :: rest) (In6Scan.at W R zs gl nib grp ipv4) =
      nxt_inet6_addr_loop pf rest
        (In6Scan.at (W ++ [(grp / 256) % 256, grp % 256]) (R.drop 2) zs (gl - 1) 0 0
          (some rest)) := by
  have hg : gl - 1 ≠ 0 := by omega
  rw [in6_loop_cons, put_group_at W R zs gl nib grp ipv4 hR]
  simp [In6Scan.at, hnib, hg]

/-- A group text followed by a colon, read from a state with an empty current group. -/
theorem in6_loop_group_colon (pf : Platform) (hw : 32 ≤ pf.uint_bits) (t rest W R : List Nat)
    (zs : Option Nat) (gl : Nat) (ipv4 : Option (List Nat)) (ht : is_hex_group t)
    (hgl : 2 ≤ gl) (hR : 2 ≤ R.length) :
    nxt_inet6_addr_loop pf (t ++ 58 :: rest) (In6Scan.at W R zs gl 0 0 ipv4) =
      nxt_inet6_addr_loop pf rest
        (In6Scan.at (W ++ groups_bytes [hex_value t]) (R.drop 2) zs (gl - 1) 0 0 (some rest)) := by
  obtain ⟨h1, h4, hd⟩ := ht
  have hn : nxt_inet6_addr_loop pf (t ++ 58 :: rest) (In6Scan.at W R zs gl 0 0 ipv4)
      = nxt_inet6_addr_loop pf (58 :: rest) (In6Scan.at W R zs gl t.length (hex_value t) ipv4) := by
    rw [in6_loop_hex_run pf hw t _ _ hd (by simp [In6Scan.at]; omega)]
    simp [In6Scan.at, hex_value]
  rw [hn, in6_loop_flush pf rest W R zs gl _ _ ipv4 (by omega) hgl hR]
  rfl

/-- Group texts, each followed by a colon, read from a state with an empty current group. -/
theorem in6_loop_groups_colon (pf : Platform) (hw : 32 ≤ pf.uint_bits) :
    ∀ (ts : List (List Nat)) (rest W R : List Nat) (zs : Option Nat) (gl : Nat)
      (ipv4 : Option (List Nat)), (∀ t ∈ ts, is_hex_group t) → ts.length + 1 ≤ gl →
      2 * ts.length ≤ R.length →
      nxt_inet6_addr_loop pf (colon_each ts ++ rest) (In6Scan.at W R zs gl 0 0 ipv4) =
        nxt_inet6_addr_loop pf rest
          (In6Scan.at (W ++ groups_bytes (ts.map hex_value)) (R.drop (2 * ts.length)) zs
            (gl - ts.length) 0 0 (if ts = [] then ipv4 else some rest)) := by
  intro ts
  induction ts with
  | nil => intro rest W R zs gl ipv4 _ _ _; simp [colon_each, groups_bytes]
  | cons t r ih =>
    intro rest W R zs gl ipv4 hts hgl hR
    simp only [List.length_cons] at hgl hR
    have ht := hts t (List.mem_cons_self _ _)
    have hr : ∀ x ∈ r, is_hex_group x := fun x hx => hts x (List.mem_cons_of_mem _ hx)
    simp only [colon_each, List.append_assoc, List.cons_append]
    rw [in6_loop_group_colon pf hw t _ W R zs gl ipv4 ht (by omega) (by omega),
      ih rest _ _ zs (gl - 1) _ hr (by omega) (by simp; omega)]
    have e1 : W ++ groups_bytes [hex_value t] ++ groups_bytes (List.map hex_value r)
        = W ++ groups_bytes (List.map hex_value (t :: r)) := by
      simp [groups_bytes]
    have e2 : List.drop (2 * r.length) (List.drop 2 R) = List.drop (2 * (r.length + 1)) R := by
      rw [List.drop_drop]; congr 1; omega
    have e3 : gl - 1 - r.length = gl - (r.length + 1) := by omega
    have e4 : (if r = [] then some (colon_each r ++ rest) else some rest) = some rest := by
      by_cases hre : r = []
      · subst hre; simp [colon_each]
      · simp [hre]
    rw [e1, e2, e3, e4]
    simp

/-- The second colon of "::", read from a state with an empty current group and no
compression point yet. -/
theorem in6_loop_compress (pf : Platform) (rest W R : List Nat) (gl : Nat)
    (ipv4 : Option (List Nat)) :
    nxt_inet6_addr_loop pf (58 :: rest) (In6Scan.at W R none gl 0 0 ipv4) =
      nxt_inet6_addr_loop pf rest (In6Scan.at W R (some W.length) gl 0 0 (some rest)) := by
  rw [in6_loop_cons, if_pos rfl, if_neg (by simp [In6Scan.at]), if_pos (by simp [In6Scan.at])]
  rfl

/-- The last group text of the input, read from a state with an empty current group. -/
theorem in6_loop_last_group (pf : Platform) (hw : 32 ≤ pf.uint_bits) (t W R : List Nat)
    (zs : Option Nat) (gl : Nat) (ipv4 : Option (List Nat)) (ht : is_hex_group t) :
    nxt_inet6_addr_loop pf t (In6Scan.at W R zs gl 0 0 ipv4) =
      In6Exit.finished (In6Scan.at W R zs gl t.length (hex_value t) ipv4) := by
  obtain ⟨h1, h4, hd⟩ := ht
  have := in6_loop_hex_run pf hw t [] (In6Scan.at W R zs gl 0 0 ipv4) hd
    (by simp [In6Scan.at]; omega)
  rw [List.append_nil] at this
  rw [this, nxt_inet6_addr_loop]
  simp [In6Scan.at, hex_value]

theorem colon_join_snoc : ∀ (ts : List (List Nat)) (t : List Nat),
    colon_join (ts ++ [t]) = colon_each ts ++ t := by
  intro ts
  induction ts with
  | nil => intro t; rfl
  | cons u r ih =>
    intro t
    cases r with
    | nil => simp [colon_join, colon_each]
    | cons v r2 =>
      have := ih t
      simp only [List.cons_append] at this ⊢
      simp only [colon_join, colon_each, this, List.append_assoc, List.cons_append]

theorem colon_each_eq_join : ∀ (ts : List (List Nat)), ts ≠ [] →
    colon_each ts = colon_join ts ++ [58] := by
  intro ts
  induction ts with
  | nil => intro h; exact absurd rfl h
  | cons u r ih =>
    intro _
    cases r with
    | nil => simp [colon_join, colon_each]
    | cons v r2 =>
      have := ih (by simp)
      simp only [colon_each, colon_join, List.append_assoc, List.cons_append] at this ⊢
      rw [this]

/-! ### `nxt_inet6_addr` on a text with "::" -/

/-- The end of `nxt_inet6_addr` after a compression point: the destination holds X, written
before the point, then Y, written after it, with the last group still to store. -/
theorem in6_end_compressed (X Y R : List Nat) (gl nib grp : Nat) (ipv4 : Option (List Nat))
    (hgl : 2 ≤ gl) (hR : R.length = 2 * gl) :
    nxt_inet6_addr_end (In6Scan.at (X ++ Y) R (some X.length) gl nib grp ipv4) =
      (NXT_OK, X ++ List.replicate (2 * (gl - 1)) 0 ++ (Y ++ groups_bytes [grp])) := by
  have hg : gl - 1 ≠ 0 := by omega
  unfold nxt_inet6_addr_end
  rw [put_group_at _ R _ gl nib grp ipv4 (by omega)]
  have hmz := in6_move_zero X (Y ++ groups_bytes [grp]) (R.drop 2)
  have hJ : (R.drop 2).length = (gl - 1) * 2 := by simp; omega
  rw [hJ] at hmz
  have hY : (Y ++ groups_bytes [grp]).length = (X ++ Y ++ [grp / 256 % 256, grp % 256]).length
      - X.length := by
    simp [groups_bytes]
  rw [hY] at hmz
  have e : X ++ (Y ++ groups_bytes [grp]) ++ List.drop 2 R
      = X ++ Y ++ [grp / 256 % 256, grp % 256] ++ List.drop 2 R := by
    simp [groups_bytes]
  rw [e] at hmz
  simp only [In6Scan.at, reduceCtorEq, and_false, if_false, ne_eq, hg, not_false_eq_true,
    if_true]
  rw [hmz, Nat.mul_comm]

/-- The end of `nxt_inet6_addr` when "::" would have to stand for no group at all. -/
theorem in6_end_no_room (W R : List Nat) (z nib grp : Nat) (ipv4 : Option (List Nat)) :
    (nxt_inet6_addr_end (In6Scan.at W R (some z) 1 nib grp ipv4)).1 = NXT_ERROR := by
  unfold nxt_inet6_addr_end
  simp [In6Scan.at, In6Scan.put_group]

/-- The scan of `nxt_inet6_addr` on the groups after "::". -/
theorem in6_loop_after_compress (pf : Platform) (hw : 32 ≤ pf.uint_bits)
    (Q : List (List Nat)) (X R : List Nat) (gl : Nat) (ipv4 : Option (List Nat))
    (hQ : ∀ t ∈ Q, is_hex_group t) (hgl : Q.length + 1 ≤ gl) (hR : R.length = 2 * gl) :
    ∃ Y R2 nib grp ipv42,
      nxt_inet6_addr_loop pf (colon_join Q) (In6Scan.at X R (some X.length) gl 0 0 ipv4)
        = In6Exit.finished
            (In6Scan.at (X ++ Y) R2 (some X.length) (gl - (Q.length - 1)) nib grp ipv42) ∧
      R2.length = 2 * (gl - (Q.length - 1)) ∧
      Y ++ groups_bytes [grp] = groups_bytes ((Q.map hex_value) ++ (if Q = [] then [0] else [])) := by
  rcases List.eq_nil_or_concat Q with hq | ⟨Q1, q, hq⟩
  · subst hq
    refine ⟨[], R, 0, 0, ipv4, ?_, by simpa using hR, by simp [groups_bytes]⟩
    simp [colon_join, nxt_inet6_addr_loop]
  · rw [List.concat_eq_append] at hq
    subst hq
    have hQ1 : ∀ t ∈ Q1, is_hex_group t := fun t ht => hQ t (by simp [ht])
    have hq1 : is_hex_group q := hQ q (by simp)
    simp only [List.length_append, List.length_cons, List.length_nil] at hgl
    have hlen : (Q1 ++ [q]).length - 1 = Q1.length := by simp
    refine ⟨groups_bytes (Q1.map hex_value), R.drop (2 * Q1.length), q.length, hex_value q,
      if Q1 = [] then ipv4 else some q, ?_, ?_, ?_⟩
    · rw [colon_join_snoc, in6_loop_groups_colon pf hw Q1 q X R _ gl ipv4 hQ1 (by omega)
        (by omega), in6_loop_last_group pf hw q _ _ _ _ _ hq1, hlen]
    · rw [hlen, List.length_drop]; omega
    · simp [groups_bytes_append]

theorem inet6_addr_cons (pf : Platform) (s6 : List Nat) (c : Nat) (rest : List Nat) :
    nxt_inet6_addr pf s6 (c :: rest) =
      (nxt_inet6_addr_loop pf (if c = 58 then rest else c :: rest)
        (In6Scan.at [] s6 none 8 0 0 none)).result := by
  have hinit : (⟨s6, 0, none, 8, 0, 0, none⟩ : In6Scan) = In6Scan.at [] s6 none 8 0 0 none := rfl
  unfold nxt_inet6_addr
  simp only [hinit]
  cases nxt_inet6_addr_loop pf (if c = 58 then rest else c :: rest)
    (In6Scan.at [] s6 none 8 0 0 none) <;> rfl

theorem is_hex_group_head (t : List Nat) (ht : is_hex_group t) :
    ∃ c r, t = c :: r ∧ c ≠ 58 := by
  obtain ⟨h1, _, hd⟩ := ht
  cases t with
  | nil => simp at h1
  | cons c r =>
    refine ⟨c, r, rfl, ?_⟩
    have := hd c (List.mem_cons_self _ _)
    unfold is_hex_digit at this
    omega

/-- The call of `nxt_inet6_addr` on a text that starts with groups and "::": the scan reaches
the text after "::" with the groups stored and the compression point recorded. -/
theorem inet6_addr_to_compress (pf : Platform) (hw : 32 ≤ pf.uint_bits) (s6 : List Nat)
    (hs6 : s6.length = 16) (P : List (List Nat)) (rest : List Nat)
    (hP : ∀ t ∈ P, is_hex_group t) (hm : P.length ≤ 7) :
    nxt_inet6_addr pf s6 (colon_join P ++ 58 :: 58 :: rest) =
      (nxt_inet6_addr_loop pf rest
        (In6Scan.at (groups_bytes (P.map hex_value)) (s6.drop (2 * P.length))
          (some (groups_bytes (P.map hex_value)).length) (8 - P.length) 0 0
          (some rest))).result := by
  cases P with
  | nil =>
    simp only [colon_join, List.nil_append, inet6_addr_cons, if_true]
    rw [in6_loop_compress]
    simp [groups_bytes]
  | cons t P1 =>
    obtain ⟨c, r, htc, hc⟩ := is_hex_group_head t (hP t (List.mem_cons_self _ _))
    have htext : colon_join (t :: P1) ++ 58 :: 58 :: rest
        = c :: (r ++ 58 :: (colon_each P1 ++ 58 :: rest)) := by
      have := colon_each_eq_join (t :: P1) (by simp)
      have e : colon_join (t :: P1) ++ 58 :: 58 :: rest
          = (colon_join (t :: P1) ++ [58]) ++ 58 :: rest := by simp
      rw [e, ← this, htc]
      simp [colon_each]
    have hback : c :: (r ++ 58 :: (colon_each P1 ++ 58 :: rest))
        = colon_each (t :: P1) ++ 58 :: rest := by
      rw [htc]; simp [colon_each]
    rw [htext, inet6_addr_cons, if_neg hc, hback,
      in6_loop_groups_colon pf hw (t :: P1) _ [] s6 none 8 none hP (by omega) (by omega),
      in6_loop_compress]
    simp

/-- The call of `nxt_inet6_addr` on groups P, "::" and groups Q, with at most seven groups
in all and room for at least one more group where a trailing "::" stands: the destination
receives the bytes of P, zero bytes, and the bytes of Q. -/
theorem inet6_addr_compressed (pf : Platform) (hw : 32 ≤ pf.uint_bits) (s6 : List Nat)
    (hs6 : s6.length = 16) (P Q : List (List Nat)) (hP : ∀ t ∈ P, is_hex_group t)
    (hQ : ∀ t ∈ Q, is_hex_group t) (hmn : P.length + Q.length ≤ 7)
    (hroom : ¬ (P.length = 7 ∧ Q = [])) :
    nxt_inet6_addr pf s6 (colon_join P ++ 58 :: 58 :: colon_join Q) =
      (NXT_OK, groups_bytes (P.map hex_value)
        ++ List.replicate (16 - 2 * (P.length + Q.length)) 0
        ++ groups_bytes (Q.map hex_value)) := by
  rw [inet6_addr_to_compress pf hw s6 hs6 P _ hP (by omega)]
  obtain ⟨Y, R2, nib, grp, ipv42, hloop, hR2, hY⟩ :=
    in6_loop_after_compress pf hw Q (groups_bytes (P.map hex_value)) (s6.drop (2 * P.length))
      (8 - P.length) (some (colon_join Q)) hQ (by omega) (by rw [List.length_drop]; omega)
  rw [hloop]
  simp only [In6Exit.result]
  have hgl : 2 ≤ 8 - P.length - (Q.length - 1) := by
    cases Q with
    | nil =>
      have : P.length ≠ 7 := fun h => hroom ⟨h, rfl⟩
      simp; omega
    | cons q Q1 => simp only [List.length_cons] at hmn ⊢; omega
  rw [in6_end_compressed _ Y R2 _ nib grp ipv42 hgl hR2, hY]
  congr 1
  cases Q with
  | nil =>
    have : P.length ≠ 7 := fun h => hroom ⟨h, rfl⟩
    have e : 16 - 2 * (P.length + 0) = 2 * (8 - P.length - 1) + 2 := by omega
    simp only [List.length_nil, List.map_nil, if_true, List.nil_append, groups_bytes,
      List.append_nil, Nat.zero_sub, Nat.sub_zero, e]
    rw [List.append_assoc]
    congr 1
    rw [List.replicate_add]
    rfl
  | cons q Q1 =>
    simp only [List.length_cons] at hmn
    have e : 2 * (8 - P.length - (Q1.length + 1 - 1) - 1) = 16 - 2 * (P.length + (Q1.length + 1)) := by
      omega
    simp only [List.length_cons, reduceCtorEq, if_false, List.append_nil, e]

/-- The call of `nxt_inet6_addr` on seven groups followed by "::": `NXT_ERROR`. -/
theorem inet6_addr_trailing_compress (pf : Platform) (hw : 32 ≤ pf.uint_bits) (s6 : List Nat)
    (hs6 : s6.length = 16) (P : List (List Nat)) (hP : ∀ t ∈ P, is_hex_group t)
    (hm : P.length = 7) :
    (nxt_inet6_addr pf s6 (colon_join P ++ [58, 58])).1 = NXT_ERROR := by
  rw [inet6_addr_to_compress pf hw s6 hs6 P [] hP (by omega)]
  simp only [nxt_inet6_addr_loop, hm, In6Exit.result]
  exact in6_end_no_room _ _ _ _ _ _

/-! ### The output loop of `nxt_inet6_ntop` -/

theorem sprintf_fits (out text : List Nat) (cap : Nat) (h : out.length + text.length ≤ cap) :
    nxt_sprintf out cap text = out ++ text := by
  unfold nxt_sprintf
  rw [List.take_of_length_le (by omega)]

theorem group_at_lt (A : List Nat) (hA : ∀ x ∈ A, x < 256) (j : Nat) : group_at A j < 65536 := by
  have h : ∀ i, A.getD i 0 < 256 := by
    intro i
    by_cases hi : i < A.length
    · rw [List.getD_eq_getElem _ _ hi]; exact hA _ (List.getElem_mem _)
    · rw [List.getD_eq_default _ _ (by omega)]; omega
  have h1 := h (2 * j)
  have h2 := h (2 * j + 1)
  unfold group_at
  omega

theorem group_texts_length (A : List Nat) : ∀ (n j : Nat), (group_texts A j n).length = n := by
  intro n
  induction n with
  | zero => intro j; rfl
  | succ n ih => intro j; simp [group_texts, ih]

theorem group_texts_hex (A : List Nat) (hA : ∀ x ∈ A, x < 256) : ∀ (n j : Nat),
    ∀ t ∈ group_texts A j n, is_hex_group t := by
  intro n
  induction n with
  | zero => intro j t ht; simp [group_texts] at ht
  | succ n ih =>
    intro j t ht
    simp only [group_texts, List.mem_cons] at ht
    rcases ht with h | h
    · rw [h]; exact sprintf_uxd_group _ (group_at_lt A hA j)
    · exact ih _ t h

theorem colon_each_length_le : ∀ (ts : List (List Nat)), (∀ t ∈ ts, is_hex_group t) →
    (colon_each ts).length ≤ 5 * ts.length := by
  intro ts
  induction ts with
  | nil => intro _; simp [colon_each]
  | cons t r ih =>
    intro h
    have h1 := (h t (List.mem_cons_self _ _)).2.1
    have h2 := ih (fun x hx => h x (List.mem_cons_of_mem _ hx))
    simp only [colon_each, List.length_append, List.length_cons]
    omega

theorem ntop_out_zero (pf : Platform) (addr : List Nat) (cap zs zg n i : Nat) (out : List Nat) :
    nxt_inet6_ntop_out pf addr cap zs zg n 0 i out = Ntop.running out := by
  rw [nxt_inet6_ntop_out]

/-- More iterations do not change a text that has been returned. -/
theorem ntop_out_mono (pf : Platform) (addr : List Nat) (cap zs zg n : Nat) :
    ∀ (fuel k i : Nat) (out t : List Nat),
      nxt_inet6_ntop_out pf addr cap zs zg n fuel i out = Ntop.text t →
      nxt_inet6_ntop_out pf addr cap zs zg n (fuel + k) i out = Ntop.text t := by
  intro fuel
  induction fuel with
  | zero => intro k i out t h; rw [ntop_out_zero] at h; exact absurd h (by simp)
  | succ f ih =>
    intro k i out t h
    have e : f + 1 + k = (f + k) + 1 := by omega
    rw [e, ntop_out_succ]
    rw [ntop_out_succ] at h
    by_cases h1 : ¬ i < n
    · rw [if_pos h1] at h ⊢; exact h
    · rw [if_neg h1] at h ⊢
      by_cases h2 : i = zs
      · rw [if_pos h2] at h ⊢; exact ih _ _ _ _ h
      · rw [if_neg h2] at h ⊢; exact ih _ _ _ _ h

/-- The loop ends when the index has reached `ipv6_bytes`. -/
theorem ntop_out_stop (pf : Platform) (addr : List Nat) (cap zs zg n fuel i : Nat)
    (out : List Nat) (h : n ≤ i) :
    nxt_inet6_ntop_out pf addr cap zs zg n (fuel + 1) i out = Ntop.text out := by
  rw [ntop_out_succ, if_pos (by omega)]

/-- The iteration at the start of a zero run that is not empty: one colon is stored and the
index moves past the run. -/
theorem ntop_out_jump (pf : Platform) (hw : 32 ≤ pf.uint_bits) (addr : List Nat)
    (cap s zg n fuel : Nat) (out : List Nat) (hzg : 1 ≤ zg) (hs : s + zg ≤ 8)
    (hn : 2 * s < n) :
    nxt_inet6_ntop_out pf addr cap (2 * s) zg n (fuel + 1) (2 * s) out =
      nxt_inet6_ntop_out pf addr cap (2 * s) zg n fuel (2 * (s + zg)) (out ++ [58]) := by
  have hwr := wrap_ge pf hw
  have h1 : usub pf zg 1 = zg - 1 := usub_of_le pf zg 1 hzg (by omega)
  have h2 : ((zg - 1) * 2) % pf.wrap = (zg - 1) * 2 := Nat.mod_eq_of_lt (by omega)
  have h3 : (2 * s + (zg - 1) * 2) % pf.wrap = 2 * s + (zg - 1) * 2 :=
    Nat.mod_eq_of_lt (by omega)
  have h4 : (2 * s + (zg - 1) * 2 + 2) % pf.wrap = 2 * (s + zg) := by
    rw [Nat.mod_eq_of_lt (by omega)]; omega
  rw [ntop_out_succ, if_neg (by omega), if_pos rfl, h1, h2, h3, h4]

/-- The iterations that print `cnt` groups before the last one, none of them at the start of
the zero run: each group is written in hexadecimal and followed by a colon. -/
theorem ntop_out_groups (pf : Platform) (hw : 32 ≤ pf.uint_bits) (A : List Nat)
    (hA : ∀ x ∈ A, x < 256) (cap zs zg n : Nat) :
    ∀ (cnt j fuel : Nat) (out : List Nat),
      (∀ k, j ≤ k → k < j + cnt → 2 * k ≠ zs) → j + cnt ≤ 7 → 2 * (j + cnt) ≤ n →
      out.length + 5 * cnt ≤ cap →
      nxt_inet6_ntop_out pf A cap zs zg n (fuel + cnt) (2 * j) out =
        nxt_inet6_ntop_out pf A cap zs zg n fuel (2 * (j + cnt))
          (out ++ colon_each (group_texts A j cnt)) := by
  have hwr := wrap_ge pf hw
  intro cnt
  induction cnt with
  | zero => intro j fuel out _ _ _ _; simp [group_texts, colon_each]
  | succ cnt ih =>
    intro j fuel out hne h7 hn hcap
    have hlen := (sprintf_uxd_length (group_at A j) (group_at_lt A hA j)).2
    have e : fuel + (cnt + 1) = (fuel + cnt) + 1 := by omega
    have hm : (2 * j + 2) % pf.wrap = 2 * (j + 1) := by
      rw [Nat.mod_eq_of_lt (by omega)]; omega
    rw [e, ntop_out_succ, if_neg (by omega), if_neg (hne j (by omega) (by omega)), hm,
      if_pos (by omega)]
    have hg : A.getD (2 * j) 0 * 256 + A.getD (2 * j + 1) 0 = group_at A j := rfl
    rw [hg, sprintf_fits _ _ _ (by omega),
      ih (j + 1) fuel _ (fun k hk1 hk2 => hne k (by omega) (by omega)) (by omega) (by omega)
        (by simp; omega)]
    have e2 : j + 1 + cnt = j + (cnt + 1) := by omega
    rw [e2]
    simp [group_texts, colon_each]

/-- The iteration that prints the last group, when the zero run does not start there: the
group is written without a colon. -/
theorem ntop_out_last (pf : Platform) (hw : 32 ≤ pf.uint_bits) (A : List Nat)
    (hA : ∀ x ∈ A, x < 256) (cap zs zg fuel : Nat) (out : List Nat) (hzs : zs ≠ 14)
    (hcap : out.length + 4 ≤ cap) :
    nxt_inet6_ntop_out pf A cap zs zg 16 (fuel + 1) 14 out =
      nxt_inet6_ntop_out pf A cap zs zg 16 fuel 16 (out ++ nxt_sprintf_uxd (group_at A 7)) := by
  have hwr := wrap_ge pf hw
  have hlen := (sprintf_uxd_length (group_at A 7) (group_at_lt A hA 7)).2
  have hm : (14 + 2) % pf.wrap = 16 := Nat.mod_eq_of_lt (by omega)
  have hg : A.getD 14 0 * 256 + A.getD (14 + 1) 0 = group_at A 7 := rfl
  rw [ntop_out_succ, if_neg (by omega), if_neg (fun h => hzs h.symm), hm, if_neg (by omega), hg,
    sprintf_fits _ _ _ (by omega)]

theorem group_texts_snoc (A : List Nat) : ∀ (n j : Nat),
    group_texts A j (n + 1) = group_texts A j n ++ [nxt_sprintf_uxd (group_at A (j + n))] := by
  intro n
  induction n with
  | zero => intro j; simp [group_texts]
  | succ n ih =>
    intro j
    rw [group_texts, ih (j + 1)]
    have e : j + 1 + n = j + (n + 1) := by omega
    rw [e]
    rfl

/-- The output loop with all eight groups to print and a zero run of `zg` groups from group
`s` on: the groups before the run each with a colon, one more colon, and the groups after the
run joined by colons. -/
theorem ntop_out_hex (pf : Platform) (hw : 32 ≤ pf.uint_bits) (A : List Nat)
    (hA : ∀ x ∈ A, x < 256) (cap s zg fuel : Nat) (out0 : List Nat) (hcap : 39 ≤ cap)
    (hzg : 1 ≤ zg) (hs : s + zg ≤ 8) (hout : out0.length ≤ 1) (hfuel : 10 ≤ fuel) :
    nxt_inet6_ntop_out pf A cap (2 * s) zg 16 fuel 0 out0 =
      Ntop.text (out0 ++ colon_each (group_texts A 0 s) ++ [58]
        ++ colon_join (group_texts A (s + zg) (8 - (s + zg)))) := by
  have hP := colon_each_length_le _ (group_texts_hex A hA s 0)
  rw [group_texts_length] at hP
  have h1 : ∀ F, nxt_inet6_ntop_out pf A cap (2 * s) zg 16 (F + s) 0 out0 =
      nxt_inet6_ntop_out pf A cap (2 * s) zg 16 F (2 * s)
        (out0 ++ colon_each (group_texts A 0 s)) := by
    intro F
    have h := ntop_out_groups pf hw A hA cap (2 * s) zg 16 s 0 F out0
      (fun k _ hk => by omega) (by omega) (by omega) (by omega)
    rw [Nat.mul_zero, Nat.zero_add] at h
    exact h
  rcases Nat.eq_zero_or_pos (8 - (s + zg)) with hr | hr
  · -- the run reaches the last group
    obtain ⟨k, rfl⟩ : ∃ k, fuel = (0 + 1 + 1 + s) + k := ⟨fuel - (0 + 1 + 1 + s), by omega⟩
    apply ntop_out_mono
    rw [h1 (0 + 1 + 1)]
    rw [ntop_out_jump pf hw A cap s zg 16 (0 + 1) _ hzg hs (by omega),
      ntop_out_stop pf A cap (2 * s) zg 16 0 _ _ (by omega), hr]
    simp [group_texts, colon_join]
  · obtain ⟨r, hr2⟩ : ∃ r, 8 - (s + zg) = r + 1 := ⟨8 - (s + zg) - 1, by omega⟩
    obtain ⟨k, rfl⟩ : ∃ k, fuel = (0 + 1 + 1 + r + 1 + s) + k :=
      ⟨fuel - (0 + 1 + 1 + r + 1 + s), by omega⟩
    apply ntop_out_mono
    rw [h1 (0 + 1 + 1 + r + 1)]
    have hQ := colon_each_length_le _ (group_texts_hex A hA r (s + zg))
    rw [group_texts_length] at hQ
    have h3 := ntop_out_groups pf hw A hA cap (2 * s) zg 16 r (s + zg) (0 + 1 + 1)
      (out0 ++ colon_each (group_texts A 0 s) ++ [58])
      (fun k hk _ => by omega) (by omega) (by omega)
      (by simp only [List.length_append, List.length_singleton]; omega)
    have e14 : 2 * (s + zg + r) = 14 := by omega
    rw [e14] at h3
    rw [ntop_out_jump pf hw A cap s zg 16 (0 + 1 + 1 + r) _ hzg hs (by omega), h3,
      ntop_out_last pf hw A hA cap (2 * s) zg (0 + 1) _ (by omega)
        (by simp only [List.length_append, List.length_singleton]; omega),
      ntop_out_stop pf A cap (2 * s) zg 16 0 _ _ (by omega), hr2, group_texts_snoc,
      colon_join_snoc]
    have e7 : s + zg + r = 7 := by omega
    rw [e7]
    simp

/-- The output loop with six groups to print and a zero run of `zg` groups from the first
group on, where `zg` is 5, 6 or 7: a colon, and the sixth group with its colon when the run
has five groups. -/
theorem ntop_out_v4 (pf : Platform) (hw : 32 ≤ pf.uint_bits) (A : List Nat)
    (hA : ∀ x ∈ A, x < 256) (cap zg fuel : Nat) (hcap : 39 ≤ cap)
    (hzg : 5 ≤ zg) (hs : zg ≤ 7) (hfuel : 10 ≤ fuel) :
    nxt_inet6_ntop_out pf A cap 0 zg 12 fuel 0 [58] =
      Ntop.text ([58, 58] ++ colon_each (group_texts A zg (6 - zg))) := by
  have hj := ntop_out_jump pf hw A cap 0 zg 12
  simp only [Nat.mul_zero, Nat.zero_add] at hj
  rcases Nat.eq_zero_or_pos (6 - zg) with hr | hr
  · obtain ⟨k, rfl⟩ : ∃ k, fuel = (0 + 1 + 1) + k := ⟨fuel - (0 + 1 + 1), by omega⟩
    apply ntop_out_mono
    rw [hj (0 + 1) _ (by omega) (by omega) (by omega),
      ntop_out_stop pf A cap 0 zg 12 0 _ _ (by omega), hr]
    simp [group_texts, colon_each]
  · have h5 : zg = 5 := by omega
    subst h5
    obtain ⟨k, rfl⟩ : ∃ k, fuel = (0 + 1 + 1 + 1) + k := ⟨fuel - (0 + 1 + 1 + 1), by omega⟩
    apply ntop_out_mono
    have h3 := ntop_out_groups pf hw A hA cap 0 5 12 1 5 (0 + 1) ([58] ++ [58])
      (fun k hk _ => by omega) (by omega) (by omega) (by simp; omega)
    rw [hj (0 + 1 + 1) _ (by omega) (by omega) (by omega), h3,
      ntop_out_stop pf A cap 0 5 12 0 _ _ (by omega)]
    simp

/-! ### The scan of `nxt_inet6_addr` on a dotted quad -/

theorem ntohl_htonl_quad (pf : Platform) (a b c d : Nat)
    (ha : a < 256) (hb : b < 256) (hc : c < 256) (hd : d < 256) :
    ntohl pf (htonl pf (a * 16777216 + b * 65536 + c * 256 + d))
      = a * 16777216 + b * 65536 + c * 256 + d := by
  rw [htonl_quad pf a b c d ha hb hc hd]
  unfold ntohl
  cases pf.little_endian
  · simp only [Bool.false_eq_true, if_false]
    omega
  · obtain ⟨h1, h2, h3, h4, _⟩ := quad_bytes d c b a hd hc hb ha
    simp only [if_true, bswap32]
    rw [h1, h2, h3, h4]

/-- The scan on a dotted quad that stands where a group may start, with room for two groups:
the digits of the first field are read as a group, the dot hands the whole quad to
`nxt_inet_addr`, and the two high bytes are stored. -/
theorem in6_loop_quad (pf : Platform) (hw : 32 ≤ pf.uint_bits) (a b c d : Nat)
    (ha : a < 256) (hb : b < 256) (hc : c < 256) (hd : d < 256)
    (hne : ¬ (a = 255 ∧ b = 255 ∧ c = 255 ∧ d = 255))
    (W R : List Nat) (zs : Option Nat) (gl : Nat) (hgl : 2 ≤ gl) (hR : 2 ≤ R.length) :
    ∃ nib,
      nxt_inet6_addr_loop pf (dotted_quad a b c d)
          (In6Scan.at W R zs gl 0 0 (some (dotted_quad a b c d))) =
        In6Exit.finished
          (In6Scan.at (W ++ [a, b]) (R.drop 2) zs (gl - 1) nib
            (a * 16777216 + b * 65536 + c * 256 + d) (some (dotted_quad a b c d))) := by
  have hdig : ∀ x ∈ nxt_sprintf_ud a, is_hex_digit x := by
    intro x hx
    have := sprintf_ud_digits a x hx
    exact Or.inl this
  have hlen := sprintf_ud_length a (by omega)
  have hnn : (nxt_sprintf_ud a).length ≠ 0 := by
    intro h
    exact sprintf_ud_ne_nil a (List.length_eq_zero.mp h)
  obtain ⟨h1, h2, h3, h4, _⟩ := quad_bytes a b c d ha hb hc hd
  refine ⟨0 + (nxt_sprintf_ud a).length, ?_⟩
  have hrun := in6_loop_hex_run pf hw (nxt_sprintf_ud a)
    (46 :: (nxt_sprintf_ud b ++ 46 :: (nxt_sprintf_ud c ++ 46 :: nxt_sprintf_ud d)))
    (In6Scan.at W R zs gl 0 0 (some (dotted_quad a b c d))) hdig
    (by simp only [In6Scan.at]; omega)
  have hq : dotted_quad a b c d = nxt_sprintf_ud a ++
      46 :: (nxt_sprintf_ud b ++ 46 :: (nxt_sprintf_ud c ++ 46 :: nxt_sprintf_ud d)) := rfl
  rw [← hq] at hrun
  rw [hrun, in6_loop_cons, if_neg (by omega),
    if_pos ⟨rfl, by simp only [In6Scan.at]; omega⟩]
  simp only [In6Scan.at]
  rw [if_neg (by omega), inet_addr_dotted_quad pf hw a b c d ha hb hc hd,
    if_neg (htonl_quad_ne_none pf a b c d ha hb hc hd hne),
    ntohl_htonl_quad pf a b c d ha hb hc hd, h3, h4, set_two_at_boundary W R a b hR]
  simp

/-- The call of `nxt_inet6_addr` on "::", groups each with its colon, and a dotted quad other
than 255.255.255.255: the destination receives zero bytes, the bytes of the groups and the
four bytes of the quad. -/
theorem inet6_addr_quad_tail (pf : Platform) (hw : 32 ≤ pf.uint_bits) (s6 : List Nat)
    (hs6 : s6.length = 16) (Q : List (List Nat)) (hQ : ∀ t ∈ Q, is_hex_group t)
    (hlen : Q.length ≤ 5) (a b c d : Nat)
    (ha : a < 256) (hb : b < 256) (hc : c < 256) (hd : d < 256)
    (hne : ¬ (a = 255 ∧ b = 255 ∧ c = 255 ∧ d = 255)) :
    nxt_inet6_addr pf s6 (58 :: 58 :: (colon_each Q ++ dotted_quad a b c d)) =
      (NXT_OK, List.replicate (12 - 2 * Q.length) 0 ++ groups_bytes (Q.map hex_value)
        ++ [a, b, c, d]) := by
  obtain ⟨h1, h2, _, _, _⟩ := quad_bytes a b c d ha hb hc hd
  have h0 := inet6_addr_to_compress pf hw s6 hs6 [] (colon_each Q ++ dotted_quad a b c d)
    (by simp) (by simp)
  simp only [colon_join, List.nil_append, List.map_nil, groups_bytes, List.length_nil,
    Nat.mul_zero, List.drop_zero, Nat.sub_zero] at h0
  rw [h0, in6_loop_groups_colon pf hw Q _ [] s6 (some 0) 8 _ hQ (by omega) (by omega)]
  obtain ⟨nib, hq⟩ := in6_loop_quad pf hw a b c d ha hb hc hd hne
    ([] ++ groups_bytes (Q.map hex_value)) (s6.drop (2 * Q.length)) (some 0) (8 - Q.length)
    (by omega) (by rw [List.length_drop]; omega)
  have hif : (if Q = [] then some (colon_each Q ++ dotted_quad a b c d)
      else some (dotted_quad a b c d)) = some (dotted_quad a b c d) := by
    split
    · rename_i h; subst h; rfl
    · rfl
  rw [hif, hq]
  simp only [In6Exit.result]
  have hend := in6_end_compressed [] (groups_bytes (Q.map hex_value) ++ [a, b])
    ((s6.drop (2 * Q.length)).drop 2) (8 - Q.length - 1) nib
    (a * 16777216 + b * 65536 + c * 256 + d) (some (dotted_quad a b c d)) (by omega)
    (by simp only [List.length_drop]; omega)
  simp only [List.nil_append, List.length_nil, groups_bytes, h1, h2] at hend
  simp only [List.nil_append, List.append_assoc]
  rw [hend]
  have e : 2 * (8 - Q.length - 1 - 1) = 12 - 2 * Q.length := by omega
  rw [e]
  simp

/-! ### The bytes that the parser stores for the texts of the formatter -/

theorem getD_lt_256 (A : List Nat) (hA : ∀ x ∈ A, x < 256) (i : Nat) : A.getD i 0 < 256 := by
  by_cases hi : i < A.length
  · rw [List.getD_eq_getElem _ _ hi]; exact hA _ (List.getElem_mem _)
  · rw [List.getD_eq_default _ _ (by omega)]; omega

theorem drop_two (A : List Nat) (i : Nat) (h : i + 1 < A.length) :
    A.drop i = A.getD i 0 :: A.getD (i + 1) 0 :: A.drop (i + 2) := by
  have h0 : i < A.length := by omega
  rw [List.getD_eq_getElem _ _ h0, List.getD_eq_getElem _ _ h]
  rw [List.drop_eq_getElem_cons h0, List.drop_eq_getElem_cons h]

/-- The bytes stored for the texts of `n` groups from group `j` on are the bytes of these
groups. -/
theorem groups_bytes_texts (A : List Nat) (hA : ∀ x ∈ A, x < 256) : ∀ (n j : Nat),
    2 * (j + n) ≤ A.length →
    groups_bytes ((group_texts A j n).map hex_value) = (A.drop (2 * j)).take (2 * n) := by
  intro n
  induction n with
  | zero => intro j _; simp [group_texts, groups_bytes]
  | succ n ih =>
    intro j hj
    have h0 := getD_lt_256 A hA (2 * j)
    have h1 := getD_lt_256 A hA (2 * j + 1)
    have e : 2 * j + 2 = 2 * (j + 1) := by omega
    have ht : 2 * (n + 1) = (2 * n + 1) + 1 := by omega
    rw [drop_two A (2 * j) (by omega), e, ht, List.take_succ_cons, List.take_succ_cons,
      ← ih (j + 1) (by omega)]
    simp only [group_texts, List.map_cons, groups_bytes, (sprintf_uxd_spec _).2]
    have g0 : group_at A j / 256 % 256 = A.getD (2 * j) 0 := by
      unfold group_at; omega
    have g1 : group_at A j % 256 = A.getD (2 * j + 1) 0 := by
      unfold group_at; omega
    rw [g0, g1]

/-- The bytes of a run of zero groups. -/
theorem zero_run_bytes (A : List Nat) : ∀ (n j : Nat), 2 * (j + n) ≤ A.length →
    (∀ k, j ≤ k → k < j + n → zero_group A k) →
    (A.drop (2 * j)).take (2 * n) = List.replicate (2 * n) 0 := by
  intro n
  induction n with
  | zero => intro j _ _; simp
  | succ n ih =>
    intro j hj hz
    have hzj := hz j (by omega) (by omega)
    unfold zero_group at hzj
    have e : 2 * j + 2 = 2 * (j + 1) := by omega
    have ht : 2 * (n + 1) = (2 * n + 1) + 1 := by omega
    rw [drop_two A (2 * j) (by omega), e, ht, List.take_succ_cons, List.take_succ_cons,
      ih (j + 1) (by omega) (fun k h1 h2 => hz k (by omega) (by omega)), hzj.1, hzj.2]
    rfl

/-- The 16 bytes cut at a run of groups. -/
theorem addr_split (A : List Nat) (hlen : A.length = 16) (s zg : Nat) (hs : s + zg ≤ 8) :
    (A.drop (2 * 0)).take (2 * s) ++ (A.drop (2 * s)).take (2 * zg)
      ++ (A.drop (2 * (s + zg))).take (2 * (8 - (s + zg))) = A := by
  have h3 : (A.drop (2 * (s + zg))).take (2 * (8 - (s + zg))) = A.drop (2 * (s + zg)) :=
    List.take_of_length_le (by rw [List.length_drop]; omega)
  have h2 : A.drop (2 * (s + zg)) = (A.drop (2 * s)).drop (2 * zg) := by
    rw [List.drop_drop]; congr 1; omega
  rw [h3, h2, Nat.mul_zero, List.drop_zero, List.append_assoc, List.take_append_drop,
    List.take_append_drop]

/-- The text written for an address whose zero run starts before the last group and that is
printed in hexadecimal throughout is parsed back to the same 16 bytes. -/
theorem roundtrip_hex (pf : Platform) (hw : 32 ≤ pf.uint_bits) (A : List Nat)
    (hlen : A.length = 16) (hA : ∀ x ∈ A, x < 256) (s6 : List Nat) (hs6 : s6.length = 16)
    (s zg : Nat) (hzg : 1 ≤ zg) (hs : s + zg ≤ 8)
    (hzero : ∀ j, s ≤ j → j < s + zg → zero_group A j) (hs7 : s ≠ 7) :
    nxt_inet6_addr pf s6 ((if 2 * s = 0 then [58] else []) ++ colon_each (group_texts A 0 s)
        ++ [58] ++ colon_join (group_texts A (s + zg) (8 - (s + zg)))) = (NXT_OK, A) := by
  have ht : (if 2 * s = 0 then [58] else []) ++ colon_each (group_texts A 0 s)
        ++ [58] ++ colon_join (group_texts A (s + zg) (8 - (s + zg)))
      = colon_join (group_texts A 0 s) ++ 58 :: 58 ::
          colon_join (group_texts A (s + zg) (8 - (s + zg))) := by
    rcases Nat.eq_zero_or_pos s with h0 | h0
    · subst h0
      simp [group_texts, colon_each, colon_join]
    · have hne : group_texts A 0 s ≠ [] := by
        intro h
        have := group_texts_length A s 0
        rw [h] at this
        simp at this
        omega
      rw [if_neg (by omega), colon_each_eq_join _ hne]
      simp
  have hPl := group_texts_length A s 0
  have hQl := group_texts_length A (8 - (s + zg)) (s + zg)
  rw [ht, inet6_addr_compressed pf hw s6 hs6 _ _ (group_texts_hex A hA s 0)
      (group_texts_hex A hA (8 - (s + zg)) (s + zg)) (by rw [hPl, hQl]; omega)
      (by rw [hPl]; omega),
    groups_bytes_texts A hA s 0 (by omega),
    groups_bytes_texts A hA (8 - (s + zg)) (s + zg) (by omega), hPl, hQl]
  have e : 16 - 2 * (s + (8 - (s + zg))) = 2 * zg := by omega
  rw [e, ← zero_run_bytes A zg s (by omega) hzero, addr_split A hlen s zg hs]

/-- The text written for an address that is printed with a dotted quad, other than
255.255.255.255, is parsed back to the same 16 bytes. -/
theorem roundtrip_v4 (pf : Platform) (hw : 32 ≤ pf.uint_bits) (A : List Nat)
    (hlen : A.length = 16) (hA : ∀ x ∈ A, x < 256) (s6 : List Nat) (hs6 : s6.length = 16)
    (zg : Nat) (h5 : 5 ≤ zg) (h7 : zg ≤ 7)
    (hzero : ∀ j, j < zg → zero_group A j)
    (hne : ¬ (A.getD 12 0 = 255 ∧ A.getD 13 0 = 255 ∧ A.getD 14 0 = 255 ∧ A.getD 15 0 = 255)) :
    nxt_inet6_addr pf s6 (58 :: 58 :: (colon_each (group_texts A zg (6 - zg))
        ++ dotted_quad (A.getD 12 0) (A.getD 13 0) (A.getD 14 0) (A.getD 15 0))) = (NXT_OK, A) := by
  have hQl := group_texts_length A (6 - zg) zg
  rw [inet6_addr_quad_tail pf hw s6 hs6 _ (group_texts_hex A hA (6 - zg) zg)
      (by rw [hQl]; omega) _ _ _ _ (getD_lt_256 A hA 12) (getD_lt_256 A hA 13)
      (getD_lt_256 A hA 14) (getD_lt_256 A hA 15) hne,
    groups_bytes_texts A hA (6 - zg) zg (by omega), hQl]
  have z0 := hzero 0 (by omega)
  have z1 := hzero 1 (by omega)
  have z2 := hzero 2 (by omega)
  have z3 := hzero 3 (by omega)
  have z4 := hzero 4 (by omega)
  match A, hlen with
  | [a0, a1, a2, a3, a4, a5, a6, a7, a8, a9, a10, a11, a12, a13, a14, a15], _ =>
    simp only [zero_group, List.getD_cons_zero, List.getD_cons_succ, Nat.mul_zero, Nat.mul_one,
      Nat.zero_add] at z0 z1 z2 z3 z4
    obtain ⟨rfl, rfl⟩ := z0
    obtain ⟨rfl, rfl⟩ := z1
    obtain ⟨rfl, rfl⟩ := z2
    obtain ⟨rfl, rfl⟩ := z3
    obtain ⟨rfl, rfl⟩ := z4
    rcases Nat.lt_or_ge zg 6 with h | h
    · have e : zg = 5 := by omega
      subst e
      rfl
    · have z5 := hzero 5 (by omega)
      simp only [zero_group, List.getD_cons_zero, List.getD_cons_succ] at z5
      obtain ⟨rfl, rfl⟩ := z5
      rcases Nat.lt_or_ge zg 7 with h | h
      · have e : zg = 6 := by omega
        subst e
        rfl
      · have e : zg = 7 := by omega
        subst e
        have z6 := hzero 6 (by omega)
        simp only [zero_group, List.getD_cons_zero, List.getD_cons_succ] at z6
        obtain ⟨rfl, rfl⟩ := z6
        rfl

/-- An address printed with a dotted quad whose last four bytes are all 255 is one of the two
addresses with a zero run before these bytes, `::255.255.255.255` and
`::ffff:255.255.255.255`. -/
theorem quad_not_all_255 (A : List Nat) (hlen : A.length = 16) (zg : Nat)
    (hzero : ∀ j, j < zg → zero_group A j)
    (hv : (zg = 5 ∧ A.getD 10 0 = 255 ∧ A.getD 11 0 = 255) ∨ 6 ≤ zg)
    (h4 : A ≠ List.replicate 12 0 ++ [255, 255, 255, 255])
    (h6 : A ≠ List.replicate 10 0 ++ [255, 255, 255, 255, 255, 255]) :
    ¬ (A.getD 12 0 = 255 ∧ A.getD 13 0 = 255 ∧ A.getD 14 0 = 255 ∧ A.getD 15 0 = 255) := by
  intro hq
  have z0 := hzero 0 (by omega)
  have z1 := hzero 1 (by omega)
  have z2 := hzero 2 (by omega)
  have z3 := hzero 3 (by omega)
  have z4 := hzero 4 (by omega)
  match A, hlen with
  | [a0, a1, a2, a3, a4, a5, a6, a7, a8, a9, a10, a11, a12, a13, a14, a15], _ =>
    simp only [zero_group, List.getD_cons_zero, List.getD_cons_succ, Nat.mul_zero, Nat.mul_one,
      Nat.zero_add] at z0 z1 z2 z3 z4 hq hv
    obtain ⟨rfl, rfl⟩ := z0
    obtain ⟨rfl, rfl⟩ := z1
    obtain ⟨rfl, rfl⟩ := z2
    obtain ⟨rfl, rfl⟩ := z3
    obtain ⟨rfl, rfl⟩ := z4
    obtain ⟨rfl, rfl, rfl, rfl⟩ := hq
    rcases hv with ⟨_, rfl, rfl⟩ | h
    · exact h6 rfl
    · have z5 := hzero 5 (by omega)
      simp only [zero_group, List.getD_cons_zero, List.getD_cons_succ] at z5
      obtain ⟨rfl, rfl⟩ := z5
      exact h4 rfl

/-- C1 (amended): for every 16-byte address with a zero group among its first seven groups,
other than `::255.255.255.255` and `::ffff:255.255.255.255`, `nxt_inet6_ntop` (given room for
39 bytes and ten iterations of its output loop, or more) returns a text, and `nxt_inet6_addr`
on that text returns `NXT_OK` and stores exactly the 16 bytes of the address, whatever the
destination held before. -/
theorem C1_format_parse_roundtrip (pf : Platform) (hw : 32 ≤ pf.uint_bits)
    (A s6 : List Nat) (cap fuel : Nat) (hlen : A.length = 16) (hA : ∀ x ∈ A, x < 256)
    (hs6 : s6.length = 16) (hcap : NXT_INET6_ADDR_STR_LEN ≤ cap) (hfuel : 10 ≤ fuel)
    (hz : ∃ g, g < 7 ∧ zero_group A g)
    (h4 : A ≠ List.replicate 12 0 ++ [255, 255, 255, 255])
    (h6 : A ≠ List.replicate 10 0 ++ [255, 255, 255, 255, 255, 255]) :
    ∃ t, nxt_inet6_ntop pf fuel A cap = Ntop.text t ∧
      nxt_inet6_addr pf s6 t = (NXT_OK, A) := by
  obtain ⟨g, hg, hzg⟩ := hz
  obtain ⟨s, hzs, hzg1, hs8, hzero, hs7⟩ := ntop_zero_sound A ⟨g, by omega, hzg⟩
  have hs7 := hs7 ⟨g, hg, hzg⟩
  generalize hgen : (nxt_inet6_ntop_zero A).zero_groups = zg at *
  have hc : 39 ≤ cap := hcap
  unfold nxt_inet6_ntop
  rw [if_neg (by unfold NXT_INET6_ADDR_STR_LEN; omega)]
  simp only [hzs, hgen]
  by_cases hv : 2 * s = 0 ∧ ((zg = 5 ∧ A.getD 10 0 = 255 ∧ A.getD 11 0 = 255) ∨ zg = 6
      ∨ (zg = 7 ∧ A.getD 14 0 ≠ 0 ∧ A.getD 15 0 ≠ 1))
  · simp only [hv, and_self, decide_True, if_true]
    have hs0 : s = 0 := by omega
    subst hs0
    have h57 : 5 ≤ zg ∧ zg ≤ 7 := by
      rcases hv.2 with h | h | h <;> omega
    rw [ntop_out_v4 pf hw A hA cap zg fuel hc h57.1 h57.2 hfuel]
    have hq := dotted_quad_length (A.getD 12 0) (A.getD 13 0) (A.getD 14 0) (A.getD 15 0)
      (getD_lt_256 A hA 12) (getD_lt_256 A hA 13) (getD_lt_256 A hA 14) (getD_lt_256 A hA 15)
    have hQ := colon_each_length_le _ (group_texts_hex A hA (6 - zg) zg)
    rw [group_texts_length] at hQ
    refine ⟨_, rfl, ?_⟩
    have hfit : ([58, 58] ++ colon_each (group_texts A zg (6 - zg))).length
        + (dotted_quad (A.getD 12 0) (A.getD 13 0) (A.getD 14 0) (A.getD 15 0)).length
        ≤ cap := by
      simp only [List.length_append, List.length_cons, List.length_nil]
      omega
    rw [sprintf_fits _ _ _ hfit]
    have hne := quad_not_all_255 A hlen zg (fun j hj => hzero j (by omega) (by omega))
      (by rcases hv.2 with h | h | h
          · exact Or.inl h
          · exact Or.inr (by omega)
          · exact Or.inr (by omega)) h4 h6
    have := roundtrip_v4 pf hw A hlen hA s6 hs6 zg h57.1 h57.2
      (fun j hj => hzero j (by omega) (by omega)) hne
    simpa using this
  · simp only [hv, decide_False, Bool.false_eq_true, if_false]
    rw [ntop_out_hex pf hw A hA cap s zg fuel _ hc hzg1 hs8 (by split <;> simp) hfuel]
    refine ⟨_, rfl, ?_⟩
    exact roundtrip_hex pf hw A hlen hA s6 hs6 s zg hzg1 hs8 hzero hs7

/-- C1 (witness): the address 2001:db8::1 is formatted and parsed back to the same bytes. -/
theorem C1_format_parse_roundtrip_witness :
    ∃ t, nxt_inet6_ntop linux_x86_64 10 [32, 1, 13, 184, 0, 0, 0, 0, 0, 0, 0, 0, 0, 0, 0, 1]
        39 = Ntop.text t ∧
      nxt_inet6_addr linux_x86_64 (List.replicate 16 0) t
        = (NXT_OK, [32, 1, 13, 184, 0, 0, 0, 0, 0, 0, 0, 0, 0, 0, 0, 1]) :=
  C1_format_parse_roundtrip linux_x86_64 (by decide)
    [32, 1, 13, 184, 0, 0, 0, 0, 0, 0, 0, 0, 0, 0, 0, 1] (List.replicate 16 0) 39 10
    (by decide) (by decide) (by decide) (by decide) (by decide) ⟨2, by decide, by decide⟩
    (by decide) (by decide)

/-! ### The text of `nxt_inet6_ntop` -/

/-- The text of `nxt_inet6_ntop` on an address that it prints in hexadecimal throughout. -/
theorem ntop_hex_text (pf : Platform) (hw : 32 ≤ pf.uint_bits) (A : List Nat)
    (hA : ∀ x ∈ A, x < 256) (cap fuel s zg : Nat) (hcap : 39 ≤ cap) (hfuel : 10 ≤ fuel)
    (hzs : (nxt_inet6_ntop_zero A).zero_start = 2 * s)
    (hzg : (nxt_inet6_ntop_zero A).zero_groups = zg) (hzg1 : 1 ≤ zg) (hs8 : s + zg ≤ 8)
    (hv : ¬ (2 * s = 0 ∧ ((zg = 5 ∧ A.getD 10 0 = 255 ∧ A.getD 11 0 = 255) ∨ zg = 6
      ∨ (zg = 7 ∧ A.getD 14 0 ≠ 0 ∧ A.getD 15 0 ≠ 1)))) :
    nxt_inet6_ntop pf fuel A cap =
      Ntop.text ((if 2 * s = 0 then [58] else []) ++ colon_each (group_texts A 0 s) ++ [58]
        ++ colon_join (group_texts A (s + zg) (8 - (s + zg)))) := by
  unfold nxt_inet6_ntop
  rw [if_neg (by unfold NXT_INET6_ADDR_STR_LEN; omega)]
  simp only [hzs, hzg]
  simp only [hv, decide_False, Bool.false_eq_true, if_false]
  rw [ntop_out_hex pf hw A hA cap s zg fuel _ hcap hzg1 hs8 (by split <;> simp) hfuel]
  rfl

/-- The text of `nxt_inet6_ntop` on an address that it prints with a dotted quad. -/
theorem ntop_v4_text (pf : Platform) (hw : 32 ≤ pf.uint_bits) (A : List Nat)
    (hA : ∀ x ∈ A, x < 256) (cap fuel zg : Nat) (hcap : 39 ≤ cap) (hfuel : 10 ≤ fuel)
    (hzs : (nxt_inet6_ntop_zero A).zero_start = 0)
    (hzg : (nxt_inet6_ntop_zero A).zero_groups = zg)
    (hv : (zg = 5 ∧ A.getD 10 0 = 255 ∧ A.getD 11 0 = 255) ∨ zg = 6
      ∨ (zg = 7 ∧ A.getD 14 0 ≠ 0 ∧ A.getD 15 0 ≠ 1)) :
    nxt_inet6_ntop pf fuel A cap =
      Ntop.text ([58, 58] ++ colon_each (group_texts A zg (6 - zg))
        ++ dotted_quad (A.getD 12 0) (A.getD 13 0) (A.getD 14 0) (A.getD 15 0)) := by
  have h57 : 5 ≤ zg ∧ zg ≤ 7 := by
    rcases hv with h | h | h <;> omega
  unfold nxt_inet6_ntop
  rw [if_neg (by unfold NXT_INET6_ADDR_STR_LEN; omega)]
  simp only [hzs, hzg]
  simp only [hv, and_self, decide_True, if_true]
  rw [ntop_out_v4 pf hw A hA cap zg fuel hcap h57.1 h57.2 hfuel]
  have hq := dotted_quad_length (A.getD 12 0) (A.getD 13 0) (A.getD 14 0) (A.getD 15 0)
    (getD_lt_256 A hA 12) (getD_lt_256 A hA 13) (getD_lt_256 A hA 14) (getD_lt_256 A hA 15)
  have hQ := colon_each_length_le _ (group_texts_hex A hA (6 - zg) zg)
  rw [group_texts_length] at hQ
  have hfit : ([58, 58] ++ colon_each (group_texts A zg (6 - zg))).length
      + (dotted_quad (A.getD 12 0) (A.getD 13 0) (A.getD 14 0) (A.getD 15 0)).length
      ≤ cap := by
    simp only [List.length_append, List.length_cons, List.length_nil]
    omega
  simp only [sprintf_fits _ _ _ hfit]

/-- The zero run found on an IPv4-mapped address: the first five groups. -/
theorem ntop_zero_mapped : ∀ b6 b7 : Bool,
    (nxt_inet6_ntop_zero (pattern_addr [true, true, true, true, true, false, b6, b7])).zero_start
        = 0 ∧
      (nxt_inet6_ntop_zero (pattern_addr [true, true, true, true, true, false, b6, b7])).zero_groups
        = 5 := by
  intro b6 b7
  cases b6 <;> cases b7 <;> decide

/-- C19: for every four octets a, b, c, d, `nxt_inet6_ntop` (given room for 39 bytes and ten
iterations of its output loop, or more) renders the IPv4-mapped address, ten zero bytes,
ff ff, a b c d, as exactly "::ffff:" followed by "a.b.c.d" in decimal. -/
theorem C19_ntop_ipv4_mapped (pf : Platform) (hw : 32 ≤ pf.uint_bits) (a b c d cap fuel : Nat)
    (ha : a < 256) (hb : b < 256) (hc : c < 256) (hd : d < 256)
    (hcap : NXT_INET6_ADDR_STR_LEN ≤ cap) (hfuel : 10 ≤ fuel) :
    nxt_inet6_ntop pf fuel (List.replicate 10 0 ++ [255, 255, a, b, c, d]) cap
      = Ntop.text (str "::ffff:" ++ dotted_quad a b c d) := by
  have hA : ∀ x ∈ List.replicate 10 0 ++ [255, 255, a, b, c, d], x < 256 := by
    intro x hx
    simp only [List.mem_append, List.mem_replicate, List.mem_cons, List.mem_nil_iff,
      or_false] at hx
    rcases hx with ⟨_, rfl⟩ | rfl | rfl | rfl | rfl | rfl | rfl <;> omega
  have hp : zero_pattern (List.replicate 10 0 ++ [255, 255, a, b, c, d])
      = [true, true, true, true, true, false, decide (a = 0 ∧ b = 0), decide (c = 0 ∧ d = 0)] := by
    simp [zero_pattern, zero_group, List.replicate]
  have hz := ntop_zero_mapped (decide (a = 0 ∧ b = 0)) (decide (c = 0 ∧ d = 0))
  rw [← hp, ← ntop_zero_pattern] at hz
  rw [ntop_v4_text pf hw _ hA cap fuel 5 hcap hfuel hz.1 hz.2
    (Or.inl ⟨rfl, by simp [List.replicate], by simp [List.replicate]⟩)]
  have hffff : nxt_sprintf_uxd 65535 = [102, 102, 102, 102] := by
    rw [sprintf_uxd_step 65535 (by omega), sprintf_uxd_step (65535 / 16) (by omega),
      sprintf_uxd_step (65535 / 16 / 16) (by omega),
      sprintf_uxd_small (65535 / 16 / 16 / 16) (by omega)]
    rfl
  have h10 : (List.replicate 10 0 ++ [255, 255, a, b, c, d]).getD 10 0 = 255 := by
    simp [List.replicate]
  have h11 : (List.replicate 10 0 ++ [255, 255, a, b, c, d]).getD 11 0 = 255 := by
    simp [List.replicate]
  have hga : group_at (List.replicate 10 0 ++ [255, 255, a, b, c, d]) 5 = 65535 := by
    unfold group_at
    rw [h10, h11]
  have hstr : str "::ffff:" = [58, 58, 102, 102, 102, 102, 58] := by decide
  have e : 6 - 5 = 1 := rfl
  rw [e, hstr]
  simp only [group_texts, colon_each, hga, hffff]
  simp [List.replicate]

/-- C19 (witness): the bytes of ::ffff:192.0.2.1 render as "::ffff:192.0.2.1". -/
theorem C19_ntop_ipv4_mapped_witness :
    nxt_inet6_ntop linux_x86_64 10 [0, 0, 0, 0, 0, 0, 0, 0, 0, 0, 255, 255, 192, 0, 2, 1] 39
      = Ntop.text (str "::ffff:192.0.2.1") :=
  C19_ntop_ipv4_mapped linux_x86_64 (by decide) 192 0 2 1 39 10 (by decide) (by decide)
    (by decide) (by decide) (by decide) (by decide)

/-- The zero run found on an address whose first seven groups are zero and whose last
group is not: the first seven groups. -/
theorem ntop_zero_prefixed :
    (nxt_inet6_ntop_zero (pattern_addr [true, true, true, true, true, true, true, false])).zero_start
        = 0 ∧
      (nxt_inet6_ntop_zero (pattern_addr [true, true, true, true, true, true, true, false])).zero_groups
        = 7 := by
  decide

/-- C20 (the code, the failing inputs included): on an address whose first seven groups are
zero and whose last two bytes x, y are not both zero, `nxt_inet6_ntop` (given room for 39
bytes and ten iterations of its output loop, or more) writes "::" and the dotted quad
"0.0.x.y" only if x is not 0 and y is not 1; if x is 0 or y is 1 it writes "::" and the last
group in hexadecimal, as for the loopback address. -/
theorem C20_ntop_zero_prefixed (pf : Platform) (hw : 32 ≤ pf.uint_bits) (x y cap fuel : Nat)
    (hx : x < 256) (hy : y < 256) (hne : ¬ (x = 0 ∧ y = 0))
    (hcap : NXT_INET6_ADDR_STR_LEN ≤ cap) (hfuel : 10 ≤ fuel) :
    nxt_inet6_ntop pf fuel (List.replicate 14 0 ++ [x, y]) cap
      = Ntop.text (58 :: 58 ::
          (if x ≠ 0 ∧ y ≠ 1 then dotted_quad 0 0 x y else nxt_sprintf_uxd (x * 256 + y))) := by
  have hA : ∀ v ∈ List.replicate 14 0 ++ [x, y], v < 256 := by
    intro v hv
    simp only [List.mem_append, List.mem_replicate, List.mem_cons, List.mem_nil_iff,
      or_false] at hv
    rcases hv with ⟨_, rfl⟩ | rfl | rfl <;> omega
  have hp : zero_pattern (List.replicate 14 0 ++ [x, y])
      = [true, true, true, true, true, true, true, false] := by
    simp [zero_pattern, zero_group, List.replicate]
    exact fun h => (hne ⟨h, ·⟩)
  have hz := ntop_zero_prefixed
  rw [← hp, ← ntop_zero_pattern] at hz
  have h12 : (List.replicate 14 0 ++ [x, y]).getD 12 0 = 0 := by simp [List.replicate]
  have h13 : (List.replicate 14 0 ++ [x, y]).getD 13 0 = 0 := by simp [List.replicate]
  have h14 : (List.replicate 14 0 ++ [x, y]).getD 14 0 = x := by simp [List.replicate]
  have h15 : (List.replicate 14 0 ++ [x, y]).getD 15 0 = y := by simp [List.replicate]
  by_cases hv : x ≠ 0 ∧ y ≠ 1
  · rw [ntop_v4_text pf hw _ hA cap fuel 7 hcap hfuel hz.1 hz.2
      (Or.inr (Or.inr ⟨rfl, by rw [h14]; exact hv.1, by rw [h15]; exact hv.2⟩)),
      if_pos hv, h12, h13, h14, h15]
    rfl
  · have hz0 : (nxt_inet6_ntop_zero (List.replicate 14 0 ++ [x, y])).zero_start = 2 * 0 := hz.1
    rw [ntop_hex_text pf hw _ hA cap fuel 0 7 hcap hfuel hz0 hz.2 (by omega) (by omega)
      (by rw [h14, h15]; intro h; rcases h.2 with h | h | h
          · omega
          · omega
          · exact hv h.2), if_neg hv]
    have hg : group_at (List.replicate 14 0 ++ [x, y]) 7 = x * 256 + y := by
      unfold group_at
      rw [h14, h15]
    simp only [group_texts, colon_each, colon_join, hg]
    rfl

/-- C20 (witness): the address ::2 is written "::2", not "::0.0.0.2". -/
theorem C20_ntop_zero_prefixed_witness :
    nxt_inet6_ntop linux_x86_64 10 [0, 0, 0, 0, 0, 0, 0, 0, 0, 0, 0, 0, 0, 0, 0, 2] 39
      = Ntop.text (str "::2") :=
  C20_ntop_zero_prefixed linux_x86_64 (by decide) 0 2 39 10 (by decide) (by decide)
    (by decide) (by decide) (by decide)

/-- C18 (the code, the failing inputs included): on groups P, "::" and groups Q, each group
one to four hexadecimal digits in either case and at most seven groups in all,
`nxt_inet6_addr` returns `NXT_ERROR` when P has seven groups (a trailing "::" that stands for
one group, as in "1:2:3:4:5:6:7::"); in every other case it returns `NXT_OK` and the
destination holds the bytes of P, zero bytes, and the bytes of Q, whatever it held before. -/
theorem C18_inet6_addr_on_compressed_text (pf : Platform) (hw : 32 ≤ pf.uint_bits)
    (s6 : List Nat) (hs6 : s6.length = 16) (P Q : List (List Nat))
    (hP : ∀ t ∈ P, is_hex_group t) (hQ : ∀ t ∈ Q, is_hex_group t)
    (hmn : P.length + Q.length ≤ 7) :
    (P.length = 7 →
      (nxt_inet6_addr pf s6 (colon_join P ++ 58 :: 58 :: colon_join Q)).1 = NXT_ERROR) ∧
    (P.length ≠ 7 →
      nxt_inet6_addr pf s6 (colon_join P ++ 58 :: 58 :: colon_join Q) =
        (NXT_OK, groups_bytes (P.map hex_value)
          ++ List.replicate (16 - 2 * (P.length + Q.length)) 0
          ++ groups_bytes (Q.map hex_value))) := by
  refine ⟨?_, ?_⟩
  · intro h7
    have hq : Q = [] := List.length_eq_zero.mp (by omega)
    subst hq
    exact inet6_addr_trailing_compress pf hw s6 hs6 P hP h7
  · intro h7
    exact inet6_addr_compressed pf hw s6 hs6 P Q hP hQ hmn (fun h => h7 h.1)

/-- C18 (witness): "1:2:3:4:5:6:7::" is rejected, while "2001:db8::1" gives the bytes
20 01 0d b8, ten zero bytes, 00 01. -/
theorem C18_inet6_addr_on_compressed_text_witness :
    (nxt_inet6_addr linux_x86_64 (List.replicate 16 0) (str "1:2:3:4:5:6:7::")).1 = NXT_ERROR ∧
    nxt_inet6_addr linux_x86_64 (List.replicate 16 0) (str "2001:db8::1")
      = (NXT_OK, [32, 1, 13, 184, 0, 0, 0, 0, 0, 0, 0, 0, 0, 0, 0, 1]) :=
  ⟨(C18_inet6_addr_on_compressed_text linux_x86_64 (by decide) (List.replicate 16 0)
      (by decide) [[49], [50], [51], [52], [53], [54], [55]] [] (by decide) (by decide)
      (by decide)).1 (by decide),
   (C18_inet6_addr_on_compressed_text linux_x86_64 (by decide) (List.replicate 16 0)
      (by decide) [str "2001", str "db8"] [str "1"] (by decide) (by decide)
      (by decide)).2 (by decide)⟩

/-! ### A closing bracket is not part of an address text -/

theorem inet_addr_loop_bracket (pf : Platform) (h : 32 ≤ pf.uint_bits) :
    ∀ (buf : List Nat) (addr octet dots : Nat), 93 ∈ buf →
      nxt_inet_addr_loop pf buf addr octet dots = none := by
  have hw := wrap_ge pf h
  intro buf
  induction buf with
  | nil => intro _ _ _ hm; simp at hm
  | cons c r ih =>
    intro addr octet dots hm
    rw [inet_addr_loop_cons]
    by_cases hc : c = 93
    · subst hc
      have : usub pf 93 48 = 45 := by rw [usub_of_le pf 93 48 (by norm_num) (by omega)]
      rw [if_neg (by omega), if_neg (by omega)]
    · have hr : 93 ∈ r := by
        rcases List.mem_cons.mp hm with h1 | h1
        · exact absurd h1.symm hc
        · exact h1
      split
      · exact ih _ _ _ hr
      · split
        · exact ih _ _ _ hr
        · rfl

theorem inet_addr_bracket (pf : Platform) (h : 32 ≤ pf.uint_bits) (buf : List Nat)
    (hm : 93 ∈ buf) : nxt_inet_addr pf buf = INADDR_NONE := by
  unfold nxt_inet_addr
  rw [inet_addr_loop_bracket pf h buf 0 0 0 hm]

theorem in6_loop_bracket (pf : Platform) (h : 32 ≤ pf.uint_bits) :
    ∀ (buf : List Nat) (st : In6Scan), (∀ t, st.ipv4 = some t → buf <:+ t) → 93 ∈ buf →
      (nxt_inet6_addr_loop pf buf st).is_error := by
  have hw := wrap_ge pf h
  intro buf
  induction buf with
  | nil => intro _ _ hm; simp at hm
  | cons c r ih =>
    intro st hinv hm
    rw [in6_loop_cons]
    by_cases hc : c = 93
    · subst hc
      have h1 : usub pf 93 48 = 45 := by rw [usub_of_le pf 93 48 (by norm_num) (by omega)]
      have h2 : (93 : Nat) ||| 32 = 125 := by decide
      have h3 : usub pf 125 97 = 28 := by rw [usub_of_le pf 125 97 (by norm_num) (by omega)]
      rw [if_neg (by omega), if_neg (by omega), h1, h2, h3]
      split
      · simp [In6Exit.is_error]
      · rw [if_neg (by omega), if_neg (by omega)]
        simp [In6Exit.is_error]
    · have hr : 93 ∈ r := by
        rcases List.mem_cons.mp hm with h1 | h1
        · exact absurd h1.symm hc
        · exact h1
      have hinv2 : ∀ t, st.ipv4 = some t → r <:+ t := fun t ht =>
        List.IsSuffix.trans (List.suffix_cons c r) (hinv t ht)
      have hself : ∀ t, some r = some t → r <:+ t := by
        intro t ht
        simp at ht
        subst ht
        exact List.suffix_refl _
      split
      · split
        · split
          · exact ih _ hself hr
          · simp [In6Exit.is_error]
        · split
          · exact ih _ hself hr
          · simp [In6Exit.is_error]
      · split
        · cases hv : st.ipv4 with
          | none => simp [In6Exit.is_error]
          | some t =>
            simp only
            have hmt : 93 ∈ t := by
              obtain ⟨pre, hpre⟩ := hinv t hv
              rw [← hpre]
              exact List.mem_append_right _ hm
            rw [inet_addr_bracket pf h t hmt]
            split <;> simp [In6Exit.is_error]
        · split
          · simp [In6Exit.is_error]
          · split
            · exact ih _ hinv2 hr
            · split
              · exact ih _ hinv2 hr
              · simp [In6Exit.is_error]

/-- A text that `nxt_inet6_addr` accepts holds no closing bracket. -/
theorem inet6_addr_no_bracket (pf : Platform) (h : 32 ≤ pf.uint_bits) (s6 t : List Nat)
    (hacc : (nxt_inet6_addr pf s6 t).1 = NXT_OK) : 93 ∉ t := by
  intro hm
  cases t with
  | nil => simp at hm
  | cons c rest =>
    rw [inet6_addr_cons] at hacc
    have hm2 : 93 ∈ (if c = 58 then rest else c :: rest) := by
      split
      · rename_i hc
        rcases List.mem_cons.mp hm with h1 | h1
        · omega
        · exact h1
      · exact hm
    have herr := in6_loop_bracket pf h _ (In6Scan.at [] s6 none 8 0 0 none)
      (by intro t ht; simp [In6Scan.at] at ht) hm2
    cases hl : nxt_inet6_addr_loop pf (if c = 58 then rest else c :: rest)
        (In6Scan.at [] s6 none 8 0 0 none) with
    | error s =>
      rw [hl] at hacc
      simp [In6Exit.result, NXT_ERROR, NXT_OK] at hacc
    | finished st =>
      rw [hl] at herr
      simp [In6Exit.is_error] at herr

/-! ### The default port -/

theorem dotted_quad_no_colon (a b c d : Nat) : 58 ∉ dotted_quad a b c d := by
  unfold dotted_quad
  have ha := sprintf_ud_no_colon a
  have hb := sprintf_ud_no_colon b
  have hc := sprintf_ud_no_colon c
  have hd := sprintf_ud_no_colon d
  simp [ha, hb, hc, hd]

theorem int_parse_dotted_quad (pf : Platform) (a b c d : Nat) :
    ¬ nxt_int_parse pf (dotted_quad a b c d) > 0 := by
  intro h
  have hne : dotted_quad a b c d ≠ [] := by
    unfold dotted_quad
    simp
  cases hq : dotted_quad a b c d with
  | nil => exact hne hq
  | cons x r =>
    rw [hq] at h
    simp only [nxt_int_parse] at h
    have hdig := (int_parse_loop_nonneg pf (x :: r) 0 (by omega)).1
    rw [← hq] at hdig
    have h46 : 46 ∈ dotted_quad a b c d := by
      unfold dotted_quad
      simp
    have := hdig 46 h46
    omega

/-- C11 (counterexample): on a little-endian platform the default port 80 of "[::1]" and
of "1.2.3.4" is read back by `nxt_sockaddr_port` as 20480. -/
theorem C11_counterexample_default_port :
    (nxt_job_sockaddr_inet6_parse linux_x86_64
        (nxt_job_sockaddr_parse_t.fresh (str "[::1]") 80 0 ⟨[]⟩)).1 = NXT_OK ∧
    (nxt_job_sockaddr_inet6_parse linux_x86_64
        (nxt_job_sockaddr_parse_t.fresh (str "[::1]") 80 0 ⟨[]⟩)).2.sockaddrs.map
      (nxt_sockaddr_port linux_x86_64) = [20480] ∧
    (nxt_job_sockaddr_inet_parse linux_x86_64
        (nxt_job_sockaddr_parse_t.fresh (str "1.2.3.4") 80 0 ⟨[]⟩)).1 = NXT_OK ∧
    (nxt_job_sockaddr_inet_parse linux_x86_64
        (nxt_job_sockaddr_parse_t.fresh (str "1.2.3.4") 80 0 ⟨[]⟩)).2.sockaddrs.map
      (nxt_sockaddr_port linux_x86_64) = [20480] := by
  decide

/-- C11 (amended): the default port of the request is stored in the address as it is given,
without conversion. For every text t that `nxt_inet6_addr` accepts, parsing "[" t "]" with a
pool that serves the two allocations returns `NXT_OK`, sets the no-port flag and yields one
AF_INET6 address whose `sin6_port` is the default port d, so that `nxt_sockaddr_port` reads
back `ntohs(d)`; likewise the dotted quad "a.b.c.d" of four octets that are not all 255
yields one AF_INET address whose `sin_port` is d and whose port reads back as `ntohs(d)`. -/
theorem C11_default_port_stored_as_given (pf : Platform) (hwf : pf.WF)
    (jbs : nxt_job_sockaddr_parse_t) (hpool : jbs.mem_pool.serves_all)
    (hport : jbs.port < 65536) :
    (∀ t, jbs.addr = 91 :: (t ++ [93]) →
      (nxt_inet6_addr pf (List.replicate 16 0) t).1 = NXT_OK →
      (nxt_job_sockaddr_inet6_parse pf jbs).1 = NXT_OK ∧
      (nxt_job_sockaddr_inet6_parse pf jbs).2.no_port = true ∧
      ∃ sa, (nxt_job_sockaddr_inet6_parse pf jbs).2.sockaddrs = [sa] ∧
        sa.sa_family = pf.AF_INET6 ∧ sa.sin6_port = jbs.port ∧
        nxt_sockaddr_port pf sa = ntohs pf jbs.port) ∧
    (∀ a b c d, a < 256 → b < 256 → c < 256 → d < 256 →
      ¬ (a = 255 ∧ b = 255 ∧ c = 255 ∧ d = 255) → jbs.addr = dotted_quad a b c d →
      (nxt_job_sockaddr_inet_parse pf jbs).1 = NXT_OK ∧
      (nxt_job_sockaddr_inet_parse pf jbs).2.no_port = true ∧
      ∃ sa, (nxt_job_sockaddr_inet_parse pf jbs).2.sockaddrs = [sa] ∧
        sa.sa_family = pf.AF_INET ∧ sa.sin_port = jbs.port ∧
        nxt_sockaddr_port pf sa = ntohs pf jbs.port) := by
  obtain ⟨hw, hui, hu6, hi6, _⟩ := hwf
  refine ⟨?_, ?_⟩
  · intro t haddr hacc
    have ht := inet6_addr_no_bracket pf hw _ t hacc
    have hshape := inet6_parse_bracketed pf jbs t [] haddr ht hpool
    simp only [hacc, ne_eq, not_true_eq_false, if_false, List.length_nil, if_true,
      nxt_job_sockaddr_inet6_found] at hshape
    rw [hshape]
    refine ⟨rfl, rfl, _, rfl, rfl, ?_, ?_⟩
    · exact Nat.mod_eq_of_lt hport
    · simp only [nxt_sockaddr_port, if_true, Nat.mod_mod]
      rw [Nat.mod_eq_of_lt hport]
  · intro a b c d ha hb hc hd hne haddr
    rcases jbs with ⟨addr, port, log_level, name, sockaddrs, count, no_port, wildcard,
      mem_pool, calls⟩
    simp only at haddr hpool hport
    subst haddr
    have hnc : nxt_memchr (dotted_quad a b c d) 58 = none :=
      memchr_none 58 _ (dotted_quad_no_colon a b c d)
    have hip := int_parse_dotted_quad pf a b c d
    have haddr4 := inet_addr_dotted_quad pf hw a b c d ha hb hc hd
    have hnone := htonl_quad_ne_none pf a b c d ha hb hc hd hne
    have hfound := inet_found_serves pf
      ⟨dotted_quad a b c d, port, log_level, name, sockaddrs, count, true, wildcard,
        mem_pool, calls⟩
      (htonl pf (a * 16777216 + b * 65536 + c * 256 + d)) port hpool
    unfold nxt_job_sockaddr_inet_parse
    simp only [hnc, hip, if_false, haddr4, hnone]
    rw [hfound]
    refine ⟨rfl, rfl, _, rfl, rfl, ?_, ?_⟩
    · exact Nat.mod_eq_of_lt hport
    · simp only [nxt_sockaddr_port, if_neg hi6, if_neg (Ne.symm hui), Nat.mod_mod]
      rw [Nat.mod_eq_of_lt hport]

/-- C11 (witness): on a big-endian platform the default port 80 of "[::1]" reads back
as 80. -/
theorem C11_default_port_stored_as_given_witness :
    (nxt_job_sockaddr_inet6_parse bsd_be32
        (nxt_job_sockaddr_parse_t.fresh (str "[::1]") 80 0 ⟨[]⟩)).1 = NXT_OK ∧
    (nxt_job_sockaddr_inet6_parse bsd_be32
        (nxt_job_sockaddr_parse_t.fresh (str "[::1]") 80 0 ⟨[]⟩)).2.no_port = true ∧
    ∃ sa, (nxt_job_sockaddr_inet6_parse bsd_be32
        (nxt_job_sockaddr_parse_t.fresh (str "[::1]") 80 0 ⟨[]⟩)).2.sockaddrs = [sa] ∧
      sa.sa_family = bsd_be32.AF_INET6 ∧ sa.sin6_port = 80 ∧
      nxt_sockaddr_port bsd_be32 sa = ntohs bsd_be32 80 :=
  (C11_default_port_stored_as_given bsd_be32 (by decide)
    (nxt_job_sockaddr_parse_t.fresh (str "[::1]") 80 0 ⟨[]⟩) (by decide) (by decide)).1
    (str "::1") (by decide) (by decide)

/-! ### `nxt_sockaddr_cmp` -/

theorem memcmp_loop_zero : ∀ (n : Nat) (s1 s2 : List Nat), n ≤ s1.length → n ≤ s2.length →
    (nxt_memcmp_loop s1 s2 n = 0 ↔ s1.take n = s2.take n) := by
  intro n
  induction n with
  | zero => intro s1 s2 _ _; cases s1 <;> cases s2 <;> simp [nxt_memcmp_loop]
  | succ n ih =>
    intro s1 s2 h1 h2
    match s1, s2, h1, h2 with
    | a :: r1, b :: r2, h1, h2 =>
      simp only [List.length_cons, Nat.add_le_add_iff_right] at h1 h2
      simp only [nxt_memcmp_loop, List.take_succ_cons, List.cons.injEq]
      by_cases hab : a = b
      · simp only [hab, if_true, true_and]
        exact ih r1 r2 h1 h2
      · simp only [hab, if_false, false_and, iff_false]
        omega

/-- What `nxt_memcmp` answers on two objects that hold the `n` bytes. -/
theorem memcmp_zero (s1 s2 : List Nat) (n : Nat) (h1 : n ≤ s1.length) (h2 : n ≤ s2.length) :
    ∃ r, nxt_memcmp s1 s2 n = some r ∧ (r = 0 ↔ s1.take n = s2.take n) := by
  refine ⟨nxt_memcmp_loop s1 s2 n, ?_, memcmp_loop_zero n s1 s2 h1 h2⟩
  unfold nxt_memcmp
  rw [if_pos ⟨h1, h2⟩]

/-- The result of `nxt_sockaddr_cmp` on two values laid out as `nxt_sockaddr_alloc` does,
an AF_UNIX value having a recorded length that reaches `sun_path`. -/
theorem sockaddr_cmp_spec (pf : Platform) (hw : 32 ≤ pf.uint_bits) (a b : nxt_sockaddr_t)
    (ha : a.laid_out pf) (hb : b.laid_out pf)
    (hua : a.sa_family = pf.AF_UNIX → pf.sun_path_offset ≤ a.socklen) :
    nxt_sockaddr_cmp pf a b = some (decide
      (a.socklen = b.socklen ∧ a.type = b.type ∧ a.sa_family = b.sa_family ∧
        (if a.sa_family = pf.AF_INET6 then
          a.sin6_port = b.sin6_port ∧ a.sin6_addr = b.sin6_addr
        else if a.sa_family = pf.AF_UNIX then
          a.sun_path.take (a.socklen - pf.sun_path_offset)
            = b.sun_path.take (a.socklen - pf.sun_path_offset)
        else a.sin_port = b.sin_port ∧ a.sin_addr = b.sin_addr))) := by
  have hwr := wrap_ge pf hw
  obtain ⟨ha1, ha2, ha3⟩ := ha
  obtain ⟨hb1, hb2, hb3⟩ := hb
  unfold nxt_sockaddr_cmp
  by_cases h1 : a.socklen = b.socklen
  swap
  · simp [h1]
  by_cases h2 : a.type = b.type
  swap
  · simp [h1, h2]
  by_cases h3 : a.sa_family = b.sa_family
  swap
  · simp [h1, h2, h3]
  simp only [h1, h2, h3, ne_eq, not_true_eq_false, if_false, true_and]
  by_cases h6 : b.sa_family = pf.AF_INET6
  · simp only [h6, if_true]
    by_cases hp : a.sin6_port = b.sin6_port
    swap
    · simp [hp]
    simp only [hp, not_true_eq_false, if_false, true_and]
    obtain ⟨r, hr, hz⟩ := memcmp_zero a.sin6_addr b.sin6_addr 16 (by omega) (by omega)
    rw [hr]
    have ht : a.sin6_addr.take 16 = b.sin6_addr.take 16 ↔ a.sin6_addr = b.sin6_addr := by
      rw [List.take_of_length_le (by omega), List.take_of_length_le (by omega)]
    by_cases hr0 : r = 0
    · have := ht.mp (hz.mp hr0)
      simp [hr0, this]
    · have : ¬ a.sin6_addr = b.sin6_addr := fun h => hr0 (hz.mpr (ht.mpr h))
      simp [hr0, this]
  · simp only [h6, if_false]
    by_cases hu : b.sa_family = pf.AF_UNIX
    · simp only [hu, if_true]
      have hoff := hua (h3.trans hu)
      have hlen : usub pf b.socklen pf.sun_path_offset = b.socklen - pf.sun_path_offset :=
        usub_of_le pf _ _ (by omega) (by omega)
      rw [hlen]
      obtain ⟨r, hr, hz⟩ := memcmp_zero a.sun_path b.sun_path (b.socklen - pf.sun_path_offset)
        (by omega) (by omega)
      rw [hr]
      by_cases hr0 : r = 0
      · have := hz.mp hr0
        simp [hr0, this]
      · have : ¬ a.sun_path.take (b.socklen - pf.sun_path_offset)
            = b.sun_path.take (b.socklen - pf.sun_path_offset) := fun h => hr0 (hz.mpr h)
        simp [hr0, this]
    · simp only [hu, if_false]
      by_cases hp : a.sin_port = b.sin_port
      swap
      · simp [hp]
      by_cases hq : a.sin_addr = b.sin_addr
      swap
      · simp [hp, hq]
      simp [hp, hq]

/-- C12: for all socket address values a and b (laid out as `nxt_sockaddr_alloc` does, with
a recorded length that reaches `sun_path` when the family is AF_UNIX), `nxt_sockaddr_cmp`
answers true if and only if the recorded lengths, the types and the families are equal and,
by family: AF_INET6, `sin6_port` and the 16 address bytes are equal; AF_UNIX, the recorded
length minus the offset of `sun_path` path bytes are equal; any other family, `sin_port` and
`sin_addr` are equal. The relation is reflexive and symmetric, and the cached text does not
enter it. -/
theorem C12_sockaddr_cmp (pf : Platform) (hw : 32 ≤ pf.uint_bits) (a b : nxt_sockaddr_t)
    (ha : a.laid_out pf) (hb : b.laid_out pf)
    (hua : a.sa_family = pf.AF_UNIX → pf.sun_path_offset ≤ a.socklen)
    (hub : b.sa_family = pf.AF_UNIX → pf.sun_path_offset ≤ b.socklen) :
    nxt_sockaddr_cmp pf a b = some (decide
      (a.socklen = b.socklen ∧ a.type = b.type ∧ a.sa_family = b.sa_family ∧
        (if a.sa_family = pf.AF_INET6 then
          a.sin6_port = b.sin6_port ∧ a.sin6_addr = b.sin6_addr
        else if a.sa_family = pf.AF_UNIX then
          a.sun_path.take (a.socklen - pf.sun_path_offset)
            = b.sun_path.take (a.socklen - pf.sun_path_offset)
        else a.sin_port = b.sin_port ∧ a.sin_addr = b.sin_addr))) ∧
    nxt_sockaddr_cmp pf a a = some true ∧
    nxt_sockaddr_cmp pf b a = nxt_sockaddr_cmp pf a b ∧
    ∀ t1 n1 t2 n2,
      nxt_sockaddr_cmp pf { a with text := t1, text_len := n1 }
          { b with text := t2, text_len := n2 }
        = nxt_sockaddr_cmp pf a b := by
  refine ⟨sockaddr_cmp_spec pf hw a b ha hb hua, ?_, ?_, ?_⟩
  · rw [sockaddr_cmp_spec pf hw a a ha ha hua]
    simp
  · rw [sockaddr_cmp_spec pf hw a b ha hb hua, sockaddr_cmp_spec pf hw b a hb ha hub]
    congr 1
    rw [decide_eq_decide]
    constructor
    · rintro ⟨h1, h2, h3, h4⟩
      refine ⟨h1.symm, h2.symm, h3.symm, ?_⟩
      rw [h3, h1] at h4
      split at h4
      · rename_i h6
        rw [if_pos h6]
        exact ⟨h4.1.symm, h4.2.symm⟩
      · rename_i h6
        rw [if_neg h6]
        split at h4
        · rename_i hu
          rw [if_pos hu]
          exact h4.symm
        · rename_i hu
          rw [if_neg hu]
          exact ⟨h4.1.symm, h4.2.symm⟩
    · rintro ⟨h1, h2, h3, h4⟩
      refine ⟨h1.symm, h2.symm, h3.symm, ?_⟩
      rw [h3, h1] at h4
      split at h4
      · rename_i h6
        rw [if_pos h6]
        exact ⟨h4.1.symm, h4.2.symm⟩
      · rename_i h6
        rw [if_neg h6]
        split at h4
        · rename_i hu
          rw [if_pos hu]
          exact h4.symm
        · rename_i hu
          rw [if_neg hu]
          exact ⟨h4.1.symm, h4.2.symm⟩
  · intro t1 n1 t2 n2
    rfl

/-- C12 (witness): two AF_INET6 values for [::1]:80 of which only one has a cached text
compare equal. -/
theorem C12_sockaddr_cmp_witness :
    nxt_sockaddr_cmp linux_x86_64
      ⟨28, 1, some (str "[::1]:80"), 8, 10, 0, 0, 20480,
        [0, 0, 0, 0, 0, 0, 0, 0, 0, 0, 0, 0, 0, 0, 0, 1], List.replicate 26 0⟩
      ⟨28, 1, none, 0, 10, 0, 0, 20480,
        [0, 0, 0, 0, 0, 0, 0, 0, 0, 0, 0, 0, 0, 0, 0, 1], List.replicate 26 0⟩
      = some true :=
  ((C12_sockaddr_cmp linux_x86_64 (by decide)
      ⟨28, 1, some (str "[::1]:80"), 8, 10, 0, 0, 20480,
        [0, 0, 0, 0, 0, 0, 0, 0, 0, 0, 0, 0, 0, 0, 0, 1], List.replicate 26 0⟩
      ⟨28, 1, none, 0, 10, 0, 0, 20480,
        [0, 0, 0, 0, 0, 0, 0, 0, 0, 0, 0, 0, 0, 0, 0, 1], List.replicate 26 0⟩
      (by decide) (by decide) (by decide) (by decide)).1).trans (by decide)

/-! ### `nxt_sockaddr_text` -/

/-- The cached text does not enter the rendering. -/
theorem sockaddr_ntop_text_irrelevant (pf : Platform) (fuel : Nat) (sa : nxt_sockaddr_t)
    (cap : Nat) (port : Bool) (t : Option (List Nat)) (n : Nat) :
    nxt_sockaddr_ntop pf fuel { sa with text := t, text_len := n } cap port
      = nxt_sockaddr_ntop pf fuel sa cap port := rfl

/-- C13 (counterexample): the AF_INET value 1.2.3.4 with port 80 is rendered without port,
which caches "1.2.3.4", and then with port: the second call succeeds and the cached text is
"1.2.3.4:80", of length 10 instead of 7. -/
theorem C13_counterexample_second_render :
    nxt_sockaddr_text linux_x86_64 134 10 ⟨[]⟩
        ⟨16, 1, none, 0, 2, 20480, 67305985, 0, List.replicate 16 0, List.replicate 14 0⟩ false
      = some (NXT_OK,
          ⟨16, 1, some (str "1.2.3.4"), 7, 2, 20480, 67305985, 0, List.replicate 16 0,
            List.replicate 14 0⟩, ⟨[]⟩) ∧
    nxt_sockaddr_text linux_x86_64 134 10 ⟨[]⟩
        ⟨16, 1, some (str "1.2.3.4"), 7, 2, 20480, 67305985, 0, List.replicate 16 0,
          List.replicate 14 0⟩ true
      = some (NXT_OK,
          ⟨16, 1, some (str "1.2.3.4:80"), 10, 2, 20480, 67305985, 0, List.replicate 16 0,
            List.replicate 14 0⟩, ⟨[]⟩) := by
  decide

/-- C13 (amended): `nxt_sockaddr_text` renders anew on every call. A call that succeeds
stores the text that `nxt_sockaddr_ntop` writes for the given include-port flag, and its
length, whatever was cached before; after it, every later call with the same flag on the
same value returns and leaves the cached text and its length unchanged, whether its
allocation succeeds or not. -/
theorem C13_sockaddr_text_renders_anew (pf : Platform) (buf_len fuel : Nat)
    (mp mp1 mp2 : nxt_mem_pool_t) (sa sa1 : nxt_sockaddr_t) (port : Bool)
    (h : nxt_sockaddr_text pf buf_len fuel mp sa port = some (NXT_OK, sa1, mp1)) :
    (∃ t, nxt_sockaddr_ntop pf fuel sa buf_len port = Ntop.text t ∧
      sa1 = { sa with text := some t, text_len := t.length }) ∧
    ∃ st2 sa2 mp3, nxt_sockaddr_text pf buf_len fuel mp2 sa1 port = some (st2, sa2, mp3) ∧
      sa2.text = sa1.text ∧ sa2.text_len = sa1.text_len := by
  unfold nxt_sockaddr_text at h
  cases hn : nxt_sockaddr_ntop pf fuel sa buf_len port with
  | running w => rw [hn] at h; simp at h
  | text t =>
    rw [hn] at h
    simp only at h
    by_cases ha : (nxt_mem_alloc mp).1 = true
    · rw [if_pos ha] at h
      simp only [Option.some.injEq, Prod.mk.injEq, true_and] at h
      obtain ⟨hsa, _⟩ := h
      subst hsa
      refine ⟨⟨t, rfl, rfl⟩, ?_⟩
      unfold nxt_sockaddr_text
      rw [sockaddr_ntop_text_irrelevant, hn]
      simp only
      by_cases hb : (nxt_mem_alloc mp2).1 = true
      · rw [if_pos hb]
        exact ⟨_, _, _, rfl, rfl, rfl⟩
      · rw [if_neg hb]
        exact ⟨_, _, _, rfl, rfl, rfl⟩
    · rw [if_neg ha] at h
      simp [NXT_OK, NXT_ERROR] at h

/-- C13 (witness): rendering 1.2.3.4 port 80 with port twice leaves "1.2.3.4:80" cached. -/
theorem C13_sockaddr_text_renders_anew_witness :
    ∃ st2 sa2 mp3,
      nxt_sockaddr_text linux_x86_64 134 10 ⟨[false]⟩
          ⟨16, 1, some (str "1.2.3.4:80"), 10, 2, 20480, 67305985, 0, List.replicate 16 0,
            List.replicate 14 0⟩ true = some (st2, sa2, mp3) ∧
        sa2.text = some (str "1.2.3.4:80") ∧ sa2.text_len = 10 :=
  (C13_sockaddr_text_renders_anew linux_x86_64 134 10 ⟨[]⟩ ⟨[]⟩ ⟨[false]⟩
    ⟨16, 1, none, 0, 2, 20480, 67305985, 0, List.replicate 16 0, List.replicate 14 0⟩
    ⟨16, 1, some (str "1.2.3.4:80"), 10, 2, 20480, 67305985, 0, List.replicate 16 0,
      List.replicate 14 0⟩ true (by decide)).2

/-! ### Jobs -/

/-- C14 (counterexample): a job without worker-pool affinity whose cancellation flag is set
has its main handler, here 1, called by `nxt_job_start`; its abort handler, 2, is not
called. -/
theorem C14_counterexample_inline_start :
    (nxt_job_start true NXT_OK ⟨0, some 5⟩
        { nxt_job_t.zeroed with abort_handler := 2, data := 9, cancel := true } 1).2
      = [JobCall.handler 1 0 9] ∧
    nxt_job_handlers_run true NXT_OK ⟨0, some 5⟩ ⟨1, none⟩ ⟨0, some 5⟩ 3
        { nxt_job_t.zeroed with abort_handler := 2, data := 9, cancel := true } 1
      = [1] := by
  decide

/-- C14 (amended): in a build with threads, for every job with a worker-pool affinity whose
cancellation flag is set when `nxt_job_start` is called and stays set, the one work handler
called is the abort handler of the job: inline if the submission fails, otherwise after the
trampoline, `nxt_job_return` and the return handler on the engine (or the work queue of the
worker thread if the starting thread has no engine). For a job without affinity
`nxt_job_start` calls the handler given, whatever the flag is. -/
theorem C14_cancelled_job_runs_abort_handler (post : Int) (task worker origin : nxt_task_t)
    (job : nxt_job_t) (handler : nxt_work_handler_t) (fuel : Nat) (hfuel : 3 ≤ fuel) :
    (∀ tp, job.thread_pool = some tp → job.cancel = true →
      nxt_job_handlers_run true post task worker origin fuel job handler
        = [job.abort_handler]) ∧
    (∀ threads, job.thread_pool = none →
      nxt_job_handlers_run threads post task worker origin fuel job handler = [handler]) := by
  obtain ⟨k, rfl⟩ : ∃ k, fuel = k + 3 := ⟨fuel - 3, by omega⟩
  refine ⟨?_, ?_⟩
  · intro tp htp hc
    unfold nxt_job_handlers_run nxt_job_start
    simp only [htp, if_true]
    by_cases hp : post = NXT_OK
    · simp only [hp, if_true, List.flatMap_cons, List.flatMap_nil, List.append_nil,
        JobCall.handlers_run, nxt_job_thread_trampoline, hc, nxt_job_return]
      cases he : task.engine with
      | none =>
        simp [JobCall.handlers_run, hc]
      | some e =>
        simp [JobCall.handlers_run, nxt_job_thread_return_handler, hc]
    · simp [hp, JobCall.handlers_run]
  · intro threads htp
    unfold nxt_job_handlers_run nxt_job_start
    cases threads <;> simp [htp, JobCall.handlers_run]

/-- C14 (witness): a cancelled job with affinity whose submission succeeds has its abort
handler, 2, called and not the handler 1 given to `nxt_job_start`. -/
theorem C14_cancelled_job_runs_abort_handler_witness :
    nxt_job_handlers_run true NXT_OK ⟨0, some 5⟩ ⟨1, none⟩ ⟨0, some 5⟩ 3
        { nxt_job_t.zeroed with thread_pool := some 7, abort_handler := 2, cancel := true } 1
      = [2] :=
  (C14_cancelled_job_runs_abort_handler NXT_OK ⟨0, some 5⟩ ⟨1, none⟩ ⟨0, some 5⟩
    { nxt_job_t.zeroed with thread_pool := some 7, abort_handler := 2, cancel := true } 1 3
    (by decide)).1 7 rfl rfl

/-- C15: `nxt_job_start` on a job without worker-pool affinity calls the handler given,
once, with the task, the job and the data of the job, and posts nothing; on a job with
affinity (in a build with threads) it posts one trampoline task carrying the handler and, if
the submission succeeds, calls no handler; if the submission fails, it calls the abort
handler of the job, once, and that is the only handler it calls. In a build without threads
it calls the handler given, once. -/
theorem C15_job_start_never_drops_work (threads : Bool) (post : Int) (task : nxt_task_t)
    (job : nxt_job_t) (handler : nxt_work_handler_t) :
    (job.thread_pool = none →
      (nxt_job_start threads post task job handler).2
        = [JobCall.handler handler job.task_ident job.data]) ∧
    (∀ tp, job.thread_pool = some tp → post = NXT_OK →
      (nxt_job_start true post task job handler).2
        = [JobCall.nxt_thread_pool_post tp handler NXT_OK]) ∧
    (∀ tp, job.thread_pool = some tp → post ≠ NXT_OK →
      (nxt_job_start true post task job handler).2
        = [JobCall.nxt_thread_pool_post tp handler post,
           JobCall.handler job.abort_handler job.task_ident job.data]) ∧
    (nxt_job_start false post task job handler).2
      = [JobCall.handler handler job.task_ident job.data] := by
  refine ⟨?_, ?_, ?_, ?_⟩
  rotate_left 3
  · simp [nxt_job_start]
  · intro h
    unfold nxt_job_start
    cases threads <;> simp [h]
  · intro tp h hp
    unfold nxt_job_start
    simp [h, hp]
  · intro tp h hp
    unfold nxt_job_start
    simp [h, hp]

/-- C15 (witness): a failed submission of a job with affinity ends in one call of its abort
handler, 2. -/
theorem C15_job_start_never_drops_work_witness :
    (nxt_job_start true NXT_ERROR ⟨0, some 5⟩
        { nxt_job_t.zeroed with thread_pool := some 7, abort_handler := 2, data := 9 } 1).2
      = [JobCall.nxt_thread_pool_post 7 1 NXT_ERROR, JobCall.handler 2 0 9] :=
  (C15_job_start_never_drops_work true NXT_ERROR ⟨0, some 5⟩
    { nxt_job_t.zeroed with thread_pool := some 7, abort_handler := 2, data := 9 } 1).2.2.1
    7 rfl (by decide)

/-- C16 (the code on failed allocations): when the creation of the private pool fails,
`nxt_job_create` returns `NULL` after that one call; when the allocation of the job fails,
from the cache allocator of a given context or from the private pool just created, it goes
on to `nxt_queue_self(&job->link)` and stores through the null pointer. -/
theorem C16_job_create_on_failed_allocation (env : JobEnv) (size : Nat) :
    (env.pool = none →
      nxt_job_create env none size = JobCreated.returned none [JobCall.nxt_mem_pool_create 256]) ∧
    (env.mem = false → ∀ mp,
      nxt_job_create env (some mp) size
        = JobCreated.null_store [JobCall.nxt_mem_cache_zalloc0 mp size]) ∧
    (env.mem = false → ∀ p, env.pool = some p →
      nxt_job_create env none size
        = JobCreated.null_store
            [JobCall.nxt_mem_pool_create 256, JobCall.nxt_mem_zalloc p size]) := by
  refine ⟨?_, ?_, ?_⟩
  · intro h
    simp [nxt_job_create, h]
  · intro h mp
    simp [nxt_job_create, nxt_job_create_end, h]
  · intro h p hp
    simp [nxt_job_create, nxt_job_create_end, h, hp]

/-- C16 (witness): with the context 7 and a cache allocator that returns `NULL`, creating a
job of 64 bytes stores through the null pointer. -/
theorem C16_job_create_on_failed_allocation_witness :
    nxt_job_create ⟨none, false, 1⟩ (some 7) 64
      = JobCreated.null_store [JobCall.nxt_mem_cache_zalloc0 7 64] :=
  (C16_job_create_on_failed_allocation ⟨none, false, 1⟩ 64).2.1 rfl 7

/-- C17 (counterexample): a job of 65536 bytes created with the context 7 records the size 0,
and `nxt_job_destroy` destroys the context instead of freeing the job. -/
theorem C17_counterexample_size_65536 :
    ∃ job calls, nxt_job_create ⟨none, true, 1⟩ (some 7) 65536
        = JobCreated.returned (some job) calls ∧
      nxt_job_destroy job = [JobCall.nxt_queue_remove, JobCall.nxt_mem_pool_destroy 7] :=
  ⟨_, _, rfl, by decide⟩

/-- C17 (amended): for every job created by `nxt_job_create` with a context and a size s
from 1 to 65535, `nxt_job_destroy` removes the job from its list and frees exactly s bytes
to the cache allocator of that context, once, and does not destroy the context; for every
job created without a context, of any size, it removes the job from its list and destroys
the private pool, once, and frees nothing to a cache allocator. -/
theorem C17_job_destroy_frees_recorded_size (env : JobEnv) (hmem : env.mem = true)
    (size : Nat) :
    (∀ mp, 1 ≤ size → size ≤ 65535 →
      ∃ job calls, nxt_job_create env (some mp) size = JobCreated.returned (some job) calls ∧
        nxt_job_destroy job
          = [JobCall.nxt_queue_remove, JobCall.nxt_mem_cache_free0 (some mp) size]) ∧
    (∀ p, env.pool = some p →
      ∃ job calls, nxt_job_create env none size = JobCreated.returned (some job) calls ∧
        nxt_job_destroy job = [JobCall.nxt_queue_remove, JobCall.nxt_mem_pool_destroy p]) := by
  refine ⟨?_, ?_⟩
  · intro mp h1 h2
    refine ⟨_, _, by simp only [nxt_job_create, nxt_job_create_end, hmem, if_true]; rfl, ?_⟩
    have hs : size % 65536 = size := Nat.mod_eq_of_lt (by omega)
    simp only [nxt_job_destroy, hs]
    rw [if_neg (by omega)]
  · intro p hp
    refine ⟨_, _, by simp only [nxt_job_create, nxt_job_create_end, hmem, hp, if_true]; rfl, ?_⟩
    simp [nxt_job_destroy]

/-- C17 (witness): a job of 64 bytes created with the context 7 is freed with 64 bytes. -/
theorem C17_job_destroy_frees_recorded_size_witness :
    ∃ job calls, nxt_job_create ⟨none, true, 1⟩ (some 7) 64
        = JobCreated.returned (some job) calls ∧
      nxt_job_destroy job
        = [JobCall.nxt_queue_remove, JobCall.nxt_mem_cache_free0 (some 7) 64] :=
  (C17_job_destroy_frees_recorded_size ⟨none, true, 1⟩ rfl 64).1 7 (by decide) (by decide)

/-! ### The output loop of `nxt_inet6_ntop` on an address without a zero group -/

/-- On an address without a zero group the output loop is still running after any number of
iterations. -/
theorem ntop_out_never_returns (pf : Platform) (hw : 32 ≤ pf.uint_bits) (addr : List Nat)
    (cap fuel : Nat) :
    ∃ written, nxt_inet6_ntop_out pf addr cap 8 0 16 fuel 0 [] = Ntop.running written := by
  cases h : nxt_inet6_ntop_out pf addr cap 8 0 16 fuel 0 [] with
  | running w => exact ⟨w, rfl⟩
  | text t =>
    have h4 := ntop_out_mono pf addr cap 8 0 16 fuel 4 0 [] t h
    rw [ntop_out_without_zero_run pf hw addr cap fuel] at h4
    exact absurd h4 (by simp)

/-- C21 (the code, the failing inputs included): given room for 39 bytes, the output loop of
`nxt_inet6_ntop` ends, with the same text for every bound of ten iterations or more, on every
address that has a zero group; on an address without a zero group, such as 1:2:3:4:5:6:7:8,
it does not end: whatever the number of iterations, the function has not returned. -/
theorem C21_ntop_loop_ends_iff_zero_group (pf : Platform) (hw : 32 ≤ pf.uint_bits)
    (A : List Nat) (hA : ∀ x ∈ A, x < 256) (cap : Nat) (hcap : NXT_INET6_ADDR_STR_LEN ≤ cap) :
    (has_zero_group A →
      ∃ t, ∀ fuel, 10 ≤ fuel → nxt_inet6_ntop pf fuel A cap = Ntop.text t) ∧
    (¬ has_zero_group A →
      ∀ fuel, ∃ written, nxt_inet6_ntop pf fuel A cap = Ntop.running written) := by
  have hc : 39 ≤ cap := hcap
  refine ⟨?_, ?_⟩
  · intro hz
    obtain ⟨s, hzs, hzg1, hs8, _, _⟩ := ntop_zero_sound A hz
    by_cases hv : 2 * s = 0 ∧
        (((nxt_inet6_ntop_zero A).zero_groups = 5 ∧ A.getD 10 0 = 255 ∧ A.getD 11 0 = 255)
          ∨ (nxt_inet6_ntop_zero A).zero_groups = 6
          ∨ ((nxt_inet6_ntop_zero A).zero_groups = 7 ∧ A.getD 14 0 ≠ 0 ∧ A.getD 15 0 ≠ 1))
    · have hs0 : (nxt_inet6_ntop_zero A).zero_start = 0 := by rw [hzs]; exact hv.1
      exact ⟨_, fun fuel hfuel =>
        ntop_v4_text pf hw A hA cap fuel _ hc hfuel hs0 rfl hv.2⟩
    · exact ⟨_, fun fuel hfuel =>
        ntop_hex_text pf hw A hA cap fuel s _ hc hfuel hzs rfl hzg1 hs8 hv⟩
  · intro hz fuel
    obtain ⟨w, hrun⟩ := ntop_out_never_returns pf hw A cap fuel
    refine ⟨w, ?_⟩
    unfold nxt_inet6_ntop
    rw [ntop_zero_without_zero_group A hz, if_neg (by unfold NXT_INET6_ADDR_STR_LEN; omega)]
    simp only [show ¬ ((8 : Nat) = 0) by omega, false_and, decide_False, Bool.false_eq_true,
      if_false]
    rw [hrun]

/-- C21 (witness): on 1:2:3:4:5:6:7:8 the function has not returned after a thousand
iterations of its output loop. -/
theorem C21_ntop_loop_ends_iff_zero_group_witness :
    ∃ written,
      nxt_inet6_ntop linux_x86_64 1000 [0, 1, 0, 2, 0, 3, 0, 4, 0, 5, 0, 6, 0, 7, 0, 8] 39
        = Ntop.running written :=
  (C21_ntop_loop_ends_iff_zero_group linux_x86_64 (by decide)
    [0, 1, 0, 2, 0, 3, 0, 4, 0, 5, 0, 6, 0, 7, 0, 8] (by decide) 39 (by decide)).2
    (by decide) 1000

/-- C22: on groups P, "::" and groups Q, each group one to four hexadecimal digits and at
most seven groups in all, `nxt_inet6_addr` returns `NXT_ERROR` exactly when P has seven
groups and Q none, the trailing "::" that stands for one group; in every other case it
returns `NXT_OK` and the destination holds the bytes of P, zero bytes, and the bytes of Q. -/
theorem C22_inet6_addr_rejects_only_trailing_compression (pf : Platform)
    (hw : 32 ≤ pf.uint_bits) (s6 : List Nat) (hs6 : s6.length = 16) (P Q : List (List Nat))
    (hP : ∀ t ∈ P, is_hex_group t) (hQ : ∀ t ∈ Q, is_hex_group t)
    (hmn : P.length + Q.length ≤ 7) :
    ((nxt_inet6_addr pf s6 (colon_join P ++ 58 :: 58 :: colon_join Q)).1 = NXT_ERROR ↔
      (P.length = 7 ∧ Q.length = 0)) ∧
    (¬ (P.length = 7 ∧ Q.length = 0) →
      nxt_inet6_addr pf s6 (colon_join P ++ 58 :: 58 :: colon_join Q) =
        (NXT_OK, groups_bytes (P.map hex_value)
          ++ List.replicate (16 - 2 * (P.length + Q.length)) 0
          ++ groups_bytes (Q.map hex_value))) := by
  by_cases h7 : P.length = 7
  · have hq : Q = [] := List.length_eq_zero.mp (by omega)
    subst hq
    have herr := inet6_addr_trailing_compress pf hw s6 hs6 P hP h7
    refine ⟨⟨fun _ => ⟨h7, rfl⟩, fun _ => herr⟩, fun h => absurd ⟨h7, rfl⟩ h⟩
  · have hok := inet6_addr_compressed pf hw s6 hs6 P Q hP hQ hmn (fun h => h7 h.1)
    refine ⟨⟨fun h => ?_, fun h => absurd h.1 h7⟩, fun _ => hok⟩
    rw [hok] at h
    simp [NXT_OK, NXT_ERROR] at h

/-- C22 (witness): "::2:3:4:5:6:7:8", where "::" stands for one group at the start, is
accepted as 0:2:3:4:5:6:7:8, and "1:2:3:4:5:6:7::", where it stands for one group at the
end, is rejected. -/
theorem C22_inet6_addr_rejects_only_trailing_compression_witness :
    nxt_inet6_addr linux_x86_64 (List.replicate 16 0) (str "::2:3:4:5:6:7:8")
        = (NXT_OK, [0, 0, 0, 2, 0, 3, 0, 4, 0, 5, 0, 6, 0, 7, 0, 8]) ∧
      (nxt_inet6_addr linux_x86_64 (List.replicate 16 0) (str "1:2:3:4:5:6:7::")).1
        = NXT_ERROR :=
  ⟨(C22_inet6_addr_rejects_only_trailing_compression linux_x86_64 (by decide)
      (List.replicate 16 0) (by decide) [] [[50], [51], [52], [53], [54], [55], [56]]
      (by decide) (by decide) (by decide)).2 (by decide),
   (C22_inet6_addr_rejects_only_trailing_compression linux_x86_64 (by decide)
      (List.replicate 16 0) (by decide) [[49], [50], [51], [52], [53], [54], [55]] []
      (by decide) (by decide) (by decide)).1.mpr (by decide)⟩

/-- C23: for every four octets a, b, c, d, `nxt_inet_addr` on the decimal text "a.b.c.d"
returns `INADDR_NONE` if and only if the four octets are all 255; in every other case the
four bytes of the value returned, as it lies in memory, are a, b, c, d. On the input
"255.255.255.255" `nxt_job_sockaddr_inet_parse` therefore hands the text to the resolver:
it sets the no-port flag, records the name, calls `nxt_job_resolve` and returns
`NXT_AGAIN`. -/
theorem C23_inet_addr_sentinel (pf : Platform) (hw : 32 ≤ pf.uint_bits) (a b c d : Nat)
    (ha : a < 256) (hb : b < 256) (hc : c < 256) (hd : d < 256) :
    (nxt_inet_addr pf (dotted_quad a b c d) = INADDR_NONE ↔
      (a = 255 ∧ b = 255 ∧ c = 255 ∧ d = 255)) ∧
    (¬ (a = 255 ∧ b = 255 ∧ c = 255 ∧ d = 255) →
      mem_bytes32 pf (nxt_inet_addr pf (dotted_quad a b c d)) = [a, b, c, d]) ∧
    (∀ jbs : nxt_job_sockaddr_parse_t, jbs.addr = dotted_quad 255 255 255 255 →
      nxt_job_sockaddr_inet_parse pf jbs =
        (NXT_AGAIN,
          { jbs with
            no_port := true, name := dotted_quad 255 255 255 255,
            calls := jbs.calls ++
              [Call.nxt_job_resolve (dotted_quad 255 255 255 255) jbs.port] })) := by
  have hval := inet_addr_dotted_quad pf hw a b c d ha hb hc hd
  refine ⟨⟨?_, ?_⟩, ?_, ?_⟩
  · intro h
    by_contra hne
    rw [hval] at h
    exact htonl_quad_ne_none pf a b c d ha hb hc hd hne h
  · rintro ⟨rfl, rfl, rfl, rfl⟩
    rw [hval, htonl_quad pf 255 255 255 255 (by omega) (by omega) (by omega) (by omega)]
    unfold INADDR_NONE
    split <;> rfl
  · intro _
    rw [hval]
    exact mem_bytes32_htonl_quad pf a b c d ha hb hc hd
  · intro jbs haddr
    rcases jbs with ⟨addr, port, log_level, name, sockaddrs, count, no_port, wildcard,
      mem_pool, calls⟩
    simp only at haddr
    subst haddr
    have hnc : nxt_memchr (dotted_quad 255 255 255 255) 58 = none :=
      memchr_none 58 _ (dotted_quad_no_colon 255 255 255 255)
    have hip := int_parse_dotted_quad pf 255 255 255 255
    have h255 : nxt_inet_addr pf (dotted_quad 255 255 255 255) = INADDR_NONE := by
      rw [inet_addr_dotted_quad pf hw 255 255 255 255 (by omega) (by omega) (by omega)
        (by omega), htonl_quad pf 255 255 255 255 (by omega) (by omega) (by omega) (by omega)]
      unfold INADDR_NONE
      split <;> rfl
    unfold nxt_job_sockaddr_inet_parse
    simp only [hnc, hip, if_false, h255, if_true, nxt_job_sockaddr_inet_resolve]

/-- C23 (witness): "192.0.2.1" gives the bytes 192, 0, 2, 1. -/
theorem C23_inet_addr_sentinel_witness :
    mem_bytes32 linux_x86_64 (nxt_inet_addr linux_x86_64 (str "192.0.2.1")) = [192, 0, 2, 1] :=
  (C23_inet_addr_sentinel linux_x86_64 (by decide) 192 0 2 1 (by decide) (by decide)
    (by decide) (by decide)).2.1 (by decide)

/-- C24: for every text that is not empty and does not start with a colon, `nxt_inet6_addr`
returns the same status and leaves the same bytes in the destination for the text with one
colon put in front as for the text itself. -/
theorem C24_inet6_addr_skips_leading_colon (pf : Platform) (s6 : List Nat) (c : Nat)
    (rest : List Nat) (hc : c ≠ 58) :
    nxt_inet6_addr pf s6 (58 :: c :: rest) = nxt_inet6_addr pf s6 (c :: rest) := by
  rw [inet6_addr_cons, inet6_addr_cons, if_pos rfl, if_neg hc]

/-- C24 (witness): ":1:2:3:4:5:6:7:8" is accepted as 1:2:3:4:5:6:7:8. -/
theorem C24_inet6_addr_skips_leading_colon_witness :
    nxt_inet6_addr linux_x86_64 (List.replicate 16 0) (str ":1:2:3:4:5:6:7:8")
        = nxt_inet6_addr linux_x86_64 (List.replicate 16 0) (str "1:2:3:4:5:6:7:8") ∧
      nxt_inet6_addr linux_x86_64 (List.replicate 16 0) (str "1:2:3:4:5:6:7:8")
        = (NXT_OK, [0, 1, 0, 2, 0, 3, 0, 4, 0, 5, 0, 6, 0, 7, 0, 8]) :=
  ⟨C24_inet6_addr_skips_leading_colon linux_x86_64 (List.replicate 16 0) 49
      (str ":2:3:4:5:6:7:8") (by decide), by decide⟩

end NxtUnit
